import Mathlib

/-!
# Minimum-centers branch and bound

A shallow embedding of `AlgorithmBranchAndBound.cpp` (the exact solver for the
minimum number of centers covering a graph within a radius) and theorems about
it.

Conventions of the embedding

* vertex ids are natural numbers (the source uses `int` ids running from `0`);
* distances and the radius are integers (`int` in the source);
* `std::vector<bool> markedVertices` is a `List Bool`, `std::vector<int>` a
  `List Nat`; `push_back x` is `· ++ [x]`, `pop_back` is `List.dropLast`;
* an access outside a vector, and the read `nonDominatedVertices[0]` of an empty
  vector, are undefined in the source and are faults of the model;
* `partialSolution` is passed by reference in the source: `branchAndBound`
  returns it next to the `Solution`;
* the `while (true)` loop of `solveMinCenters` takes a bound on its number of
  iterations, and running past it is a fault of its own.
-/

namespace AlgorithmBranchAndBound

/-- The ways a run of the model stops without a result. -/
inductive Fault where
  /-- A vector is indexed outside its size. -/
  | outOfBounds
  /-- The read `nonDominatedVertices[0]` finds the vector empty. -/
  | emptyNonDominated
  /-- The iteration bound given to the `while (true)` loop is used up. -/
  | outOfFuel
  deriving DecidableEq, Repr

/-- The `Solution` value of the source: the centers and the validity flag. A
default-constructed `Solution` has no centers. -/
structure Solution where
  centers : List Nat
  isValid : Bool
  deriving DecidableEq, Repr

/-- Modelled from the spec: the `Graph` class, whose header and implementation are
not among the sources. It is built from an adjacency description and exposes
`getNbVertices()`, `getNeighbors(v)` and `getDistance(v1, v2)`; the distances are
precomputed when the graph is built. -/
structure Graph where
  adjacencyList : List (List Nat)
  distance : Nat → Nat → Int

/-- Modelled from the spec: `Graph::getNbVertices()`, the number of adjacency
rows. -/
def Graph.getNbVertices (graph : Graph) : Nat :=
  graph.adjacencyList.length

/-- Modelled from the spec: `Graph::getNeighbors(v)`, the adjacency row of `v`;
a vertex outside the graph is a fault. -/
def Graph.getNeighbors (graph : Graph) (vertex : Nat) : Except Fault (List Nat) :=
  match graph.adjacencyList[vertex]? with
  | some neighbors => .ok neighbors
  | none => .error .outOfBounds

/-- Modelled from the spec: `Graph::getDistance(v1, v2)`, the precomputed
distance. -/
def Graph.getDistance (graph : Graph) (vertex1 vertex2 : Nat) : Int :=
  graph.distance vertex1 vertex2

/-- Modelled from the spec: the constructor `Graph(adjacencyList)`. The distance
table it precomputes is not described by the sources; it is the parameter
`precompute`, and nothing in the search reads it. -/
def Graph.ofAdjacencyList (precompute : List (List Nat) → Nat → Nat → Int)
    (adjacencyList : List (List Nat)) : Graph :=
  { adjacencyList := adjacencyList, distance := precompute adjacencyList }

/-- The inner loop of `transformToUnitGraph`: for `vertex2` running over
`vertices`, push `vertex2` on the row of `vertex1` when it is within `radius`. -/
def transformRow (graph : Graph) (radius : Int) (vertex1 : Nat) (vertices : List Nat)
    (adjacencyList : List (List Nat)) : List (List Nat) :=
  vertices.foldl
    (fun adjacency vertex2 =>
      if graph.getDistance vertex1 vertex2 ≤ radius then
        List.modify (fun row => row ++ [vertex2]) vertex1 adjacency
      else adjacency)
    adjacencyList

/-- The adjacency list built by the two nested loops of `transformToUnitGraph`,
starting from `nbVertices` empty rows. -/
def unitAdjacencyList (graph : Graph) (radius : Int) : List (List Nat) :=
  (List.range graph.getNbVertices).foldl
    (fun adjacency vertex1 =>
      transformRow graph radius vertex1 (List.range graph.getNbVertices) adjacency)
    (List.replicate graph.getNbVertices [])

/-- `AlgorithmBranchAndBound::transformToUnitGraph`. -/
def transformToUnitGraph (precompute : List (List Nat) → Nat → Nat → Int)
    (graph : Graph) (radius : Int) : Graph :=
  Graph.ofAdjacencyList precompute (unitAdjacencyList graph radius)

/-- The assignment `markedVertices[vertex] = true`. -/
def setMarked (markedVertices : List Bool) (vertex : Nat) : Except Fault (List Bool) :=
  if vertex < markedVertices.length then .ok (markedVertices.set vertex true)
  else .error .outOfBounds

/-- The loop `for (int neighbor : graph.getNeighbors(vertex))` that marks every
neighbor. -/
def markNeighbors : List Nat → List Bool → Except Fault (List Bool)
  | [], markedVertices => .ok markedVertices
  | neighbor :: rest, markedVertices =>
    match setMarked markedVertices neighbor with
    | .error e => .error e
    | .ok marked => markNeighbors rest marked

/-- The loop `for (int vertex : partialSolution)`: mark the vertex, then its
neighbors. -/
def markPartialSolution (graph : Graph) : List Nat → List Bool → Except Fault (List Bool)
  | [], markedVertices => .ok markedVertices
  | vertex :: rest, markedVertices =>
    match setMarked markedVertices vertex with
    | .error e => .error e
    | .ok marked =>
      match graph.getNeighbors vertex with
      | .error e => .error e
      | .ok neighbors =>
        match markNeighbors neighbors marked with
        | .error e => .error e
        | .ok marked2 => markPartialSolution graph rest marked2

/-- The vector `markedVertices` of `branchAndBound` once the marking loop has
run: it starts as `getNbVertices()` times `false`. -/
def computeMarkedVertices (graph : Graph) (partialSolution : List Nat) :
    Except Fault (List Bool) :=
  markPartialSolution graph partialSolution (List.replicate graph.getNbVertices false)

/-- The vector `nonDominatedVertices`: the indices of the `false` marks, pushed in
increasing order. -/
def collectNonDominated (markedVertices : List Bool) : List Nat :=
  (List.range markedVertices.length).foldl
    (fun nonDominatedVertices vertex =>
      if markedVertices[vertex]? = some false then nonDominatedVertices ++ [vertex]
      else nonDominatedVertices)
    []

/-- The loop that selects the pivot: `(minDegVertex, minDeg)` is replaced by a
vertex of strictly smaller degree. -/
def selectMinDeg (graph : Graph) : List Nat → Nat × Nat → Except Fault (Nat × Nat)
  | [], best => .ok best
  | vertex :: rest, (minDegVertex, minDeg) =>
    match graph.getNeighbors vertex with
    | .error e => .error e
    | .ok neighbors =>
      if neighbors.length < minDeg then selectMinDeg graph rest (vertex, neighbors.length)
      else selectMinDeg graph rest (minDegVertex, minDeg)

/-- The loop over the neighbors of the pivot: push the neighbor, recurse, return
on the first valid solution, else pop. `recurse` is the recursive call with the
budget decreased. When the loop ends the default `Solution` is returned
invalid. -/
def neighborsLoop (recurse : List Nat → Except Fault (Solution × List Nat)) :
    List Nat → List Nat → Except Fault (Solution × List Nat)
  | [], partialSolution => .ok ({ centers := [], isValid := false }, partialSolution)
  | neighbor :: rest, partialSolution =>
    match recurse (partialSolution ++ [neighbor]) with
    | .error e => .error e
    | .ok (newSolution, pushed) =>
      if newSolution.isValid then .ok (newSolution, pushed)
      else neighborsLoop recurse rest pushed.dropLast

/-- `AlgorithmBranchAndBound::branchAndBound(graph, partialSolution, nbCenters)`
for a budget `nbCenters ≥ 0`. The result is the returned `Solution` and the
content of `partialSolution` when the call returns. -/
def branchAndBound (graph : Graph) : Nat → List Nat → Except Fault (Solution × List Nat)
  | 0, partialSolution =>
    match computeMarkedVertices graph partialSolution with
    | .error e => .error e
    | .ok markedVertices =>
      if markedVertices.all (fun b => b) then
        .ok ({ centers := partialSolution, isValid := true }, partialSolution)
      else .ok ({ centers := [], isValid := false }, partialSolution)
  | nbCenters + 1, partialSolution =>
    match computeMarkedVertices graph partialSolution with
    | .error e => .error e
    | .ok markedVertices =>
      match collectNonDominated markedVertices with
      | [] => .error .emptyNonDominated
      | first :: others =>
        match graph.getNeighbors first with
        | .error e => .error e
        | .ok firstNeighbors =>
          match selectMinDeg graph (first :: others) (first, firstNeighbors.length) with
          | .error e => .error e
          | .ok (minDegVertex, _) =>
            match branchAndBound graph nbCenters (partialSolution ++ [minDegVertex]) with
            | .error e => .error e
            | .ok (newSolution, pushed) =>
              if newSolution.isValid then .ok (newSolution, pushed)
              else
                match graph.getNeighbors minDegVertex with
                | .error e => .error e
                | .ok neighbors =>
                  neighborsLoop (branchAndBound graph nbCenters) neighbors pushed.dropLast

/-- The `while (true)` loop of `solveMinCenters`, run for at most `fuel`
iterations from the budget `nbCenters`. -/
def solveMinCentersLoop (unweightedGraph : Graph) : Nat → Nat → Except Fault Solution
  | 0, _ => .error .outOfFuel
  | fuel + 1, nbCenters =>
    match branchAndBound unweightedGraph nbCenters [] with
    | .error e => .error e
    | .ok (solution, _) =>
      if solution.isValid then .ok solution
      else solveMinCentersLoop unweightedGraph fuel (nbCenters + 1)

/-- `AlgorithmBranchAndBound::solveMinCenters(graph, radius)` with its loop run
for at most `fuel` iterations. -/
def solveMinCenters (precompute : List (List Nat) → Nat → Nat → Int)
    (graph : Graph) (radius : Int) (fuel : Nat) : Except Fault Solution :=
  solveMinCentersLoop (transformToUnitGraph precompute graph radius) fuel 0

/-! ## Well-formed graphs and coverage -/

/-- Every id stored in the adjacency list is a vertex of the graph. -/
def Graph.WellFormed (graph : Graph) : Prop :=
  ∀ row ∈ graph.adjacencyList, ∀ v ∈ row, v < graph.getNbVertices

/-- The adjacency row of `center`, empty outside the graph. -/
def Graph.row (graph : Graph) (center : Nat) : List Nat :=
  (graph.adjacencyList[center]?).getD []

/-- Vertex `v` is dominated by the sequence `centers`: it is one of them or it is
in the adjacency row of one of them. -/
def Dominated (graph : Graph) (centers : List Nat) (v : Nat) : Prop :=
  ∃ c ∈ centers, c = v ∨ v ∈ graph.row c

instance (graph : Graph) (centers : List Nat) (v : Nat) :
    Decidable (Dominated graph centers v) := by
  unfold Dominated; infer_instance

/-- All ids of the sequence are vertices of the graph. -/
def InRange (graph : Graph) (centers : List Nat) : Prop :=
  ∀ c ∈ centers, c < graph.getNbVertices

/-! ## Graphs of the scenarios -/

/-- The path graph `0-1-2-3-4` with its shortest-path distances `|a - b|`. -/
def pathGraph : Graph :=
  { adjacencyList := [[1], [0, 2], [1, 3], [2, 4], [3]],
    distance := fun a b => |(a : Int) - (b : Int)| }

/-- The star graph on the vertices `0, ..., n` whose center is the vertex `c`, the
other `n` vertices being its leaves, with its shortest-path distances: `0` from a
vertex to itself, `1` between the center and a leaf, `2` between two leaves. -/
def starGraph (n c : Nat) : Graph :=
  { adjacencyList := (List.range (n + 1)).map (fun v =>
      if v = c then (List.range (n + 1)).filter (fun u => decide (u ≠ c)) else [c]),
    distance := fun a b => if a = b then 0 else if a = c ∨ b = c then 1 else 2 }

/-- The Graph model of the data-model section: the distance is non-negative,
symmetric, zero from a vertex to itself, and satisfies the triangle inequality. -/
structure GraphModel (graph : Graph) : Prop where
  nonneg : ∀ u v, u < graph.getNbVertices → v < graph.getNbVertices →
    0 ≤ graph.getDistance u v
  symm : ∀ u v, u < graph.getNbVertices → v < graph.getNbVertices →
    graph.getDistance u v = graph.getDistance v u
  self : ∀ v, v < graph.getNbVertices → graph.getDistance v v = 0
  triangle : ∀ u v w, u < graph.getNbVertices → v < graph.getNbVertices →
    w < graph.getNbVertices →
    graph.getDistance u w ≤ graph.getDistance u v + graph.getDistance v w

/-- Two vertices joined by an edge, all distances being `0` (an edge of weight
zero). -/
def zeroDistanceGraph : Graph :=
  { adjacencyList := [[1], [0]], distance := fun _ _ => 0 }

/-! ## The pivot and the record of the calls -/

/-- The selection of the pivot in the recursive case of `branchAndBound`: the
marking loop, the collection of `nonDominatedVertices`, the read
`nonDominatedVertices[0]` and the minimum-degree loop; the result is
`minDegVertex`. -/
def selectPivot (graph : Graph) (partialSolution : List Nat) : Except Fault Nat :=
  match computeMarkedVertices graph partialSolution with
  | .error e => .error e
  | .ok markedVertices =>
    match collectNonDominated markedVertices with
    | [] => .error .emptyNonDominated
    | first :: others =>
      match graph.getNeighbors first with
      | .error e => .error e
      | .ok firstNeighbors =>
        match selectMinDeg graph (first :: others) (first, firstNeighbors.length) with
        | .error e => .error e
        | .ok (minDegVertex, _) => .ok minDegVertex

/-- What is recorded about a call of `branchAndBound` and the calls below it. -/
structure CallLog where
  /-- The number of nested levels of recursive calls below the call. -/
  depth : Nat
  /-- For the call and every call below it that selected a pivot: the pivot and
  the number of recursive calls that call made itself. -/
  branching : List (Nat × Nat)
  deriving DecidableEq, Repr

/-- The loop over the neighbors of the pivot, `neighborsLoop`, which also counts
the recursive calls it makes, the largest depth recorded by them and their
records of branching. -/
def neighborsLoopLogged
    (recurse : List Nat → Except Fault (Solution × List Nat) × CallLog) :
    List Nat → List Nat → Except Fault (Solution × List Nat) × Nat × CallLog
  | [], partialSolution =>
    (.ok ({ centers := [], isValid := false }, partialSolution), 0,
      { depth := 0, branching := [] })
  | neighbor :: rest, partialSolution =>
    match recurse (partialSolution ++ [neighbor]) with
    | (.error e, log) => (.error e, 1, log)
    | (.ok (newSolution, pushed), log) =>
      if newSolution.isValid then (.ok (newSolution, pushed), 1, log)
      else
        match neighborsLoopLogged recurse rest pushed.dropLast with
        | (result, calls, logRest) =>
          (result, calls + 1,
            { depth := max log.depth logRest.depth,
              branching := log.branching ++ logRest.branching })

/-- The function `branchAndBound` which also records its calls: the depth of the
recursion below the call, and for every call that selected a pivot the number of
recursive calls it made. -/
def branchAndBoundLogged (graph : Graph) :
    Nat → List Nat → Except Fault (Solution × List Nat) × CallLog
  | 0, partialSolution =>
    (branchAndBound graph 0 partialSolution, { depth := 0, branching := [] })
  | nbCenters + 1, partialSolution =>
    match selectPivot graph partialSolution with
    | .error e => (.error e, { depth := 0, branching := [] })
    | .ok minDegVertex =>
      match branchAndBoundLogged graph nbCenters (partialSolution ++ [minDegVertex]) with
      | (.error e, log) =>
        (.error e, { depth := log.depth + 1, branching := (minDegVertex, 1) :: log.branching })
      | (.ok (newSolution, pushed), log) =>
        if newSolution.isValid then
          (.ok (newSolution, pushed),
            { depth := log.depth + 1, branching := (minDegVertex, 1) :: log.branching })
        else
          match graph.getNeighbors minDegVertex with
          | .error e =>
            (.error e,
              { depth := log.depth + 1, branching := (minDegVertex, 1) :: log.branching })
          | .ok neighbors =>
            match neighborsLoopLogged (branchAndBoundLogged graph nbCenters) neighbors
                pushed.dropLast with
            | (result, calls, logRest) =>
              (result,
                { depth := max log.depth logRest.depth + 1,
                  branching :=
                    (minDegVertex, 1 + calls) :: (log.branching ++ logRest.branching) })

/-- The largest length of an adjacency row of the graph. -/
def Graph.maxDegree (graph : Graph) : Nat :=
  (graph.adjacencyList.map List.length).foldl max 0

/-- The grid graph of `width` columns and `height` rows with 4-connectivity: the
vertex of column `x` and row `y` is `y * width + x`, and the distance is the
shortest-path distance of the grid, `|x1 - x2| + |y1 - y2|`. -/
def gridGraph (width height : Nat) : Graph :=
  { adjacencyList := (List.range (width * height)).map (fun v =>
      (List.range (width * height)).filter (fun u =>
        (u / width = v / width ∧ (u % width = v % width + 1 ∨ v % width = u % width + 1)) ∨
        (u % width = v % width ∧ (u / width = v / width + 1 ∨ v / width = u / width + 1)))),
    distance := fun a b =>
      |((a % width : Nat) : Int) - ((b % width : Nat) : Int)| +
        |((a / width : Nat) : Int) - ((b / width : Nat) : Int)| }

end AlgorithmBranchAndBound

/-! # Reading graphs and settings (`FileIO.cpp`) -/

namespace FileIO

/-- The ways a run of the reading functions stops without a result. -/
inductive ReadFault where
  /-- The call `exit(EXIT_FAILURE)` after a read error is reported. -/
  | fatal
  /-- A vector or an array is indexed outside its size. -/
  | outOfBounds
  /-- The exception `std::out_of_range` of `substr` or of `std::stoi`, which nothing
  catches. -/
  | outOfRange
  /-- The exception `std::invalid_argument` of `std::stoi`, which nothing catches. -/
  | invalidArgument
  /-- An element of an array is read before any value was stored in it. -/
  | uninitialized
  /-- The iteration bound given to a loop of the model is used up. -/
  | outOfFuel
  deriving DecidableEq, Repr

/-- The value `std::string::npos`, the largest `size_t` (64 bits). -/
def npos : Nat := 2 ^ 64 - 1

/-- The library function `str.find(token, pos)`: the first index at or after `pos`
where `token` occurs in `str`, and `npos` when there is none. -/
def find (str token : List Char) (pos : Nat) : Nat :=
  match (List.range (str.length + 1 - pos)).find?
      (fun i => token.isPrefixOf (str.drop (pos + i))) with
  | some i => pos + i
  | none => npos

/-- The library function `str.substr(pos, count)`: at most `count` characters from
index `pos`; it throws when `pos` is past the end. -/
def substr (str : List Char) (pos count : Nat) : Except ReadFault (List Char) :=
  if pos ≤ str.length then .ok ((str.drop pos).take count) else .error .outOfRange

/-- The loop of `tokenizeString`, run for at most `fuel` iterations. The
subtraction `position - begin` and the addition `+ 1` are those of `size_t`. -/
def tokenizeLoop (str token : List Char) :
    Nat → Nat → Nat → List (List Char) → Except ReadFault (List (List Char))
  | 0, _, position, tokens =>
    if position = str.length then .ok tokens else .error .outOfFuel
  | fuel + 1, begin, position, tokens =>
    if position = str.length then .ok tokens
    else
      let found := find str token begin
      let position := if found = npos then str.length else found
      match substr str begin ((position + 2 ^ 64 - begin) % 2 ^ 64) with
      | .error e => .error e
      | .ok piece =>
        tokenizeLoop str token fuel ((find str token position + 1) % 2 ^ 64) position
          (tokens ++ [piece])

/-- The function `tokenizeString(str, token)`; its loop is given one iteration per
character of `str` and one more. -/
def tokenizeString (str token : List Char) : Except ReadFault (List (List Char)) :=
  tokenizeLoop str token (str.length + 1) 0 0 []

/-- The white-space characters skipped by `atoi`: space, tab, line feed, vertical
tab, form feed, carriage return. -/
def isSpace (c : Char) : Bool :=
  c.toNat = 32 || (9 ≤ c.toNat && c.toNat ≤ 13)

/-- The value of the longest prefix of decimal digits, added to `acc` times the
matching power of ten. -/
def digitsValue : List Char → Int → Int
  | [], acc => acc
  | c :: rest, acc =>
    if 48 ≤ c.toNat ∧ c.toNat ≤ 57 then digitsValue rest (10 * acc + (c.toNat - 48 : Nat))
    else acc

/-- The library function `atoi`: white space is skipped, then an optional sign and
the longest run of decimal digits are read; with no digit the value is `0`. -/
def atoi (s : List Char) : Int :=
  match s.dropWhile isSpace with
  | [] => 0
  | c :: rest =>
    if c = '-' then - digitsValue rest 0
    else if c = '+' then digitsValue rest 0
    else digitsValue (c :: rest) 0

/-- The body of the loop of `readGraph` on one line: the line is split on `":"`,
the first component is the vertex, the second is split on `" "` and every token is
converted with `atoi`. The result is the vertex and `vertexNeighbors`. -/
def readGraphLine (line : List Char) : Except ReadFault (Int × List Int) :=
  match tokenizeString line [':'] with
  | .error e => .error e
  | .ok components =>
    match components[0]? with
    | none => .error .outOfBounds
    | some component0 =>
      match components[1]? with
      | none => .error .outOfBounds
      | some component1 =>
        match tokenizeString component1 [' '] with
        | .error e => .error e
        | .ok vertexNeighborsStr => .ok (atoi component0, vertexNeighborsStr.map atoi)

/-- The lambda `coordinatesToIndex` of `readBMP`. -/
def coordinatesToIndex (width x y : Int) : Int :=
  y * width + x

/-- The integers `x` with `lo ≤ x < hi` in increasing order: the values taken by
the variable of a loop `for (int x = lo; x < hi; ++x)`. -/
def loopValues (lo hi : Int) : List Int :=
  (List.range (hi - lo).toNat).map (fun i => lo + (i : Int))

/-- The statement `adjacencyList[index].push_back(value)`. -/
def pushNeighbor (adjacencyList : List (List Int)) (index value : Int) :
    Except ReadFault (List (List Int)) :=
  if 0 ≤ index ∧ index < adjacencyList.length then
    .ok (List.modify (fun row => row ++ [value]) index.toNat adjacencyList)
  else .error .outOfBounds

/-- A sequence of statements `adjacencyList[index].push_back(value)`, given as the
pairs `(index, value)`. -/
def pushNeighbors :
    List (Int × Int) → List (List Int) → Except ReadFault (List (List Int))
  | [], adjacencyList => .ok adjacencyList
  | (index, value) :: rest, adjacencyList =>
    match pushNeighbor adjacencyList index value with
    | .error e => .error e
    | .ok adjacency => pushNeighbors rest adjacency

/-- The pairs `(index, value)` of the statements `push_back` of `readBMP`, in the
order of the source: the four corners, the top row, the right column, the bottom
row, the left column, the interior points. -/
def gridPushes (width height : Int) : List (Int × Int) :=
  let index := coordinatesToIndex width
  [ (index 0 0, index 1 0), (index 0 0, index 0 1),
    (index (width - 1) 0, index (width - 2) 0), (index (width - 1) 0, index (width - 1) 1),
    (index (width - 1) (height - 1), index (width - 1) (height - 2)),
    (index (width - 1) (height - 1), index (width - 2) (height - 1)),
    (index 0 (height - 1), index 1 (height - 1)),
    (index 0 (height - 1), index 0 (height - 2)) ]
  ++ (loopValues 1 (width - 1)).flatMap (fun x =>
      [ (index x 0, index (x + 1) 0), (index x 0, index x 1), (index x 0, index (x - 1) 0) ])
  ++ (loopValues 1 (height - 1)).flatMap (fun y =>
      [ (index (width - 1) y, index (width - 1) (y - 1)),
        (index (width - 1) y, index (width - 2) y),
        (index (width - 1) y, index (width - 1) (y + 1)) ])
  ++ (loopValues 1 (width - 1)).flatMap (fun x =>
      [ (index x (height - 1), index x (height - 2)),
        (index x (height - 1), index (x + 1) (height - 1)),
        (index x (height - 1), index (x - 1) (height - 1)) ])
  ++ (loopValues 1 (height - 1)).flatMap (fun y =>
      [ (index 0 y, index 0 (y - 1)), (index 0 y, index 1 y), (index 0 y, index 0 (y + 1)) ])
  ++ (loopValues 1 (width - 1)).flatMap (fun x =>
      (loopValues 1 (height - 1)).flatMap (fun y =>
        [ (index x y, index x (y - 1)), (index x y, index (x - 1) y),
          (index x y, index (x + 1) y), (index x y, index x (y + 1)) ]))

/-- The adjacency list built by `readBMP` for an image of `width` columns and
`height` rows: `width * height` empty rows (the size of `verticesColors`), then
the statements `push_back`. -/
def gridAdjacencyList (width height : Int) : Except ReadFault (List (List Int)) :=
  pushNeighbors (gridPushes width height) (List.replicate (width * height).toNat [])

/-- Modelled from the spec: the `Settings` value, whose declaration is not among
the sources: an integer scale factor and a mapping from the key of a color to an
integer pixel class. -/
structure Settings where
  scale : Int
  mapPixelValue : Int → Option Int

/-- The checks and the stores of the loop of `readSettingFile` over the tokens of a
color line, once the tokens are read: `results` are the values `std::stoi` returned
for the successive tokens. Each value is checked, then stored by
`colorValues[i] = result`. The reading of the tokens from the characters of the
line is `readColorTokens`. -/
def storeColorValues :
    List Int → Nat → List (Option Int) → Except ReadFault (List (Option Int))
  | [], _, colorValues => .ok colorValues
  | result :: rest, i, colorValues =>
    if i = 0 ∧ result < 0 then .error .fatal
    else if i ≠ 0 ∧ (result < 0 ∨ result > 255) then .error .fatal
    else if i < colorValues.length then
      storeColorValues rest (i + 1) (colorValues.set i (some result))
    else .error .outOfBounds

/-- The treatment by `readSettingFile` of the values of the tokens of one color
line, once the tokens are read: the array `colorValues` of four integers starts
uninitialized, the values are checked and stored, and the index is stored in
`mapPixelValue` under the key of the color. The treatment of the line itself, from
its characters, is `readSettingLine`. -/
def readColorLine (settings : Settings) (results : List Int) : Except ReadFault Settings :=
  match storeColorValues results 0 [none, none, none, none] with
  | .error e => .error e
  | .ok colorValues =>
    match colorValues with
    | [some index, some red, some green, some blue] =>
      let color := 1000000 * red + 1000 * green + blue
      .ok { scale := settings.scale,
            mapPixelValue := fun key =>
              if key = color then some index else settings.mapPixelValue key }
    | _ => .error .uninitialized

/-- The key of a color, the expression `1000000 * R + 1000 * G + B` computed in
`int` by `readSettingFile` (from `colorValues[1..3]`) and by `readBMP` (from the
three components of a pixel). -/
def colorKey (red green blue : Int) : Int :=
  1000000 * red + 1000 * green + blue

/-- The index of the first character of the list that satisfies `p`. -/
def firstIndex (p : Char → Bool) : List Char → Option Nat
  | [] => none
  | c :: rest => if p c then some 0 else (firstIndex p rest).map (fun i => i + 1)

/-- The library function `str.find_first_of(c, pos)`: the first index at or after
`pos` of a character equal to `c`, and `npos` when there is none. -/
def findFirstOf (str : List Char) (c : Char) (pos : Nat) : Nat :=
  match firstIndex (fun x => x = c) (str.drop pos) with
  | some i => pos + i
  | none => npos

/-- The library function `str.find_first_not_of(c, pos)`: the first index at or
after `pos` of a character different from `c`, and `npos` when there is none. -/
def findFirstNotOf (str : List Char) (c : Char) (pos : Nat) : Nat :=
  match firstIndex (fun x => x ≠ c) (str.drop pos) with
  | some i => pos + i
  | none => npos

/-- The library function `std::stoi`: white space is skipped, then an optional sign
and the longest run of decimal digits are read. It throws `std::invalid_argument`
when there is no digit and `std::out_of_range` when the value is not an `int`;
nothing in `readSettingFile` catches them. -/
def stoi (s : List Char) : Except ReadFault Int :=
  match s.dropWhile isSpace with
  | [] => .error .invalidArgument
  | c :: rest =>
    match (if c = '-' ∨ c = '+' then rest else c :: rest) with
    | [] => .error .invalidArgument
    | first :: digits =>
      if 48 ≤ first.toNat ∧ first.toNat ≤ 57 then
        if -(2 ^ 31 : Int) ≤
              (if c = '-' then - digitsValue (first :: digits) 0
                else digitsValue (first :: digits) 0) ∧
            (if c = '-' then - digitsValue (first :: digits) 0
              else digitsValue (first :: digits) 0) ≤ 2 ^ 31 - 1 then
          .ok (if c = '-' then - digitsValue (first :: digits) 0
            else digitsValue (first :: digits) 0)
        else .error .outOfRange
      else .error .invalidArgument

/-- The conversion `static_cast<int>(line.size())`. -/
def castToInt (size : Nat) : Int :=
  ((size : Int) + 2 ^ 31) % 2 ^ 32 - 2 ^ 31

/-- The conversion of an `int` to `size_t`, as in `tokenEnd = lineLength` and
`tokenEnd == lineLength`. -/
def intToSize (value : Int) : Nat :=
  (value % 2 ^ 64).toNat

/-- The loop `while (iterator != line.end())` of `readSettingFile` on the characters
of a line, run for at most `fuel` iterations: `position` is `iterator -
line.begin()`. The token is cut out with `find_first_not_of`, `find_first_of` and
`substr` in `size_t` arithmetic, converted with `std::stoi`, checked and stored in
`colorValues[i]`; the iterator then moves by `tokenEnd - tokenBegin + 1`, a `size_t`
converted to the signed difference type, and an iterator moved outside the line is
a fault. -/
def readColorTokens (line : List Char) (lineLength : Int) :
    Nat → Nat → Nat → List (Option Int) → Except ReadFault (List (Option Int))
  | 0, position, _, colorValues =>
    if position = line.length then .ok colorValues else .error .outOfFuel
  | fuel + 1, position, i, colorValues =>
    if position = line.length then .ok colorValues
    else
      let tokenBegin : Nat := findFirstNotOf line ' ' position
      let found : Nat := findFirstOf line ' ' position
      let tokenEnd : Nat := if found = npos then intToSize lineLength else found
      match substr line tokenBegin ((tokenEnd + 2 ^ 64 - tokenBegin) % 2 ^ 64) with
      | .error e => .error e
      | .ok token =>
        match stoi token with
        | .error e => .error e
        | .ok result =>
          if i = 0 ∧ result < 0 then .error .fatal
          else if i ≠ 0 ∧ (result < 0 ∨ result > 255) then .error .fatal
          else if i < colorValues.length then
            if tokenEnd = intToSize lineLength then
              readColorTokens line lineLength fuel line.length (i + 1)
                (colorValues.set i (some result))
            else
              let step : Nat := (tokenEnd + 2 ^ 64 - tokenBegin + 1) % 2 ^ 64
              let moved : Int :=
                (position : Int) + (if step < 2 ^ 63 then (step : Int) else (step : Int) - 2 ^ 64)
              if 0 ≤ moved ∧ moved ≤ (line.length : Int) then
                readColorTokens line lineLength fuel moved.toNat (i + 1)
                  (colorValues.set i (some result))
              else .error .outOfBounds
          else .error .outOfBounds

/-- The body of the second loop of `readSettingFile` on one line: empty lines and
comments are skipped; on any other line the array `colorValues` of four integers
starts uninitialized, the tokens are read, checked and stored, and the index is
stored in `mapPixelValue` under the key of the color. The loop over the tokens is
given five iterations: every iteration that goes on stores one more value, and the
fifth store is outside the array. -/
def readSettingLine (settings : Settings) (line : List Char) : Except ReadFault Settings :=
  if castToInt line.length = 0 then .ok settings
  else if line.head? = some '#' then .ok settings
  else
    match readColorTokens line (castToInt line.length) 5 0 0 [none, none, none, none] with
    | .error e => .error e
    | .ok colorValues =>
      match colorValues with
      | [some index, some red, some green, some blue] =>
        let color := 1000000 * red + 1000 * green + blue
        .ok { scale := settings.scale,
              mapPixelValue := fun key =>
                if key = color then some index else settings.mapPixelValue key }
      | _ => .error .uninitialized

end FileIO

/-! # The integer program (`AlgorithmMIP.cpp`) -/

namespace AlgorithmMIP

open AlgorithmBranchAndBound (Graph)

/-- A variable created with `addVar(0.0, 1.0, 0.0, GRB_BINARY, ...)` takes the
value `0` or `1`. -/
def IsBinary (value : Int) : Prop :=
  value = 0 ∨ value = 1

/-- The objective of `solveMinCenters`: the sum of the variables `x[vertex]`. -/
def objective (graph : Graph) (x : Nat → Int) : Int :=
  ∑ vertex in Finset.range graph.getNbVertices, x vertex

/-- An assignment of the variables `x[vertex]` and `c[vertex1][vertex2]` of
`solveMinCenters` satisfies the model: the variables are binary, and the three
families of constraints added by `addConstr` hold. -/
def SatisfiesConstraints (graph : Graph) (radius : Int) (x : Nat → Int)
    (c : Nat → Nat → Int) : Prop :=
  (∀ vertex, vertex < graph.getNbVertices → IsBinary (x vertex)) ∧
  (∀ vertex1, vertex1 < graph.getNbVertices → ∀ vertex2, vertex2 < graph.getNbVertices →
    IsBinary (c vertex1 vertex2)) ∧
  (∀ vertex1, vertex1 < graph.getNbVertices → ∀ vertex2, vertex2 < graph.getNbVertices →
    graph.getDistance vertex1 vertex2 * c vertex1 vertex2 ≤ radius) ∧
  (∀ vertex1, vertex1 < graph.getNbVertices → ∀ vertex2, vertex2 < graph.getNbVertices →
    c vertex1 vertex2 ≤ x vertex1) ∧
  (∀ vertex, vertex < graph.getNbVertices →
    ∑ center in Finset.range graph.getNbVertices, c center vertex = 1)

instance (value : Int) : Decidable (IsBinary value) := by
  unfold IsBinary; infer_instance

instance (graph : Graph) (radius : Int) (x : Nat → Int) (c : Nat → Nat → Int) :
    Decidable (SatisfiesConstraints graph radius x c) := by
  unfold SatisfiesConstraints; infer_instance

/-- The contract of the exact solver, in the words of the spec, for the vertices
chosen by `x`: every vertex lies within the radius of a vertex with `x = 1`. -/
def CoversWithin (graph : Graph) (radius : Int) (x : Nat → Int) : Prop :=
  ∀ vertex, vertex < graph.getNbVertices →
    ∃ center, center < graph.getNbVertices ∧ x center = 1 ∧
      graph.getDistance center vertex ≤ radius

end AlgorithmMIP

namespace AlgorithmBranchAndBound

/-! ## Basic facts -/

theorem Graph.getNeighbors_of_lt (graph : Graph) {v : Nat} (h : v < graph.getNbVertices) :
    graph.getNeighbors v = .ok (graph.row v) := by
  unfold Graph.getNbVertices at h
  simp [Graph.getNeighbors, Graph.row, List.getElem?_eq_getElem h]

theorem Graph.row_lt (graph : Graph) (hwf : graph.WellFormed) {c v : Nat}
    (hv : v ∈ graph.row c) : v < graph.getNbVertices := by
  unfold Graph.row at hv
  cases hrow : graph.adjacencyList[c]? with
  | none => simp [hrow] at hv
  | some row =>
    simp only [hrow, Option.getD_some] at hv
    exact hwf row (List.getElem?_mem hrow) v hv

theorem Dominated_append (graph : Graph) (centers : List Nat) (c v : Nat) :
    Dominated graph (centers ++ [c]) v ↔ Dominated graph centers v ∨ c = v ∨ v ∈ graph.row c := by
  simp [Dominated, or_and_right, exists_or]

theorem InRange_append (graph : Graph) {centers : List Nat} {c : Nat}
    (h : InRange graph centers) (hc : c < graph.getNbVertices) :
    InRange graph (centers ++ [c]) := by
  intro x hx
  rcases List.mem_append.1 hx with hx | hx
  · exact h x hx
  · simp at hx; omega

/-! ## The marking loops -/

theorem setMarked_of_lt {markedVertices : List Bool} {vertex : Nat}
    (h : vertex < markedVertices.length) :
    setMarked markedVertices vertex = .ok (markedVertices.set vertex true) := by
  simp [setMarked, h]

theorem getElem?_set_true (markedVertices : List Bool) {vertex : Nat}
    (h : vertex < markedVertices.length) (i : Nat) :
    (markedVertices.set vertex true)[i]? = some true ↔
      (markedVertices[i]? = some true ∨ vertex = i) := by
  rw [List.getElem?_set]
  by_cases hvi : vertex = i
  · subst hvi; simp [h]
  · simp [hvi]

theorem markNeighbors_spec (neighbors : List Nat) :
    ∀ markedVertices : List Bool, (∀ v ∈ neighbors, v < markedVertices.length) →
      ∃ marked, markNeighbors neighbors markedVertices = .ok marked ∧
        marked.length = markedVertices.length ∧
        ∀ i, marked[i]? = some true ↔ (markedVertices[i]? = some true ∨ i ∈ neighbors) := by
  induction neighbors with
  | nil => intro m _; exact ⟨m, rfl, rfl, by simp⟩
  | cons v rest ih =>
    intro m hm
    have hv : v < m.length := hm v (List.mem_cons_self _ _)
    obtain ⟨m2, h1, h2, h3⟩ := ih (m.set v true) (by
      intro w hw; rw [List.length_set]; exact hm w (List.mem_cons_of_mem _ hw))
    refine ⟨m2, ?_, ?_, ?_⟩
    · simp only [markNeighbors, setMarked_of_lt hv]; exact h1
    · rw [h2, List.length_set]
    · intro i
      rw [h3 i, getElem?_set_true m hv i, List.mem_cons]
      constructor
      · rintro ((h | h) | h)
        · exact Or.inl h
        · exact Or.inr (Or.inl h.symm)
        · exact Or.inr (Or.inr h)
      · rintro (h | h | h)
        · exact Or.inl (Or.inl h)
        · exact Or.inl (Or.inr h.symm)
        · exact Or.inr h

theorem markPartialSolution_spec (graph : Graph) (hwf : graph.WellFormed)
    (partialSolution : List Nat) :
    ∀ markedVertices : List Bool, markedVertices.length = graph.getNbVertices →
      InRange graph partialSolution →
      ∃ marked, markPartialSolution graph partialSolution markedVertices = .ok marked ∧
        marked.length = graph.getNbVertices ∧
        ∀ i, marked[i]? = some true ↔
          (markedVertices[i]? = some true ∨ Dominated graph partialSolution i) := by
  induction partialSolution with
  | nil => intro m hm _; exact ⟨m, rfl, hm, by simp [Dominated]⟩
  | cons c rest ih =>
    intro m hm hin
    have hc : c < graph.getNbVertices := hin c (List.mem_cons_self _ _)
    have hcm : c < m.length := by omega
    obtain ⟨m1, h1, h2, h3⟩ := markNeighbors_spec (graph.row c) (m.set c true) (by
      intro w hw; rw [List.length_set, hm]; exact graph.row_lt hwf hw)
    obtain ⟨m2, k1, k2, k3⟩ := ih m1 (by rw [h2, List.length_set, hm])
      (fun x hx => hin x (List.mem_cons_of_mem _ hx))
    refine ⟨m2, ?_, k2, ?_⟩
    · simp only [markPartialSolution, setMarked_of_lt hcm, graph.getNeighbors_of_lt hc, h1]
      exact k1
    · intro i
      rw [k3 i, h3 i, getElem?_set_true m hcm i]
      simp only [Dominated, List.mem_cons, exists_eq_or_imp]
      constructor
      · rintro (((h | h) | h) | h)
        · exact Or.inl h
        · exact Or.inr (Or.inl (Or.inl h))
        · exact Or.inr (Or.inl (Or.inr h))
        · exact Or.inr (Or.inr h)
      · rintro (h | (h | h) | h)
        · exact Or.inl (Or.inl (Or.inl h))
        · exact Or.inl (Or.inl (Or.inr h))
        · exact Or.inl (Or.inr h)
        · exact Or.inr h

theorem computeMarkedVertices_spec (graph : Graph) (hwf : graph.WellFormed)
    (partialSolution : List Nat) (hin : InRange graph partialSolution) :
    ∃ marked, computeMarkedVertices graph partialSolution = .ok marked ∧
      marked.length = graph.getNbVertices ∧
      ∀ i, marked[i]? = some true ↔ Dominated graph partialSolution i := by
  obtain ⟨m, h1, h2, h3⟩ := markPartialSolution_spec graph hwf partialSolution
    (List.replicate graph.getNbVertices false) (by simp) hin
  refine ⟨m, h1, h2, fun i => ?_⟩
  rw [h3 i]
  constructor
  · rintro (h | h)
    · rw [List.getElem?_replicate] at h
      split at h <;> simp at h
    · exact h
  · exact Or.inr

/-! ## The non-dominated vertices and the pivot -/

theorem foldl_push_eq_filter {α : Type} (p : α → Prop) [DecidablePred p] (l : List α) :
    ∀ acc : List α,
      l.foldl (fun acc x => if p x then acc ++ [x] else acc) acc =
        acc ++ l.filter (fun x => decide (p x)) := by
  induction l with
  | nil => intro acc; simp
  | cons x rest ih =>
    intro acc
    rw [List.foldl_cons, ih]
    by_cases hx : p x
    · simp [hx, List.filter_cons]
    · simp [hx, List.filter_cons]

theorem collectNonDominated_eq (markedVertices : List Bool) :
    collectNonDominated markedVertices =
      (List.range markedVertices.length).filter
        (fun v => decide (markedVertices[v]? = some false)) := by
  unfold collectNonDominated
  rw [foldl_push_eq_filter (fun v => markedVertices[v]? = some false)]
  simp

theorem mem_collectNonDominated (markedVertices : List Bool) (v : Nat) :
    v ∈ collectNonDominated markedVertices ↔
      v < markedVertices.length ∧ ¬ markedVertices[v]? = some true := by
  rw [collectNonDominated_eq, List.mem_filter, List.mem_range]
  constructor
  · rintro ⟨h1, h2⟩
    refine ⟨h1, ?_⟩
    simp at h2
    simp [h2]
  · rintro ⟨h1, h2⟩
    refine ⟨h1, ?_⟩
    rw [List.getElem?_eq_getElem h1] at h2 ⊢
    cases hb : markedVertices[v] <;> simp_all

theorem selectMinDeg_spec (graph : Graph) (vertices : List Nat) :
    ∀ minDegVertex minDeg : Nat, (∀ v ∈ vertices, v < graph.getNbVertices) →
      ∃ pivot deg, selectMinDeg graph vertices (minDegVertex, minDeg) = .ok (pivot, deg) ∧
        ((pivot = minDegVertex ∧ deg = minDeg) ∨
          (pivot ∈ vertices ∧ deg = (graph.row pivot).length)) ∧
        deg ≤ minDeg ∧ ∀ v ∈ vertices, deg ≤ (graph.row v).length := by
  induction vertices with
  | nil => intro b d _; exact ⟨b, d, rfl, Or.inl ⟨rfl, rfl⟩, le_refl _, by simp⟩
  | cons x rest ih =>
    intro b d hin
    have hx : x < graph.getNbVertices := hin x (List.mem_cons_self _ _)
    have hrest : ∀ v ∈ rest, v < graph.getNbVertices :=
      fun v hv => hin v (List.mem_cons_of_mem _ hv)
    by_cases hlt : (graph.row x).length < d
    · obtain ⟨p, dp, h1, h2, h3, h4⟩ := ih x (graph.row x).length hrest
      refine ⟨p, dp, ?_, ?_, by omega, ?_⟩
      · simp only [selectMinDeg, graph.getNeighbors_of_lt hx, if_pos hlt]; exact h1
      · rcases h2 with ⟨rfl, rfl⟩ | ⟨h, h'⟩
        · exact Or.inr ⟨List.mem_cons_self _ _, rfl⟩
        · exact Or.inr ⟨List.mem_cons_of_mem _ h, h'⟩
      · intro v hv
        rcases List.mem_cons.1 hv with rfl | hv
        · exact h3
        · exact h4 v hv
    · obtain ⟨p, dp, h1, h2, h3, h4⟩ := ih b d hrest
      refine ⟨p, dp, ?_, ?_, h3, ?_⟩
      · simp only [selectMinDeg, graph.getNeighbors_of_lt hx, if_neg hlt]; exact h1
      · rcases h2 with h | ⟨h, h'⟩
        · exact Or.inl h
        · exact Or.inr ⟨List.mem_cons_of_mem _ h, h'⟩
      · intro v hv
        rcases List.mem_cons.1 hv with rfl | hv
        · omega
        · exact h4 v hv

/-- The recursive case of `branchAndBound` on a well-formed graph: either every
vertex is dominated and the pivot read faults, or a non-dominated pivot of minimum
degree is selected and the call is the loop over the pivot followed by its
neighbors. The pivot does not depend on the budget. -/
theorem branchAndBound_succ (graph : Graph) (hwf : graph.WellFormed)
    (partialSolution : List Nat) (hin : InRange graph partialSolution) :
    ((∀ v, v < graph.getNbVertices → Dominated graph partialSolution v) ∧
        ∀ k, branchAndBound graph (k + 1) partialSolution = .error .emptyNonDominated) ∨
      ∃ pivot, pivot < graph.getNbVertices ∧ ¬ Dominated graph partialSolution pivot ∧
        (∀ v, v < graph.getNbVertices → ¬ Dominated graph partialSolution v →
          (graph.row pivot).length ≤ (graph.row v).length) ∧
        ∀ k, branchAndBound graph (k + 1) partialSolution =
          neighborsLoop (branchAndBound graph k) (pivot :: graph.row pivot) partialSolution := by
  obtain ⟨m, hm1, hm2, hm3⟩ := computeMarkedVertices_spec graph hwf partialSolution hin
  have hmem : ∀ v, v ∈ collectNonDominated m ↔
      v < graph.getNbVertices ∧ ¬ Dominated graph partialSolution v := by
    intro v; rw [mem_collectNonDominated, hm2, hm3]
  cases hnd : collectNonDominated m with
  | nil =>
    left
    refine ⟨fun v hv => ?_, fun k => ?_⟩
    · by_contra hdom
      have := (hmem v).2 ⟨hv, hdom⟩
      rw [hnd] at this; simp at this
    · simp only [branchAndBound, hm1, hnd]
  | cons first others =>
    right
    have hfirst : first < graph.getNbVertices :=
      ((hmem first).1 (by rw [hnd]; exact List.mem_cons_self _ _)).1
    have hall : ∀ v ∈ first :: others, v < graph.getNbVertices :=
      fun v hv => ((hmem v).1 (by rw [hnd]; exact hv)).1
    obtain ⟨p, dp, h1, h2, h3, h4⟩ :=
      selectMinDeg_spec graph (first :: others) first (graph.row first).length hall
    have hp : p ∈ first :: others := by
      rcases h2 with ⟨rfl, _⟩ | ⟨h, _⟩
      · exact List.mem_cons_self _ _
      · exact h
    have hdp : dp = (graph.row p).length := by
      rcases h2 with ⟨rfl, h⟩ | ⟨_, h⟩ <;> exact h
    have hpn := (hmem p).1 (by rw [hnd]; exact hp)
    refine ⟨p, hpn.1, hpn.2, fun v hv hdom => ?_, fun k => ?_⟩
    · rw [← hdp]; exact h4 v (by rw [← hnd]; exact (hmem v).2 ⟨hv, hdom⟩)
    · simp only [branchAndBound, hm1, hnd, graph.getNeighbors_of_lt hfirst, h1,
        graph.getNeighbors_of_lt hpn.1, neighborsLoop]

/-- The base case of `branchAndBound` on a well-formed graph. -/
theorem branchAndBound_zero (graph : Graph) (hwf : graph.WellFormed)
    (partialSolution : List Nat) (hin : InRange graph partialSolution) :
    ((∀ v, v < graph.getNbVertices → Dominated graph partialSolution v) ∧
        branchAndBound graph 0 partialSolution =
          .ok ({ centers := partialSolution, isValid := true }, partialSolution)) ∨
      ((∃ v, v < graph.getNbVertices ∧ ¬ Dominated graph partialSolution v) ∧
        branchAndBound graph 0 partialSolution =
          .ok ({ centers := [], isValid := false }, partialSolution)) := by
  obtain ⟨m, hm1, hm2, hm3⟩ := computeMarkedVertices_spec graph hwf partialSolution hin
  by_cases hall : ∀ v, v < graph.getNbVertices → Dominated graph partialSolution v
  · left
    refine ⟨hall, ?_⟩
    have : m.all (fun b => b) = true := by
      rw [List.all_eq_true]
      intro b hb
      obtain ⟨i, hi⟩ := List.mem_iff_getElem?.1 hb
      have hlt : i < m.length := by
        by_contra hge
        rw [List.getElem?_eq_none (by omega)] at hi
        cases hi
      have := (hm3 i).2 (hall i (by omega))
      rw [hi] at this
      simpa using this
    simp only [branchAndBound, hm1, this, if_true]
  · right
    push_neg at hall
    refine ⟨hall, ?_⟩
    obtain ⟨v, hv, hdom⟩ := hall
    have : m.all (fun b => b) = false := by
      rw [Bool.eq_false_iff]
      intro hcon
      rw [List.all_eq_true] at hcon
      have hlt : v < m.length := by omega
      have := hcon m[v] (List.getElem_mem _)
      apply hdom
      rw [← hm3 v, List.getElem?_eq_getElem hlt]
      simpa using this
    simp only [branchAndBound, hm1, this]
    rfl

/-! ## The loop over the candidates -/

theorem neighborsLoop_cases (recurse : List Nat → Except Fault (Solution × List Nat))
    (partialSolution : List Nat) (candidates : List Nat) :
    (∀ c ∈ candidates, ∀ s stk, recurse (partialSolution ++ [c]) = .ok (s, stk) →
        s.isValid = false → stk = partialSolution ++ [c]) →
    ∀ s stk, neighborsLoop recurse candidates partialSolution = .ok (s, stk) →
      (s.isValid = false ∧ stk = partialSolution ∧ s.centers = [] ∧
          ∀ c ∈ candidates, ∃ s1, recurse (partialSolution ++ [c]) =
            .ok (s1, partialSolution ++ [c]) ∧ s1.isValid = false) ∨
        (s.isValid = true ∧ ∃ c ∈ candidates, recurse (partialSolution ++ [c]) = .ok (s, stk)) := by
  induction candidates with
  | nil =>
    intro _ s stk h
    simp only [neighborsLoop, Except.ok.injEq, Prod.mk.injEq] at h
    obtain ⟨rfl, rfl⟩ := h
    exact Or.inl ⟨rfl, rfl, rfl, by simp⟩
  | cons c rest ih =>
    intro hframe s stk h
    rw [neighborsLoop] at h
    cases hrec : recurse (partialSolution ++ [c]) with
    | error e => rw [hrec] at h; cases h
    | ok r =>
      obtain ⟨s1, stk1⟩ := r
      rw [hrec] at h
      cases hv : s1.isValid with
      | true =>
        simp only [hv, if_true, Except.ok.injEq, Prod.mk.injEq] at h
        obtain ⟨rfl, rfl⟩ := h
        exact Or.inr ⟨hv, c, List.mem_cons_self _ _, hrec⟩
      | false =>
        have hstk := hframe c (List.mem_cons_self _ _) s1 stk1 hrec hv
        subst hstk
        simp only [hv, List.dropLast_concat] at h
        rcases ih (fun x hx => hframe x (List.mem_cons_of_mem _ hx)) s stk h with
          ⟨h1, h2, h3, h4⟩ | ⟨h1, x, hx, h2⟩
        · refine Or.inl ⟨h1, h2, h3, ?_⟩
          intro x hx
          rcases List.mem_cons.1 hx with rfl | hx
          · exact ⟨s1, hrec, hv⟩
          · exact h4 x hx
        · exact Or.inr ⟨h1, x, List.mem_cons_of_mem _ hx, h2⟩

theorem neighborsLoop_ok (recurse : List Nat → Except Fault (Solution × List Nat))
    (partialSolution : List Nat) (candidates : List Nat) :
    (∀ c ∈ candidates, ∀ s stk, recurse (partialSolution ++ [c]) = .ok (s, stk) →
        s.isValid = false → stk = partialSolution ++ [c]) →
    (∀ c ∈ candidates, ∃ r, recurse (partialSolution ++ [c]) = .ok r) →
    ∃ r, neighborsLoop recurse candidates partialSolution = .ok r := by
  induction candidates with
  | nil => intro _ _; exact ⟨_, rfl⟩
  | cons c rest ih =>
    intro hframe hok
    obtain ⟨⟨s1, stk1⟩, hrec⟩ := hok c (List.mem_cons_self _ _)
    cases hv : s1.isValid with
    | true => exact ⟨(s1, stk1), by simp only [neighborsLoop, hrec, hv, if_true]⟩
    | false =>
      have hstk := hframe c (List.mem_cons_self _ _) s1 stk1 hrec hv
      subst hstk
      obtain ⟨r, hr⟩ := ih (fun x hx => hframe x (List.mem_cons_of_mem _ hx))
        (fun x hx => hok x (List.mem_cons_of_mem _ hx))
      exact ⟨r, by simp only [neighborsLoop, hrec, hv, List.dropLast_concat]; exact hr⟩

/-- When every candidate other than `c` fails and `c` succeeds, the loop returns
the result of `c`. -/
theorem neighborsLoop_pick (recurse : List Nat → Except Fault (Solution × List Nat))
    (partialSolution : List Nat) (c : Nat) (s : Solution) (stk : List Nat)
    (hgood : recurse (partialSolution ++ [c]) = .ok (s, stk)) (hvalid : s.isValid = true)
    (candidates : List Nat) :
    (∀ x ∈ candidates, x ≠ c → recurse (partialSolution ++ [x]) =
        .ok ({ centers := [], isValid := false }, partialSolution ++ [x])) →
    c ∈ candidates →
    neighborsLoop recurse candidates partialSolution = .ok (s, stk) := by
  induction candidates with
  | nil => intro _ hc; simp at hc
  | cons x rest ih =>
    intro hbad hc
    by_cases hxc : x = c
    · subst hxc
      simp only [neighborsLoop, hgood, hvalid, if_true]
    · have hx := hbad x (List.mem_cons_self _ _) hxc
      have hc2 : c ∈ rest := by
        rcases List.mem_cons.1 hc with h | h
        · exact absurd h.symm hxc
        · exact h
      simp only [neighborsLoop, hx, List.dropLast_concat]
      exact ih (fun y hy => hbad y (List.mem_cons_of_mem _ hy)) hc2

/-! ## What a returned result says -/

/-- Results of `branchAndBound` on a well-formed graph: an invalid result leaves
the stack as it was and carries no centers; a valid result is the stack, which
extends the partial solution by as many centers as the budget and dominates
every vertex. -/
theorem branchAndBound_result (graph : Graph) (hwf : graph.WellFormed) (k : Nat) :
    ∀ partialSolution : List Nat, InRange graph partialSolution →
      ∀ s stk, branchAndBound graph k partialSolution = .ok (s, stk) →
        (s.isValid = false → stk = partialSolution ∧ s.centers = []) ∧
        (s.isValid = true → stk = s.centers ∧
          s.centers.length = partialSolution.length + k ∧
          partialSolution <+: s.centers ∧ InRange graph s.centers ∧
          ∀ v, v < graph.getNbVertices → Dominated graph s.centers v) := by
  induction k with
  | zero =>
    intro P hin s stk h
    rcases branchAndBound_zero graph hwf P hin with ⟨hall, heq⟩ | ⟨_, heq⟩
    · rw [heq] at h
      simp only [Except.ok.injEq, Prod.mk.injEq] at h
      obtain ⟨rfl, rfl⟩ := h
      refine ⟨fun hc => by simp at hc, fun _ => ⟨rfl, by simp, List.prefix_refl _, hin, hall⟩⟩
    · rw [heq] at h
      simp only [Except.ok.injEq, Prod.mk.injEq] at h
      obtain ⟨rfl, rfl⟩ := h
      exact ⟨fun _ => ⟨rfl, rfl⟩, fun hc => by simp at hc⟩
  | succ k ih =>
    intro P hin s stk h
    rcases branchAndBound_succ graph hwf P hin with ⟨_, herr⟩ | ⟨p, hp, _, _, heq⟩
    · rw [herr k] at h; cases h
    · rw [heq k] at h
      have hcand : ∀ c ∈ p :: graph.row p, InRange graph (P ++ [c]) := by
        intro c hc
        apply InRange_append graph hin
        rcases List.mem_cons.1 hc with rfl | hc
        · exact hp
        · exact graph.row_lt hwf hc
      have hframe : ∀ c ∈ p :: graph.row p, ∀ s stk,
          branchAndBound graph k (P ++ [c]) = .ok (s, stk) →
            s.isValid = false → stk = P ++ [c] :=
        fun c hc s stk hr hv => ((ih (P ++ [c]) (hcand c hc) s stk hr).1 hv).1
      rcases neighborsLoop_cases _ P _ hframe s stk h with
        ⟨h1, h2, h3, _⟩ | ⟨h1, c, hc, h2⟩
      · exact ⟨fun _ => ⟨h2, h3⟩, fun hv => (by rw [h1] at hv; cases hv)⟩
      · refine ⟨fun hv => (by rw [h1] at hv; cases hv), fun hv => ?_⟩
        obtain ⟨a1, a2, a3, a4, a5⟩ := (ih (P ++ [c]) (hcand c hc) s stk h2).2 hv
        refine ⟨a1, ?_, (List.prefix_append P [c]).trans a3, a4, a5⟩
        rw [a2, List.length_append]; simp; omega

/-- An invalid result at budget `k` means the call at budget `k + 1` does not
fault. -/
theorem branchAndBound_next_ok (graph : Graph) (hwf : graph.WellFormed) (k : Nat) :
    ∀ partialSolution : List Nat, InRange graph partialSolution →
      ∀ s stk, branchAndBound graph k partialSolution = .ok (s, stk) → s.isValid = false →
        ∃ r, branchAndBound graph (k + 1) partialSolution = .ok r := by
  induction k with
  | zero =>
    intro P hin s stk h hv
    rcases branchAndBound_succ graph hwf P hin with ⟨hall, _⟩ | ⟨p, hp, _, _, heq⟩
    · rcases branchAndBound_zero graph hwf P hin with ⟨_, h0⟩ | ⟨⟨v, hv1, hv2⟩, _⟩
      · rw [h0] at h
        simp only [Except.ok.injEq, Prod.mk.injEq] at h
        obtain ⟨rfl, rfl⟩ := h
        simp at hv
      · exact absurd (hall v hv1) hv2
    · rw [heq 0]
      have hcand : ∀ c ∈ p :: graph.row p, InRange graph (P ++ [c]) := by
        intro c hc
        apply InRange_append graph hin
        rcases List.mem_cons.1 hc with rfl | hc
        · exact hp
        · exact graph.row_lt hwf hc
      apply neighborsLoop_ok
      · exact fun c hc s stk hr hv =>
          ((branchAndBound_result graph hwf 0 (P ++ [c]) (hcand c hc) s stk hr).1 hv).1
      · intro c hc
        rcases branchAndBound_zero graph hwf (P ++ [c]) (hcand c hc) with ⟨_, h0⟩ | ⟨_, h0⟩
        · exact ⟨_, h0⟩
        · exact ⟨_, h0⟩
  | succ k ih =>
    intro P hin s stk h hv
    rcases branchAndBound_succ graph hwf P hin with ⟨_, herr⟩ | ⟨p, hp, _, _, heq⟩
    · rw [herr k] at h; cases h
    · rw [heq (k + 1)]
      rw [heq k] at h
      have hcand : ∀ c ∈ p :: graph.row p, InRange graph (P ++ [c]) := by
        intro c hc
        apply InRange_append graph hin
        rcases List.mem_cons.1 hc with rfl | hc
        · exact hp
        · exact graph.row_lt hwf hc
      have hframe : ∀ j, ∀ c ∈ p :: graph.row p, ∀ s stk,
          branchAndBound graph j (P ++ [c]) = .ok (s, stk) →
            s.isValid = false → stk = P ++ [c] :=
        fun j c hc s stk hr hv =>
          ((branchAndBound_result graph hwf j (P ++ [c]) (hcand c hc) s stk hr).1 hv).1
      rcases neighborsLoop_cases _ P _ (hframe k) s stk h with
        ⟨_, _, _, h4⟩ | ⟨h1, _⟩
      · apply neighborsLoop_ok _ _ _ (hframe (k + 1))
        intro c hc
        obtain ⟨s1, hs1, hv1⟩ := h4 c hc
        exact ih (P ++ [c]) (hcand c hc) s1 _ hs1 hv1
      · rw [h1] at hv; cases hv

/-! ## The budget that succeeds -/

/-- An invalid result at budget `k` leaves more than `k` vertices non-dominated:
the first branch alone dominates one more vertex at every level. -/
theorem branchAndBound_invalid_lt (graph : Graph) (hwf : graph.WellFormed) (k : Nat) :
    ∀ partialSolution : List Nat, InRange graph partialSolution →
      ∀ s stk, branchAndBound graph k partialSolution = .ok (s, stk) → s.isValid = false →
        k < ((Finset.range graph.getNbVertices).filter
          (fun v => ¬ Dominated graph partialSolution v)).card := by
  induction k with
  | zero =>
    intro P hin s stk h hv
    rcases branchAndBound_zero graph hwf P hin with ⟨_, h0⟩ | ⟨⟨v, hv1, hv2⟩, _⟩
    · rw [h0] at h
      simp only [Except.ok.injEq, Prod.mk.injEq] at h
      obtain ⟨rfl, rfl⟩ := h
      simp at hv
    · apply Finset.card_pos.2
      exact ⟨v, Finset.mem_filter.2 ⟨Finset.mem_range.2 hv1, hv2⟩⟩
  | succ k ih =>
    intro P hin s stk h hv
    rcases branchAndBound_succ graph hwf P hin with ⟨_, herr⟩ | ⟨p, hp, hpd, _, heq⟩
    · rw [herr k] at h; cases h
    · rw [heq k] at h
      have hcand : ∀ c ∈ p :: graph.row p, InRange graph (P ++ [c]) := by
        intro c hc
        apply InRange_append graph hin
        rcases List.mem_cons.1 hc with rfl | hc
        · exact hp
        · exact graph.row_lt hwf hc
      have hframe : ∀ c ∈ p :: graph.row p, ∀ s stk,
          branchAndBound graph k (P ++ [c]) = .ok (s, stk) →
            s.isValid = false → stk = P ++ [c] :=
        fun c hc s stk hr hv =>
          ((branchAndBound_result graph hwf k (P ++ [c]) (hcand c hc) s stk hr).1 hv).1
      rcases neighborsLoop_cases _ P _ hframe s stk h with ⟨_, _, _, h4⟩ | ⟨h1, _⟩
      · obtain ⟨s1, hs1, hv1⟩ := h4 p (List.mem_cons_self _ _)
        have hlt := ih (P ++ [p]) (hcand p (List.mem_cons_self _ _)) s1 _ hs1 hv1
        have hss : (Finset.range graph.getNbVertices).filter
              (fun v => ¬ Dominated graph (P ++ [p]) v) ⊂
            (Finset.range graph.getNbVertices).filter (fun v => ¬ Dominated graph P v) := by
          rw [Finset.ssubset_iff_of_subset]
          · refine ⟨p, Finset.mem_filter.2 ⟨Finset.mem_range.2 hp, hpd⟩, ?_⟩
            intro hmem
            exact (Finset.mem_filter.1 hmem).2
              ((Dominated_append graph P p p).2 (Or.inr (Or.inl rfl)))
          · intro v hmem
            obtain ⟨hv1, hv2⟩ := Finset.mem_filter.1 hmem
            exact Finset.mem_filter.2
              ⟨hv1, fun hd => hv2 ((Dominated_append graph P p v).2 (Or.inl hd))⟩
        have := Finset.card_lt_card hss
        omega
      · rw [h1] at hv; cases hv

/-- On a well-formed graph some budget `k ≤ nbVertices` gives a valid result from
the empty partial solution, every smaller budget giving an invalid result (and no
fault). -/
theorem exists_first_valid (graph : Graph) (hwf : graph.WellFormed) :
    ∃ k, k ≤ graph.getNbVertices ∧
      (∃ s stk, branchAndBound graph k [] = .ok (s, stk) ∧ s.isValid = true) ∧
      ∀ j, j < k → ∃ s stk, branchAndBound graph j [] = .ok (s, stk) ∧ s.isValid = false := by
  have hnil : InRange graph [] := fun c hc => by simp at hc
  have key : ∀ j, (∃ k, k < j ∧
        (∃ s stk, branchAndBound graph k [] = .ok (s, stk) ∧ s.isValid = true) ∧
        ∀ i, i < k → ∃ s stk, branchAndBound graph i [] = .ok (s, stk) ∧ s.isValid = false) ∨
      ∀ i, i < j → ∃ s stk, branchAndBound graph i [] = .ok (s, stk) ∧ s.isValid = false := by
    intro j
    induction j with
    | zero => right; intro i hi; omega
    | succ j ih =>
      rcases ih with ⟨k, hk, h⟩ | hall
      · exact Or.inl ⟨k, by omega, h⟩
      · have hok : ∃ r, branchAndBound graph j [] = .ok r := by
          cases j with
          | zero =>
            rcases branchAndBound_zero graph hwf [] hnil with ⟨_, h0⟩ | ⟨_, h0⟩
            · exact ⟨_, h0⟩
            · exact ⟨_, h0⟩
          | succ j =>
            obtain ⟨s, stk, h1, h2⟩ := hall j (by omega)
            exact branchAndBound_next_ok graph hwf j [] hnil s stk h1 h2
        obtain ⟨⟨s, stk⟩, hr⟩ := hok
        cases hv : s.isValid with
        | true => exact Or.inl ⟨j, by omega, ⟨s, stk, hr, hv⟩, hall⟩
        | false =>
          right
          intro i hi
          rcases Nat.lt_succ_iff_lt_or_eq.1 hi with h | h
          · exact hall i h
          · subst h; exact ⟨s, stk, hr, hv⟩
  rcases key (graph.getNbVertices + 1) with ⟨k, hk, h⟩ | hall
  · exact ⟨k, by omega, h⟩
  · exfalso
    obtain ⟨s, stk, h1, h2⟩ := hall graph.getNbVertices (by omega)
    have := branchAndBound_invalid_lt graph hwf _ [] hnil s stk h1 h2
    have hle := Finset.card_filter_le (Finset.range graph.getNbVertices)
      (fun v => ¬ Dominated graph [] v)
    rw [Finset.card_range] at hle
    omega

/-- The loop of `solveMinCenters` returns the first valid result. -/
theorem solveMinCentersLoop_first (unweightedGraph : Graph) (d : Nat) :
    ∀ nbCenters fuel s stk,
      (∀ j, j < d → ∃ s1 stk1, branchAndBound unweightedGraph (nbCenters + j) [] =
        .ok (s1, stk1) ∧ s1.isValid = false) →
      branchAndBound unweightedGraph (nbCenters + d) [] = .ok (s, stk) → s.isValid = true →
      d < fuel → solveMinCentersLoop unweightedGraph fuel nbCenters = .ok s := by
  induction d with
  | zero =>
    intro k0 fuel s stk _ h hv hf
    obtain ⟨fuel, rfl⟩ : ∃ f, fuel = f + 1 := ⟨fuel - 1, by omega⟩
    simp only [Nat.add_zero] at h
    simp only [solveMinCentersLoop, h, hv, if_true]
  | succ d ih =>
    intro k0 fuel s stk hbefore h hv hf
    obtain ⟨fuel, rfl⟩ : ∃ f, fuel = f + 1 := ⟨fuel - 1, by omega⟩
    obtain ⟨s1, stk1, h1, hv1⟩ := hbefore 0 (by omega)
    simp only [Nat.add_zero] at h1
    simp only [solveMinCentersLoop, h1, hv1]
    apply ih (k0 + 1) fuel s stk _ _ hv (by omega)
    · intro j hj
      have := hbefore (j + 1) (by omega)
      rwa [show k0 + (j + 1) = k0 + 1 + j by omega] at this
    · rwa [show k0 + (d + 1) = k0 + 1 + d by omega] at h

/-! ## The coverage graph -/

theorem transformRow_length (graph : Graph) (radius : Int) (vertex1 : Nat)
    (vertices : List Nat) :
    ∀ adjacencyList : List (List Nat),
      (transformRow graph radius vertex1 vertices adjacencyList).length =
        adjacencyList.length := by
  induction vertices with
  | nil => intro adj; rfl
  | cons x rest ih =>
    intro adj
    unfold transformRow at ih ⊢
    rw [List.foldl_cons, ih]
    split
    · rw [List.length_modify]
    · rfl

theorem transformRow_getElem? (graph : Graph) (radius : Int) (vertex1 : Nat)
    (vertices : List Nat) :
    ∀ (adjacencyList : List (List Nat)) (i : Nat),
      (transformRow graph radius vertex1 vertices adjacencyList)[i]? =
        (adjacencyList[i]?).map (fun row =>
          if vertex1 = i then
            row ++ vertices.filter (fun vertex2 =>
              decide (graph.getDistance vertex1 vertex2 ≤ radius))
          else row) := by
  induction vertices with
  | nil =>
    intro adj i
    cases h : adj[i]? <;> simp [transformRow, h]
  | cons x rest ih =>
    intro adj i
    unfold transformRow at ih ⊢
    rw [List.foldl_cons, ih]
    by_cases hd : graph.getDistance vertex1 x ≤ radius
    · rw [if_pos hd, List.getElem?_modify]
      cases h : adj[i]? with
      | none => simp
      | some row =>
        by_cases hi : vertex1 = i
        · subst hi; simp [List.filter_cons, hd]
        · simp [hi]
    · rw [if_neg hd]
      cases h : adj[i]? with
      | none => simp
      | some row => simp [List.filter_cons, hd]

theorem foldl_transformRow_length (graph : Graph) (radius : Int) (vertices : List Nat)
    (sources : List Nat) :
    ∀ adjacencyList : List (List Nat),
      (sources.foldl (fun adjacency vertex1 =>
        transformRow graph radius vertex1 vertices adjacency) adjacencyList).length =
        adjacencyList.length := by
  induction sources with
  | nil => intro adj; rfl
  | cons x rest ih => intro adj; rw [List.foldl_cons, ih, transformRow_length]

theorem foldl_transformRow_getElem? (graph : Graph) (radius : Int) (vertices : List Nat)
    (sources : List Nat) (hnodup : sources.Nodup) :
    ∀ (adjacencyList : List (List Nat)) (i : Nat),
      (sources.foldl (fun adjacency vertex1 =>
        transformRow graph radius vertex1 vertices adjacency) adjacencyList)[i]? =
        (adjacencyList[i]?).map (fun row =>
          if i ∈ sources then
            row ++ vertices.filter (fun vertex2 => decide (graph.getDistance i vertex2 ≤ radius))
          else row) := by
  induction sources with
  | nil =>
    intro adj i
    cases h : adj[i]? <;> simp [h]
  | cons x rest ih =>
    intro adj i
    have hx : x ∉ rest := (List.nodup_cons.1 hnodup).1
    rw [List.foldl_cons, ih (List.nodup_cons.1 hnodup).2, transformRow_getElem?]
    cases h : adj[i]? with
    | none => simp
    | some row =>
      by_cases hi : x = i
      · subst hi; simp [hx]
      · have hi2 : ¬ i = x := fun h => hi h.symm
        simp [hi, hi2]

theorem unitAdjacencyList_length (graph : Graph) (radius : Int) :
    (unitAdjacencyList graph radius).length = graph.getNbVertices := by
  unfold unitAdjacencyList
  rw [foldl_transformRow_length, List.length_replicate]

theorem unitAdjacencyList_getElem? (graph : Graph) (radius : Int) (i : Nat)
    (hi : i < graph.getNbVertices) :
    (unitAdjacencyList graph radius)[i]? =
      some ((List.range graph.getNbVertices).filter
        (fun vertex2 => decide (graph.getDistance i vertex2 ≤ radius))) := by
  unfold unitAdjacencyList
  rw [foldl_transformRow_getElem? graph radius _ _ (List.nodup_range _)]
  simp [List.getElem?_replicate, hi]

theorem transformToUnitGraph_getNbVertices (precompute : List (List Nat) → Nat → Nat → Int)
    (graph : Graph) (radius : Int) :
    (transformToUnitGraph precompute graph radius).getNbVertices = graph.getNbVertices := by
  simp [transformToUnitGraph, Graph.ofAdjacencyList, Graph.getNbVertices,
    unitAdjacencyList_length]

theorem transformToUnitGraph_row (precompute : List (List Nat) → Nat → Nat → Int)
    (graph : Graph) (radius : Int) (i : Nat) (hi : i < graph.getNbVertices) :
    (transformToUnitGraph precompute graph radius).row i =
      (List.range graph.getNbVertices).filter
        (fun vertex2 => decide (graph.getDistance i vertex2 ≤ radius)) := by
  simp [transformToUnitGraph, Graph.ofAdjacencyList, Graph.row,
    unitAdjacencyList_getElem? graph radius i hi]

theorem mem_transformToUnitGraph_row (precompute : List (List Nat) → Nat → Nat → Int)
    (graph : Graph) (radius : Int) (i v : Nat) (hi : i < graph.getNbVertices) :
    v ∈ (transformToUnitGraph precompute graph radius).row i ↔
      v < graph.getNbVertices ∧ graph.getDistance i v ≤ radius := by
  rw [transformToUnitGraph_row precompute graph radius i hi]
  simp

theorem transformToUnitGraph_wellFormed (precompute : List (List Nat) → Nat → Nat → Int)
    (graph : Graph) (radius : Int) :
    (transformToUnitGraph precompute graph radius).WellFormed := by
  intro row hrow v hv
  rw [transformToUnitGraph_getNbVertices]
  obtain ⟨i, hi⟩ := List.mem_iff_getElem?.1 hrow
  have hlt : i < graph.getNbVertices := by
    by_contra hge
    have : (transformToUnitGraph precompute graph radius).adjacencyList[i]? = none := by
      apply List.getElem?_eq_none
      simp [transformToUnitGraph, Graph.ofAdjacencyList, unitAdjacencyList_length]
      omega
    rw [this] at hi; cases hi
  have hrow2 := transformToUnitGraph_row precompute graph radius i hlt
  unfold Graph.row at hrow2
  rw [hi] at hrow2
  simp only [Option.getD_some] at hrow2
  rw [hrow2] at hv
  exact List.mem_range.1 (List.mem_filter.1 hv).1

/-! ## Completeness of the search and the result of `solveMinCenters` -/

theorem Dominated_iff_getNeighbors (graph : Graph) (centers : List Nat)
    (hin : InRange graph centers) (v : Nat) :
    Dominated graph centers v ↔
      (v ∈ centers ∨ ∃ c ∈ centers, ∃ neighbors,
        graph.getNeighbors c = .ok neighbors ∧ v ∈ neighbors) := by
  constructor
  · rintro ⟨c, hc, h | h⟩
    · subst h; exact Or.inl hc
    · exact Or.inr ⟨c, hc, graph.row c, graph.getNeighbors_of_lt (hin c hc), h⟩
  · rintro (h | ⟨c, hc, ns, hns, h⟩)
    · exact ⟨v, h, Or.inl rfl⟩
    · rw [graph.getNeighbors_of_lt (hin c hc)] at hns
      cases hns
      exact ⟨c, hc, Or.inr h⟩

/-- On a well-formed graph with a symmetric adjacency, an invalid result at budget
`k` means that no set of vertices containing the partial solution and at most `k`
other vertices dominates the graph. -/
theorem branchAndBound_invalid_complete (graph : Graph) (hwf : graph.WellFormed)
    (hsym : ∀ u v, u < graph.getNbVertices → v ∈ graph.row u → u ∈ graph.row v) (k : Nat) :
    ∀ partialSolution : List Nat, InRange graph partialSolution →
      ∀ s stk, branchAndBound graph k partialSolution = .ok (s, stk) → s.isValid = false →
        ∀ D : Finset Nat, (∀ c ∈ partialSolution, c ∈ D) →
          (∀ c ∈ D, c < graph.getNbVertices) →
          (D \ partialSolution.toFinset).card ≤ k →
          ¬ ∀ v, v < graph.getNbVertices → ∃ c ∈ D, c = v ∨ v ∈ graph.row c := by
  induction k with
  | zero =>
    intro P hin s stk h hv D hPD _ hcard hdom
    rcases branchAndBound_zero graph hwf P hin with ⟨_, h0⟩ | ⟨⟨v, hv1, hv2⟩, _⟩
    · rw [h0] at h
      simp only [Except.ok.injEq, Prod.mk.injEq] at h
      obtain ⟨rfl, rfl⟩ := h
      simp at hv
    · obtain ⟨c, hc, hcv⟩ := hdom v hv1
      have hsub : D \ P.toFinset = ∅ := Finset.card_eq_zero.1 (Nat.le_zero.1 hcard)
      have hcP : c ∈ P := by
        by_contra hn
        have : c ∈ D \ P.toFinset := Finset.mem_sdiff.2 ⟨hc, by simpa using hn⟩
        rw [hsub] at this
        simp at this
      exact hv2 ⟨c, hcP, hcv⟩
  | succ k ih =>
    intro P hin s stk h hv D hPD hD hcard hdom
    rcases branchAndBound_succ graph hwf P hin with ⟨_, herr⟩ | ⟨p, hp, hpd, _, heq⟩
    · rw [herr k] at h; cases h
    · rw [heq k] at h
      have hcand : ∀ c ∈ p :: graph.row p, InRange graph (P ++ [c]) := by
        intro c hc
        apply InRange_append graph hin
        rcases List.mem_cons.1 hc with rfl | hc
        · exact hp
        · exact graph.row_lt hwf hc
      have hframe : ∀ c ∈ p :: graph.row p, ∀ s stk,
          branchAndBound graph k (P ++ [c]) = .ok (s, stk) →
            s.isValid = false → stk = P ++ [c] :=
        fun c hc s stk hr hv =>
          ((branchAndBound_result graph hwf k (P ++ [c]) (hcand c hc) s stk hr).1 hv).1
      rcases neighborsLoop_cases _ P _ hframe s stk h with ⟨_, _, _, h4⟩ | ⟨h1, _⟩
      · obtain ⟨c, hc, hcp⟩ := hdom p hp
        have hcP : c ∉ P := fun hmem => hpd ⟨c, hmem, hcp⟩
        have hccand : c ∈ p :: graph.row p := by
          rcases hcp with h | h
          · subst h; exact List.mem_cons_self _ _
          · exact List.mem_cons_of_mem _ (hsym c p (hD c hc) h)
        obtain ⟨s1, hs1, hv1⟩ := h4 c hccand
        refine ih (P ++ [c]) (hcand c hccand) s1 _ hs1 hv1 D ?_ hD ?_ hdom
        · intro x hx
          rcases List.mem_append.1 hx with hx | hx
          · exact hPD x hx
          · simp at hx; subst hx; exact hc
        · have hmem : c ∈ D \ P.toFinset := Finset.mem_sdiff.2 ⟨hc, by simpa using hcP⟩
          have heq2 : D \ (P ++ [c]).toFinset = (D \ P.toFinset).erase c := by
            ext x
            simp only [Finset.mem_sdiff, List.mem_toFinset, List.mem_append,
              List.mem_singleton, Finset.mem_erase]
            tauto
          rw [heq2, Finset.card_erase_of_mem hmem]
          omega
      · rw [h1] at hv; cases hv

/-- The result of `solveMinCenters`: the budget `k ≤ nbVertices` of the first valid
search is reached without fault, every smaller budget gives an invalid result, and
with more than `k` iterations allowed the valid result is returned. -/
theorem solveMinCenters_first (precompute : List (List Nat) → Nat → Nat → Int)
    (graph : Graph) (radius : Int) :
    ∃ k s stk, k ≤ graph.getNbVertices ∧
      branchAndBound (transformToUnitGraph precompute graph radius) k [] = .ok (s, stk) ∧
      s.isValid = true ∧
      (∀ j, j < k → ∃ s1 stk1,
        branchAndBound (transformToUnitGraph precompute graph radius) j [] = .ok (s1, stk1) ∧
          s1.isValid = false) ∧
      ∀ fuel, k < fuel → solveMinCenters precompute graph radius fuel = .ok s := by
  obtain ⟨k, hk, ⟨s, stk, h1, h2⟩, h3⟩ := exists_first_valid
    (transformToUnitGraph precompute graph radius)
    (transformToUnitGraph_wellFormed precompute graph radius)
  rw [transformToUnitGraph_getNbVertices] at hk
  refine ⟨k, s, stk, hk, h1, h2, h3, fun fuel hf => ?_⟩
  unfold solveMinCenters
  apply solveMinCentersLoop_first _ k 0 fuel s stk
  · intro j hj; rw [Nat.zero_add]; exact h3 j hj
  · rw [Nat.zero_add]; exact h1
  · exact h2
  · exact hf

/-! ## The claims -/

/-- C1: for every graph with `distance(v, v) = 0` and every radius `r ≥ 0`,
`solveMinCenters` returns a `Solution` (its loop being allowed more than
`nbVertices` iterations) with `isValid = true`, and every vertex of the graph is a
returned center or appears in the coverage-graph neighbor list of a returned
center; the centers are vertices of the graph and every vertex is within distance
`r` of one of them. -/
theorem solveMinCenters_covers (precompute : List (List Nat) → Nat → Nat → Int)
    (graph : Graph) (radius : Int)
    (hself : ∀ v, v < graph.getNbVertices → graph.getDistance v v = 0)
    (hr : 0 ≤ radius) :
    ∃ solution,
      (∀ fuel, graph.getNbVertices < fuel →
        solveMinCenters precompute graph radius fuel = .ok solution) ∧
      solution.isValid = true ∧
      (∀ c ∈ solution.centers, c < graph.getNbVertices) ∧
      ∀ v, v < graph.getNbVertices →
        (v ∈ solution.centers ∨ ∃ c ∈ solution.centers, ∃ neighbors,
          (transformToUnitGraph precompute graph radius).getNeighbors c = .ok neighbors ∧
            v ∈ neighbors) ∧
        ∃ c ∈ solution.centers, graph.getDistance c v ≤ radius := by
  obtain ⟨k, s, stk, hk, h1, h2, _, h4⟩ := solveMinCenters_first precompute graph radius
  have hwf := transformToUnitGraph_wellFormed precompute graph radius
  have hn := transformToUnitGraph_getNbVertices precompute graph radius
  obtain ⟨_, _, _, hin, hdom⟩ :=
    (branchAndBound_result _ hwf k [] (fun c hc => by simp at hc) s stk h1).2 h2
  refine ⟨s, fun fuel hf => h4 fuel (by omega), h2, fun c hc => hn ▸ hin c hc,
    fun v hv => ⟨?_, ?_⟩⟩
  · exact (Dominated_iff_getNeighbors _ _ hin v).1 (hdom v (by rw [hn]; exact hv))
  · obtain ⟨c, hc, hcv⟩ := hdom v (by rw [hn]; exact hv)
    refine ⟨c, hc, ?_⟩
    rcases hcv with h | h
    · subst h; rw [hself c hv]; exact hr
    · exact ((mem_transformToUnitGraph_row precompute graph radius c v
        (hn ▸ hin c hc)).1 h).2

theorem solveMinCenters_covers_witness :
    (∀ v, v < pathGraph.getNbVertices → pathGraph.getDistance v v = 0) ∧
    (0 : Int) ≤ 1 ∧
    ∃ solution,
      (∀ fuel, pathGraph.getNbVertices < fuel →
        solveMinCenters (fun _ _ _ => 0) pathGraph 1 fuel = .ok solution) ∧
      solution.isValid = true ∧
      (∀ c ∈ solution.centers, c < pathGraph.getNbVertices) ∧
      ∀ v, v < pathGraph.getNbVertices →
        (v ∈ solution.centers ∨ ∃ c ∈ solution.centers, ∃ neighbors,
          (transformToUnitGraph (fun _ _ _ => 0) pathGraph 1).getNeighbors c = .ok neighbors ∧
            v ∈ neighbors) ∧
        ∃ c ∈ solution.centers, pathGraph.getDistance c v ≤ 1 :=
  ⟨fun v _ => by simp [pathGraph, Graph.getDistance], by decide,
    solveMinCenters_covers (fun _ _ _ => 0) pathGraph 1
      (fun v _ => by simp [pathGraph, Graph.getDistance]) (by decide)⟩

/-- C2: minimality. For every graph with a symmetric distance, `distance(v, v) = 0`
and every radius `r ≥ 0`, `solveMinCenters` returns a `Solution` such that no set of
vertices covering every vertex within distance `r` has fewer elements than the
returned centers; and for every `k` smaller than the returned size,
`branchAndBound` on the coverage graph with the empty partial solution and budget
`k` returns invalid and no covering set of size at most `k` exists. -/
theorem solveMinCenters_minimal (precompute : List (List Nat) → Nat → Nat → Int)
    (graph : Graph) (radius : Int)
    (hsymm : ∀ u v, u < graph.getNbVertices → v < graph.getNbVertices →
      graph.getDistance u v = graph.getDistance v u)
    (_hself : ∀ v, v < graph.getNbVertices → graph.getDistance v v = 0)
    (_hr : 0 ≤ radius) :
    ∃ solution,
      (∀ fuel, graph.getNbVertices < fuel →
        solveMinCenters precompute graph radius fuel = .ok solution) ∧
      (∀ D : Finset Nat, (∀ c ∈ D, c < graph.getNbVertices) →
        (∀ v, v < graph.getNbVertices → ∃ c ∈ D, graph.getDistance c v ≤ radius) →
        solution.centers.length ≤ D.card) ∧
      ∀ k, k < solution.centers.length →
        branchAndBound (transformToUnitGraph precompute graph radius) k [] =
          .ok ({ centers := [], isValid := false }, []) ∧
        ¬ ∃ D : Finset Nat, D.card ≤ k ∧ (∀ c ∈ D, c < graph.getNbVertices) ∧
          ∀ v, v < graph.getNbVertices → ∃ c ∈ D, graph.getDistance c v ≤ radius := by
  obtain ⟨k, s, stk, hk, h1, h2, h3, h4⟩ := solveMinCenters_first precompute graph radius
  have hwf := transformToUnitGraph_wellFormed precompute graph radius
  have hn := transformToUnitGraph_getNbVertices precompute graph radius
  have hnil : InRange (transformToUnitGraph precompute graph radius) [] :=
    fun c hc => by simp at hc
  obtain ⟨_, hlen, _, _, _⟩ := (branchAndBound_result _ hwf k [] hnil s stk h1).2 h2
  simp only [List.length_nil, Nat.zero_add] at hlen
  have hsym : ∀ u v, u < (transformToUnitGraph precompute graph radius).getNbVertices →
      v ∈ (transformToUnitGraph precompute graph radius).row u →
      u ∈ (transformToUnitGraph precompute graph radius).row v := by
    intro u v hu hv
    rw [hn] at hu
    obtain ⟨hv1, hv2⟩ := (mem_transformToUnitGraph_row precompute graph radius u v hu).1 hv
    exact (mem_transformToUnitGraph_row precompute graph radius v u hv1).2
      ⟨hu, by rw [hsymm v u hv1 hu]; exact hv2⟩
  have hnone : ∀ j, j < k → ∀ D : Finset Nat, D.card ≤ j →
      (∀ c ∈ D, c < graph.getNbVertices) →
      ¬ ∀ v, v < graph.getNbVertices → ∃ c ∈ D, graph.getDistance c v ≤ radius := by
    intro j hj D hcard hD hcov
    obtain ⟨s1, stk1, hs1, hv1⟩ := h3 j hj
    refine branchAndBound_invalid_complete _ hwf hsym j [] hnil s1 stk1 hs1 hv1 D
      (fun c hc => by simp at hc) (fun c hc => by rw [hn]; exact hD c hc)
      (by simpa using hcard) ?_
    intro v hv
    rw [hn] at hv
    obtain ⟨c, hc, hcv⟩ := hcov v hv
    exact ⟨c, hc, Or.inr ((mem_transformToUnitGraph_row precompute graph radius c v
      (hD c hc)).2 ⟨hv, hcv⟩)⟩
  refine ⟨s, fun fuel hf => h4 fuel (by omega), ?_, ?_⟩
  · intro D hD hcov
    by_contra hlt
    exact hnone D.card (by omega) D (le_refl _) hD hcov
  · intro j hj
    rw [hlen] at hj
    refine ⟨?_, fun ⟨D, hcard, hD, hcov⟩ => hnone j hj D hcard hD hcov⟩
    obtain ⟨s1, stk1, hs1, hv1⟩ := h3 j hj
    obtain ⟨e1, e2⟩ := (branchAndBound_result _ hwf j [] hnil s1 stk1 hs1).1 hv1
    rw [hs1]
    cases s1
    simp_all

theorem solveMinCenters_minimal_witness :
    (∀ u v, u < pathGraph.getNbVertices → v < pathGraph.getNbVertices →
      pathGraph.getDistance u v = pathGraph.getDistance v u) ∧
    (∀ v, v < pathGraph.getNbVertices → pathGraph.getDistance v v = 0) ∧
    (0 : Int) ≤ 1 ∧
    ∃ solution,
      (∀ fuel, pathGraph.getNbVertices < fuel →
        solveMinCenters (fun _ _ _ => 0) pathGraph 1 fuel = .ok solution) ∧
      (∀ D : Finset Nat, (∀ c ∈ D, c < pathGraph.getNbVertices) →
        (∀ v, v < pathGraph.getNbVertices → ∃ c ∈ D, pathGraph.getDistance c v ≤ 1) →
        solution.centers.length ≤ D.card) ∧
      ∀ k, k < solution.centers.length →
        branchAndBound (transformToUnitGraph (fun _ _ _ => 0) pathGraph 1) k [] =
          .ok ({ centers := [], isValid := false }, []) ∧
        ¬ ∃ D : Finset Nat, D.card ≤ k ∧ (∀ c ∈ D, c < pathGraph.getNbVertices) ∧
          ∀ v, v < pathGraph.getNbVertices → ∃ c ∈ D, pathGraph.getDistance c v ≤ 1 :=
  ⟨fun u v _ _ => by simp [pathGraph, Graph.getDistance, abs_sub_comm],
    fun v _ => by simp [pathGraph, Graph.getDistance], by decide,
    solveMinCenters_minimal (fun _ _ _ => 0) pathGraph 1
      (fun u v _ _ => by simp [pathGraph, Graph.getDistance, abs_sub_comm])
      (fun v _ => by simp [pathGraph, Graph.getDistance]) (by decide)⟩

/-- C3: for every graph and radius, `transformToUnitGraph` keeps the number of
vertices, and the neighbor list of every vertex `vertex1` is the strictly
ascending list (hence without repetition) of exactly the vertices `vertex2` with
`distance(vertex1, vertex2) ≤ radius`; when `distance(vertex1, vertex1) = 0` and
`radius ≥ 0` the vertex lists itself. -/
theorem transformToUnitGraph_neighbors (precompute : List (List Nat) → Nat → Nat → Int)
    (graph : Graph) (radius : Int) (vertex1 : Nat) (h1 : vertex1 < graph.getNbVertices) :
    (transformToUnitGraph precompute graph radius).getNbVertices = graph.getNbVertices ∧
    ∃ neighbors,
      (transformToUnitGraph precompute graph radius).getNeighbors vertex1 = .ok neighbors ∧
      neighbors.Pairwise (fun a b => a < b) ∧
      (∀ vertex2, vertex2 ∈ neighbors ↔
        (vertex2 < graph.getNbVertices ∧ graph.getDistance vertex1 vertex2 ≤ radius)) ∧
      (graph.getDistance vertex1 vertex1 = 0 → 0 ≤ radius → vertex1 ∈ neighbors) := by
  have hn := transformToUnitGraph_getNbVertices precompute graph radius
  refine ⟨hn, (transformToUnitGraph precompute graph radius).row vertex1,
    Graph.getNeighbors_of_lt _ (by rw [hn]; exact h1), ?_, ?_, ?_⟩
  · rw [transformToUnitGraph_row precompute graph radius vertex1 h1]
    exact List.Pairwise.filter _ (List.pairwise_lt_range _)
  · exact fun vertex2 => mem_transformToUnitGraph_row precompute graph radius vertex1 vertex2 h1
  · intro h0 hr
    exact (mem_transformToUnitGraph_row precompute graph radius vertex1 vertex1 h1).2
      ⟨h1, by rw [h0]; exact hr⟩

theorem transformToUnitGraph_neighbors_witness :
    1 < pathGraph.getNbVertices ∧
    (transformToUnitGraph (fun _ _ _ => 0) pathGraph 1).getNbVertices =
      pathGraph.getNbVertices ∧
    ∃ neighbors,
      (transformToUnitGraph (fun _ _ _ => 0) pathGraph 1).getNeighbors 1 = .ok neighbors ∧
      neighbors.Pairwise (fun a b => a < b) ∧
      (∀ vertex2, vertex2 ∈ neighbors ↔
        (vertex2 < pathGraph.getNbVertices ∧ pathGraph.getDistance 1 vertex2 ≤ 1)) ∧
      (pathGraph.getDistance 1 1 = 0 → (0 : Int) ≤ 1 → 1 ∈ neighbors) :=
  ⟨by decide, transformToUnitGraph_neighbors (fun _ _ _ => 0) pathGraph 1 1 (by decide)⟩

/-- C4 (as stated, refuted): on the path graph `0-1-2-3-4` with radius 1, for no
iteration bound does `solveMinCenters` return the centers sequence `[1, 3]`. -/
theorem pathGraph_centers_ne :
    ¬ ∃ (precompute : List (List Nat) → Nat → Nat → Int) (fuel : Nat),
      solveMinCenters precompute pathGraph 1 fuel =
        .ok { centers := [1, 3], isValid := true } := by
  rintro ⟨precompute, fuel, h⟩
  have h3 : ∀ f, solveMinCenters precompute pathGraph 1 (f + 3) =
      .ok { centers := [0, 3], isValid := true } := fun f => rfl
  match fuel, h with
  | 0, h => exact absurd h (by rw [show solveMinCenters precompute pathGraph 1 0 = .error .outOfFuel from rfl]; simp)
  | 1, h => exact absurd h (by rw [show solveMinCenters precompute pathGraph 1 1 = .error .outOfFuel from rfl]; simp)
  | 2, h => exact absurd h (by rw [show solveMinCenters precompute pathGraph 1 2 = .error .outOfFuel from rfl]; simp)
  | f + 3, h =>
    rw [h3 f] at h
    simp at h

/-- C4 (amended): on the path graph `0-1-2-3-4` with radius 1, `solveMinCenters`
returns (its loop being allowed at least three iterations) a valid `Solution` with
exactly 2 centers, and the centers sequence is `[0, 3]`. -/
theorem pathGraph_centers (precompute : List (List Nat) → Nat → Nat → Int) (fuel : Nat) :
    solveMinCenters precompute pathGraph 1 (fuel + 3) =
        .ok { centers := [0, 3], isValid := true } ∧
      ([0, 3] : List Nat).length = 2 :=
  ⟨rfl, rfl⟩

/-! ## The star graph -/

theorem starGraph_getNbVertices (n c : Nat) : (starGraph n c).getNbVertices = n + 1 := by
  simp [starGraph, Graph.getNbVertices]

theorem starGraph_distance_le_one (n c u v : Nat) :
    (starGraph n c).getDistance u v ≤ 1 ↔ (u = v ∨ u = c ∨ v = c) := by
  unfold Graph.getDistance starGraph
  by_cases huv : u = v
  · simp [huv]
  · by_cases h : u = c ∨ v = c
    · simp [huv, h]
    · simp only [huv, h, if_false, false_or, iff_false]
      decide

theorem mem_star_row (precompute : List (List Nat) → Nat → Nat → Int) (n c u v : Nat)
    (hu : u ≤ n) :
    v ∈ (transformToUnitGraph precompute (starGraph n c) 1).row u ↔
      (v ≤ n ∧ (u = v ∨ u = c ∨ v = c)) := by
  rw [mem_transformToUnitGraph_row precompute (starGraph n c) 1 u v
    (by rw [starGraph_getNbVertices]; omega), starGraph_getNbVertices,
    starGraph_distance_le_one]
  constructor
  · rintro ⟨h1, h2⟩; exact ⟨by omega, h2⟩
  · rintro ⟨h1, h2⟩; exact ⟨by omega, h2⟩

theorem star_row_center_length (precompute : List (List Nat) → Nat → Nat → Int) (n c : Nat)
    (hc : c ≤ n) :
    ((transformToUnitGraph precompute (starGraph n c) 1).row c).length = n + 1 := by
  rw [transformToUnitGraph_row precompute (starGraph n c) 1 c
    (by rw [starGraph_getNbVertices]; omega), starGraph_getNbVertices]
  rw [List.filter_eq_self.2, List.length_range]
  intro v _
  simp [starGraph_distance_le_one]

theorem star_row_leaf_length (precompute : List (List Nat) → Nat → Nat → Int) (n c l : Nat)
    (hl : l ≤ n) (hlc : l ≠ c) :
    ((transformToUnitGraph precompute (starGraph n c) 1).row l).length ≤ 2 := by
  have hnodup : ((transformToUnitGraph precompute (starGraph n c) 1).row l).Nodup := by
    rw [transformToUnitGraph_row precompute (starGraph n c) 1 l
      (by rw [starGraph_getNbVertices]; omega)]
    exact (List.nodup_range _).filter _
  rw [← List.toFinset_card_of_nodup hnodup]
  have hsub : ((transformToUnitGraph precompute (starGraph n c) 1).row l).toFinset ⊆
      {l, c} := by
    intro v hv
    rw [List.mem_toFinset, mem_star_row precompute n c l v hl] at hv
    simp only [Finset.mem_insert, Finset.mem_singleton]
    rcases hv.2 with h | h | h
    · exact Or.inl h.symm
    · exact absurd h hlc
    · exact Or.inr h
  exact (Finset.card_le_card hsub).trans Finset.card_le_two

/-- The search on the coverage graph of a star with at least two leaves: budget 0
is invalid and budget 1 returns the center. -/
theorem star_search (precompute : List (List Nat) → Nat → Nat → Int) (n c : Nat)
    (hc : c ≤ n) (hn : 2 ≤ n) :
    branchAndBound (transformToUnitGraph precompute (starGraph n c) 1) 0 [] =
        .ok ({ centers := [], isValid := false }, []) ∧
      branchAndBound (transformToUnitGraph precompute (starGraph n c) 1) 1 [] =
        .ok ({ centers := [c], isValid := true }, [c]) := by
  have hwf := transformToUnitGraph_wellFormed precompute (starGraph n c) 1
  have hnb : (transformToUnitGraph precompute (starGraph n c) 1).getNbVertices = n + 1 := by
    rw [transformToUnitGraph_getNbVertices, starGraph_getNbVertices]
  have hnil : InRange (transformToUnitGraph precompute (starGraph n c) 1) [] :=
    fun x hx => by simp at hx
  have hnodom : ¬ Dominated (transformToUnitGraph precompute (starGraph n c) 1) [] 0 := by
    rintro ⟨x, hx, _⟩; simp at hx
  have hin1 : ∀ x, x ≤ n →
      InRange (transformToUnitGraph precompute (starGraph n c) 1) ([] ++ [x]) :=
    fun x hx y hy => by simp at hy; rw [hnb]; omega
  constructor
  · rcases branchAndBound_zero _ hwf [] hnil with ⟨hall, _⟩ | ⟨_, h0⟩
    · exact absurd (hall 0 (by rw [hnb]; omega)) hnodom
    · exact h0
  · rcases branchAndBound_succ _ hwf [] hnil with ⟨hall, _⟩ | ⟨p, hp, _, hmin, heq⟩
    · exact absurd (hall 0 (by rw [hnb]; omega)) hnodom
    · rw [hnb] at hp
      have hpn : p ≤ n := by omega
      have hpc : p ≠ c := by
        intro hpc
        subst hpc
        obtain ⟨l, hl, hlc⟩ : ∃ l, l ≤ n ∧ l ≠ p := by
          by_cases h0 : p = 0
          · exact ⟨1, by omega, by omega⟩
          · exact ⟨0, by omega, fun h => h0 h.symm⟩
        have h1 := hmin l (by rw [hnb]; omega) (by rintro ⟨x, hx, _⟩; simp at hx)
        have h2 := star_row_leaf_length precompute n p l hl hlc
        have h3 := star_row_center_length precompute n p hc
        omega
      obtain ⟨l, hl, hlp, hlc⟩ : ∃ l, l ≤ n ∧ l ≠ p ∧ l ≠ c := by
        by_cases h0 : p ≠ 0 ∧ c ≠ 0
        · exact ⟨0, by omega, by omega, by omega⟩
        · by_cases h1 : p ≠ 1 ∧ c ≠ 1
          · exact ⟨1, by omega, by omega, by omega⟩
          · exact ⟨2, by omega, by omega, by omega⟩
      rw [heq 0]
      apply neighborsLoop_pick _ [] c
      · rcases branchAndBound_zero _ hwf ([] ++ [c]) (hin1 c hc) with ⟨_, h0⟩ | ⟨⟨v, hv1, hv2⟩, _⟩
        · exact h0
        · exfalso
          apply hv2
          rw [hnb] at hv1
          exact ⟨c, by simp, Or.inr ((mem_star_row precompute n c c v hc).2
            ⟨by omega, Or.inr (Or.inl rfl)⟩)⟩
      · rfl
      · intro x hx hxc
        have hxp : x = p := by
          rcases List.mem_cons.1 hx with h | h
          · exact h
          · rcases ((mem_star_row precompute n c p x hpn).1 h).2 with h | h | h
            · exact h.symm
            · exact absurd h hpc
            · exact absurd h hxc
        subst hxp
        rcases branchAndBound_zero _ hwf ([] ++ [x]) (hin1 x hpn) with ⟨hall, _⟩ | ⟨_, h0⟩
        · exfalso
          obtain ⟨y, hy, hyl⟩ := hall l (by rw [hnb]; omega)
          simp at hy
          subst hy
          rcases hyl with h | h
          · exact hlp h.symm
          · rcases ((mem_star_row precompute n c y l hpn).1 h).2 with h | h | h
            · exact hlp h.symm
            · exact hpc h
            · exact hlc h
        · exact h0
      · exact List.mem_cons_of_mem _ ((mem_star_row precompute n c p c hpn).2
          ⟨hc, Or.inr (Or.inr rfl)⟩)

/-- C5 (as stated, refuted): on the star with one leaf whose center is numbered 1
(the leaf is vertex 0), `solveMinCenters` with radius 1 returns the centers
sequence `[0]`, the leaf, and for no iteration bound the sequence `[1]`. -/
theorem starGraph_one_leaf_centers :
    (∀ (precompute : List (List Nat) → Nat → Nat → Int) (fuel : Nat),
      solveMinCenters precompute (starGraph 1 1) 1 (fuel + 2) =
        .ok { centers := [0], isValid := true }) ∧
    ¬ ∃ (precompute : List (List Nat) → Nat → Nat → Int) (fuel : Nat),
      solveMinCenters precompute (starGraph 1 1) 1 fuel =
        .ok { centers := [1], isValid := true } := by
  have h2 : ∀ (precompute : List (List Nat) → Nat → Nat → Int) (fuel : Nat),
      solveMinCenters precompute (starGraph 1 1) 1 (fuel + 2) =
        .ok { centers := [0], isValid := true } := fun _ _ => rfl
  refine ⟨h2, ?_⟩
  rintro ⟨precompute, fuel, h⟩
  match fuel, h with
  | 0, h =>
    rw [show solveMinCenters precompute (starGraph 1 1) 1 0 = .error .outOfFuel from rfl] at h
    cases h
  | 1, h =>
    rw [show solveMinCenters precompute (starGraph 1 1) 1 1 = .error .outOfFuel from rfl] at h
    cases h
  | f + 2, h =>
    rw [h2 precompute f] at h
    simp at h

/-- C5 (amended): for every star graph with center `c` and `n` leaves, numbered in
any way on the vertices `0, ..., n`, where `n ≥ 2`, or `n = 1` and the center is
vertex 0, `solveMinCenters` with radius 1 returns (its loop being allowed at least
two iterations) a valid `Solution` whose centers sequence is exactly `[c]`. -/
theorem starGraph_centers (precompute : List (List Nat) → Nat → Nat → Int)
    (n c fuel : Nat) (hc : c ≤ n) (hn : 2 ≤ n ∨ (n = 1 ∧ c = 0)) (hfuel : 1 < fuel) :
    solveMinCenters precompute (starGraph n c) 1 fuel =
      .ok { centers := [c], isValid := true } := by
  rcases hn with hn | ⟨rfl, rfl⟩
  · obtain ⟨h0, h1⟩ := star_search precompute n c hc hn
    unfold solveMinCenters
    apply solveMinCentersLoop_first _ 1 0 fuel _ [c] _ h1 rfl hfuel
    intro j hj
    have hj0 : j = 0 := by omega
    subst hj0
    exact ⟨_, _, h0, rfl⟩
  · obtain ⟨f, rfl⟩ : ∃ f, fuel = f + 2 := ⟨fuel - 2, by omega⟩
    rfl

theorem starGraph_centers_witness :
    2 ≤ 3 ∧ (2 ≤ 3 ∨ (3 = 1 ∧ 2 = 0)) ∧ 1 < 2 ∧
    solveMinCenters (fun _ _ _ => 0) (starGraph 3 2) 1 2 =
      .ok { centers := [2], isValid := true } :=
  ⟨by decide, by decide, by decide,
    starGraph_centers (fun _ _ _ => 0) 3 2 2 (by decide) (by decide) (by decide)⟩

/-- C6: for every graph and radius `r ≥ 0`, the loop of `solveMinCenters` stops at
a budget `k ≤ nbVertices`: every budget below `k` is searched without fault and is
invalid, the search at budget `k` is valid, `solveMinCenters` returns its
`Solution` whenever more than `k` iterations are allowed, and the returned
`Solution` has `k ≤ nbVertices` centers. -/
theorem solveMinCenters_terminates (precompute : List (List Nat) → Nat → Nat → Int)
    (graph : Graph) (radius : Int) (_hr : 0 ≤ radius) :
    ∃ k solution, k ≤ graph.getNbVertices ∧
      (∀ j, j < k → branchAndBound (transformToUnitGraph precompute graph radius) j [] =
        .ok ({ centers := [], isValid := false }, [])) ∧
      branchAndBound (transformToUnitGraph precompute graph radius) k [] =
        .ok (solution, solution.centers) ∧
      solution.isValid = true ∧
      (∀ fuel, k < fuel → solveMinCenters precompute graph radius fuel = .ok solution) ∧
      solution.centers.length = k ∧ solution.centers.length ≤ graph.getNbVertices := by
  obtain ⟨k, s, stk, hk, h1, h2, h3, h4⟩ := solveMinCenters_first precompute graph radius
  have hwf := transformToUnitGraph_wellFormed precompute graph radius
  have hnil : InRange (transformToUnitGraph precompute graph radius) [] :=
    fun c hc => by simp at hc
  obtain ⟨hstk, hlen, _, _, _⟩ := (branchAndBound_result _ hwf k [] hnil s stk h1).2 h2
  simp only [List.length_nil, Nat.zero_add] at hlen
  subst hstk
  refine ⟨k, s, hk, ?_, h1, h2, h4, hlen, by omega⟩
  intro j hj
  obtain ⟨s1, stk1, hs1, hv1⟩ := h3 j hj
  obtain ⟨e1, e2⟩ := (branchAndBound_result _ hwf j [] hnil s1 stk1 hs1).1 hv1
  rw [hs1]
  cases s1
  simp_all

theorem solveMinCenters_terminates_witness :
    (0 : Int) ≤ 1 ∧
    ∃ k solution, k ≤ pathGraph.getNbVertices ∧
      (∀ j, j < k → branchAndBound (transformToUnitGraph (fun _ _ _ => 0) pathGraph 1) j [] =
        .ok ({ centers := [], isValid := false }, [])) ∧
      branchAndBound (transformToUnitGraph (fun _ _ _ => 0) pathGraph 1) k [] =
        .ok (solution, solution.centers) ∧
      solution.isValid = true ∧
      (∀ fuel, k < fuel →
        solveMinCenters (fun _ _ _ => 0) pathGraph 1 fuel = .ok solution) ∧
      solution.centers.length = k ∧ solution.centers.length ≤ pathGraph.getNbVertices :=
  ⟨by decide, solveMinCenters_terminates (fun _ _ _ => 0) pathGraph 1 (by decide)⟩

/-! ## Radius zero, large radius, isolated vertices, base case -/

theorem filter_range_eq_singleton (p : Nat → Bool) (v : Nat) :
    ∀ n, (∀ x, x < n → (p x = true ↔ x = v)) →
      (List.range n).filter p = if v < n then [v] else [] := by
  intro n
  induction n with
  | zero => intro _; simp
  | succ n ih =>
    intro hp
    rw [List.range_succ, List.filter_append, ih (fun x hx => hp x (by omega))]
    have hn := hp n (by omega)
    by_cases hvn : v < n
    · have : p n = false := by
        rw [Bool.eq_false_iff]; intro h; have := hn.1 h; omega
      simp [hvn, this, List.filter_cons, show v < n + 1 by omega]
    · by_cases hvn2 : v = n
      · subst hvn2
        have : p v = true := hn.2 rfl
        simp [this, List.filter_cons]
      · have : p n = false := by
          rw [Bool.eq_false_iff]; intro h; have := hn.1 h; omega
        simp [hvn, this, List.filter_cons, show ¬ v < n + 1 by omega]

theorem pathGraph_graphModel : GraphModel pathGraph where
  nonneg := fun u v _ _ => by simp [pathGraph, Graph.getDistance]
  symm := fun u v _ _ => by simp [pathGraph, Graph.getDistance, abs_sub_comm]
  self := fun v _ => by simp [pathGraph, Graph.getDistance]
  triangle := fun u v w _ _ _ => by
    simp only [pathGraph, Graph.getDistance]
    exact abs_sub_le _ _ _

theorem pathGraph_distance_pos (u v : Nat) (h : u ≠ v) : 0 < pathGraph.getDistance u v := by
  simp only [pathGraph, Graph.getDistance, abs_pos]
  intro h0
  apply h
  have : (u : Int) = (v : Int) := by linarith
  exact_mod_cast this

/-- C7 (as stated, refuted): the graph of two vertices all of whose distances are
`0` satisfies the Graph model (non-negative, symmetric, `distance(v, v) = 0`,
triangle inequality), and at radius 0 the neighbor list of its vertex 0 is
`[0, 1]`, not `[0]`. -/
theorem zeroDistanceGraph_neighbors :
    GraphModel zeroDistanceGraph ∧ 0 < zeroDistanceGraph.getNbVertices ∧
    (∀ precompute : List (List Nat) → Nat → Nat → Int,
      (transformToUnitGraph precompute zeroDistanceGraph 0).getNeighbors 0 = .ok [0, 1]) ∧
    ¬ ∀ precompute : List (List Nat) → Nat → Nat → Int,
      (transformToUnitGraph precompute zeroDistanceGraph 0).getNeighbors 0 = .ok [0] := by
  refine ⟨⟨?_, ?_, ?_, ?_⟩, by decide, fun _ => rfl, ?_⟩
  · intro u v _ _; simp [zeroDistanceGraph, Graph.getDistance]
  · intro u v _ _; rfl
  · intro v _; rfl
  · intro u v w _ _ _; simp [zeroDistanceGraph, Graph.getDistance]
  · intro h
    have h1 := h (fun _ _ _ => 0)
    rw [show (transformToUnitGraph (fun _ _ _ => 0) zeroDistanceGraph 0).getNeighbors 0 =
      .ok [0, 1] from rfl] at h1
    simp at h1

/-- C7 (amended): for every graph satisfying the Graph model in which distinct
vertices are at a positive distance, `transformToUnitGraph(G, 0)` has only
self-loops: the neighbor list of every vertex `v` is exactly `[v]`. -/
theorem transformToUnitGraph_radius_zero (precompute : List (List Nat) → Nat → Nat → Int)
    (graph : Graph) (hmodel : GraphModel graph)
    (hpos : ∀ u v, u < graph.getNbVertices → v < graph.getNbVertices → u ≠ v →
      0 < graph.getDistance u v)
    (v : Nat) (hv : v < graph.getNbVertices) :
    (transformToUnitGraph precompute graph 0).getNeighbors v = .ok [v] := by
  rw [Graph.getNeighbors_of_lt _ (by rw [transformToUnitGraph_getNbVertices]; exact hv),
    transformToUnitGraph_row precompute graph 0 v hv,
    filter_range_eq_singleton _ v, if_pos hv]
  intro x hx
  rw [decide_eq_true_iff]
  constructor
  · intro hle
    by_contra hne
    have := hpos v x hv hx (fun h => hne h.symm)
    omega
  · intro h
    rw [h, hmodel.self v hv]

theorem transformToUnitGraph_radius_zero_witness :
    GraphModel pathGraph ∧
    (∀ u v, u < pathGraph.getNbVertices → v < pathGraph.getNbVertices → u ≠ v →
      0 < pathGraph.getDistance u v) ∧
    2 < pathGraph.getNbVertices ∧
    (transformToUnitGraph (fun _ _ _ => 0) pathGraph 0).getNeighbors 2 = .ok [2] :=
  ⟨pathGraph_graphModel, fun u v _ _ h => pathGraph_distance_pos u v h, by decide,
    transformToUnitGraph_radius_zero (fun _ _ _ => 0) pathGraph pathGraph_graphModel
      (fun u v _ _ h => pathGraph_distance_pos u v h) 2 (by decide)⟩

/-- C8: for every non-empty graph and every radius `r` at least the largest
distance between two distinct vertices (its diameter), `solveMinCenters` returns
(its loop being allowed at least two iterations) a valid `Solution` with exactly
one center. -/
theorem solveMinCenters_diameter (precompute : List (List Nat) → Nat → Nat → Int)
    (graph : Graph) (radius : Int) (fuel : Nat) (hne : 0 < graph.getNbVertices)
    (hdiam : ∀ u v, u < graph.getNbVertices → v < graph.getNbVertices → u ≠ v →
      graph.getDistance u v ≤ radius)
    (hfuel : 1 < fuel) :
    ∃ solution, solveMinCenters precompute graph radius fuel = .ok solution ∧
      solution.isValid = true ∧ solution.centers.length = 1 := by
  have hwf := transformToUnitGraph_wellFormed precompute graph radius
  have hnb := transformToUnitGraph_getNbVertices precompute graph radius
  have hnil : InRange (transformToUnitGraph precompute graph radius) [] :=
    fun x hx => by simp at hx
  have hnodom : ¬ Dominated (transformToUnitGraph precompute graph radius) [] 0 := by
    rintro ⟨x, hx, _⟩; simp at hx
  have h0 : branchAndBound (transformToUnitGraph precompute graph radius) 0 [] =
      .ok ({ centers := [], isValid := false }, []) := by
    rcases branchAndBound_zero _ hwf [] hnil with ⟨hall, _⟩ | ⟨_, h0⟩
    · exact absurd (hall 0 (by rw [hnb]; exact hne)) hnodom
    · exact h0
  rcases branchAndBound_succ _ hwf [] hnil with ⟨hall, _⟩ | ⟨p, hp, _, _, heq⟩
  · exact absurd (hall 0 (by rw [hnb]; exact hne)) hnodom
  · have hp1 : branchAndBound (transformToUnitGraph precompute graph radius) 0 ([] ++ [p]) =
        .ok ({ centers := [] ++ [p], isValid := true }, [] ++ [p]) := by
      rcases branchAndBound_zero _ hwf ([] ++ [p]) (InRange_append _ hnil hp) with
        ⟨_, h⟩ | ⟨⟨v, hv1, hv2⟩, _⟩
      · exact h
      · exfalso
        apply hv2
        rw [hnb] at hv1 hp
        by_cases hpv : p = v
        · exact ⟨p, by simp, Or.inl hpv⟩
        · exact ⟨p, by simp, Or.inr ((mem_transformToUnitGraph_row precompute graph radius
            p v hp).2 ⟨hv1, hdiam p v hp hv1 hpv⟩)⟩
    have h1 : branchAndBound (transformToUnitGraph precompute graph radius) 1 [] =
        .ok ({ centers := [p], isValid := true }, [p]) := by
      rw [heq 0]
      simp only [neighborsLoop, hp1, if_true]
      rfl
    refine ⟨{ centers := [p], isValid := true }, ?_, rfl, rfl⟩
    unfold solveMinCenters
    apply solveMinCentersLoop_first _ 1 0 fuel _ [p] _ h1 rfl hfuel
    intro j hj
    have hj0 : j = 0 := by omega
    subst hj0
    exact ⟨_, _, h0, rfl⟩

theorem solveMinCenters_diameter_witness :
    0 < pathGraph.getNbVertices ∧
    (∀ u v, u < pathGraph.getNbVertices → v < pathGraph.getNbVertices → u ≠ v →
      pathGraph.getDistance u v ≤ 4) ∧
    1 < 2 ∧
    ∃ solution, solveMinCenters (fun _ _ _ => 0) pathGraph 4 2 = .ok solution ∧
      solution.isValid = true ∧ solution.centers.length = 1 :=
  have hdiam : ∀ u v, u < pathGraph.getNbVertices → v < pathGraph.getNbVertices → u ≠ v →
      pathGraph.getDistance u v ≤ 4 := by
    intro u v hu hv _
    change u < 5 at hu
    change v < 5 at hv
    simp only [pathGraph, Graph.getDistance, abs_le]
    omega
  ⟨by decide, hdiam, by decide,
    solveMinCenters_diameter (fun _ _ _ => 0) pathGraph 4 2 (by decide) hdiam (by decide)⟩

/-- C9: for every graph, radius `r ≥ 0` and vertex `v` isolated in the coverage
graph (its neighbor list is `[v]` and no other vertex lists `v`), `solveMinCenters`
returns a valid `Solution` (its loop being allowed more than `nbVertices`
iterations) and `v` is one of its centers. -/
theorem solveMinCenters_isolated (precompute : List (List Nat) → Nat → Nat → Int)
    (graph : Graph) (radius : Int) (_hr : 0 ≤ radius) (v : Nat)
    (hv : v < graph.getNbVertices)
    (_hiso : (transformToUnitGraph precompute graph radius).getNeighbors v = .ok [v])
    (hno : ∀ u, u < graph.getNbVertices → u ≠ v → ∀ neighbors,
      (transformToUnitGraph precompute graph radius).getNeighbors u = .ok neighbors →
        v ∉ neighbors) :
    ∃ solution,
      (∀ fuel, graph.getNbVertices < fuel →
        solveMinCenters precompute graph radius fuel = .ok solution) ∧
      solution.isValid = true ∧ v ∈ solution.centers := by
  obtain ⟨k, s, stk, hk, h1, h2, _, h4⟩ := solveMinCenters_first precompute graph radius
  have hwf := transformToUnitGraph_wellFormed precompute graph radius
  have hn := transformToUnitGraph_getNbVertices precompute graph radius
  obtain ⟨_, _, _, hin, hdom⟩ :=
    (branchAndBound_result _ hwf k [] (fun c hc => by simp at hc) s stk h1).2 h2
  refine ⟨s, fun fuel hf => h4 fuel (by omega), h2, ?_⟩
  obtain ⟨c, hc, hcv⟩ := hdom v (by rw [hn]; exact hv)
  rcases hcv with h | h
  · subst h; exact hc
  · by_cases hcv : c = v
    · subst hcv; exact hc
    · exact absurd h (hno c (hn ▸ hin c hc) hcv _ (Graph.getNeighbors_of_lt _ (hin c hc)))

theorem solveMinCenters_isolated_witness :
    (0 : Int) ≤ 0 ∧ 2 < pathGraph.getNbVertices ∧
    (transformToUnitGraph (fun _ _ _ => 0) pathGraph 0).getNeighbors 2 = .ok [2] ∧
    (∀ u, u < pathGraph.getNbVertices → u ≠ 2 → ∀ neighbors,
      (transformToUnitGraph (fun _ _ _ => 0) pathGraph 0).getNeighbors u = .ok neighbors →
        2 ∉ neighbors) ∧
    ∃ solution,
      (∀ fuel, pathGraph.getNbVertices < fuel →
        solveMinCenters (fun _ _ _ => 0) pathGraph 0 fuel = .ok solution) ∧
      solution.isValid = true ∧ 2 ∈ solution.centers :=
  have hno : ∀ u, u < pathGraph.getNbVertices → u ≠ 2 → ∀ neighbors,
      (transformToUnitGraph (fun _ _ _ => 0) pathGraph 0).getNeighbors u = .ok neighbors →
        2 ∉ neighbors := by
    intro u hu hne neighbors hns
    change u < 5 at hu
    have hrow : (transformToUnitGraph (fun _ _ _ => 0) pathGraph 0).getNeighbors u =
        .ok [u] := by
      interval_cases u <;> rfl
    rw [hrow] at hns
    cases hns
    simpa using fun h => hne h.symm
  ⟨by decide, by decide, rfl, hno,
    solveMinCenters_isolated (fun _ _ _ => 0) pathGraph 0 (by decide) 2 (by decide) rfl hno⟩

/-- C10: base case. For every graph and partial solution with all ids in range
(the ids stored in the graph and the ids of the partial solution are vertices of
the graph), `branchAndBound(graph, partial, 0)` returns, leaving the partial
solution untouched, a `Solution` with `isValid = true` if and only if every vertex
is dominated (it is in `partial` or in the neighbor list of a member of
`partial`), and when valid the returned centers are `partial` as a sequence. -/
theorem branchAndBound_base (graph : Graph) (partialSolution : List Nat)
    (hwf : graph.WellFormed) (hin : InRange graph partialSolution) :
    ∃ solution, branchAndBound graph 0 partialSolution = .ok (solution, partialSolution) ∧
      (solution.isValid = true ↔
        ∀ v, v < graph.getNbVertices →
          (v ∈ partialSolution ∨ ∃ c ∈ partialSolution, ∃ neighbors,
            graph.getNeighbors c = .ok neighbors ∧ v ∈ neighbors)) ∧
      (solution.isValid = true → solution.centers = partialSolution) := by
  rcases branchAndBound_zero graph hwf partialSolution hin with
    ⟨hall, h0⟩ | ⟨⟨v, hv1, hv2⟩, h0⟩
  · refine ⟨_, h0, ⟨fun _ v hv => ?_, fun _ => rfl⟩, fun _ => rfl⟩
    exact (Dominated_iff_getNeighbors graph partialSolution hin v).1 (hall v hv)
  · refine ⟨_, h0, ⟨fun h => by simp at h, fun hall => ?_⟩, fun h => by simp at h⟩
    exact absurd ((Dominated_iff_getNeighbors graph partialSolution hin v).2 (hall v hv1)) hv2

theorem branchAndBound_base_witness :
    pathGraph.WellFormed ∧ InRange pathGraph [1, 3] ∧
    ∃ solution, branchAndBound pathGraph 0 [1, 3] = .ok (solution, [1, 3]) ∧
      (solution.isValid = true ↔
        ∀ v, v < pathGraph.getNbVertices →
          (v ∈ [1, 3] ∨ ∃ c ∈ [1, 3], ∃ neighbors,
            pathGraph.getNeighbors c = .ok neighbors ∧ v ∈ neighbors)) ∧
      (solution.isValid = true → solution.centers = [1, 3]) :=
  have hwf : pathGraph.WellFormed := by
    intro row hrow v hv
    change v < 5
    simp only [pathGraph, List.mem_cons, List.mem_singleton, List.not_mem_nil, or_false]
      at hrow
    rcases hrow with rfl | rfl | rfl | rfl | rfl <;> simp at hv <;> omega
  have hin : InRange pathGraph [1, 3] := by
    intro c hc
    change c < 5
    simp at hc
    omega
  ⟨hwf, hin, branchAndBound_base pathGraph [1, 3] hwf hin⟩


/-! ## The pivot rule -/

theorem branchAndBound_succ_eq (graph : Graph) (k : Nat) (partialSolution : List Nat) :
    branchAndBound graph (k + 1) partialSolution =
      match selectPivot graph partialSolution with
      | .error e => .error e
      | .ok minDegVertex =>
        match branchAndBound graph k (partialSolution ++ [minDegVertex]) with
        | .error e => .error e
        | .ok (newSolution, pushed) =>
          if newSolution.isValid then .ok (newSolution, pushed)
          else
            match graph.getNeighbors minDegVertex with
            | .error e => .error e
            | .ok neighbors =>
              neighborsLoop (branchAndBound graph k) neighbors pushed.dropLast := by
  rw [branchAndBound, selectPivot]
  cases computeMarkedVertices graph partialSolution with
  | error e => rfl
  | ok marked =>
    simp only
    cases collectNonDominated marked with
    | nil => rfl
    | cons first others =>
      simp only
      cases graph.getNeighbors first with
      | error e => rfl
      | ok firstNeighbors =>
        simp only
        cases selectMinDeg graph (first :: others) (first, firstNeighbors.length) with
        | error e => rfl
        | ok r => rfl

theorem collectNonDominated_sorted (markedVertices : List Bool) :
    (collectNonDominated markedVertices).Pairwise (fun a b => a < b) := by
  rw [collectNonDominated_eq]
  exact List.Pairwise.filter _ (List.pairwise_lt_range _)

/-- The minimum-degree loop on an ascending list: the result is the starting pair,
no vertex of the list having a smaller degree, or it is the first vertex of the
list whose degree is the smallest, that degree being smaller than the starting
one. -/
theorem selectMinDeg_lowest (graph : Graph) (vertices : List Nat) :
    ∀ minDegVertex minDeg : Nat, (∀ v ∈ vertices, v < graph.getNbVertices) →
      vertices.Pairwise (fun a b => a < b) →
      ∃ pivot deg, selectMinDeg graph vertices (minDegVertex, minDeg) = .ok (pivot, deg) ∧
        ((pivot = minDegVertex ∧ deg = minDeg ∧
            ∀ v ∈ vertices, minDeg ≤ (graph.row v).length) ∨
          (pivot ∈ vertices ∧ deg = (graph.row pivot).length ∧ deg < minDeg ∧
            (∀ v ∈ vertices, deg ≤ (graph.row v).length) ∧
            ∀ v ∈ vertices, (graph.row v).length ≤ deg → pivot ≤ v)) := by
  induction vertices with
  | nil => intro b d _ _; exact ⟨b, d, rfl, Or.inl ⟨rfl, rfl, by simp⟩⟩
  | cons x rest ih =>
    intro b d hin hsorted
    have hx : x < graph.getNbVertices := hin x (List.mem_cons_self _ _)
    have hrest : ∀ v ∈ rest, v < graph.getNbVertices :=
      fun v hv => hin v (List.mem_cons_of_mem _ hv)
    obtain ⟨hxlt, hsrest⟩ := List.pairwise_cons.1 hsorted
    by_cases hlt : (graph.row x).length < d
    · obtain ⟨p, dp, h1, h2⟩ := ih x (graph.row x).length hrest hsrest
      refine ⟨p, dp, ?_, Or.inr ?_⟩
      · simp only [selectMinDeg, graph.getNeighbors_of_lt hx, if_pos hlt]; exact h1
      · rcases h2 with ⟨rfl, rfl, hmin⟩ | ⟨hp, hdp, hlt2, hmin, hlow⟩
        · refine ⟨List.mem_cons_self _ _, rfl, hlt, ?_, ?_⟩
          · intro v hv
            rcases List.mem_cons.1 hv with rfl | hv
            · exact le_refl _
            · exact hmin v hv
          · intro v hv _
            rcases List.mem_cons.1 hv with rfl | hv
            · exact le_refl _
            · exact le_of_lt (hxlt v hv)
        · refine ⟨List.mem_cons_of_mem _ hp, hdp, by omega, ?_, ?_⟩
          · intro v hv
            rcases List.mem_cons.1 hv with rfl | hv
            · omega
            · exact hmin v hv
          · intro v hv hle
            rcases List.mem_cons.1 hv with rfl | hv
            · omega
            · exact hlow v hv hle
    · obtain ⟨p, dp, h1, h2⟩ := ih b d hrest hsrest
      refine ⟨p, dp, ?_, ?_⟩
      · simp only [selectMinDeg, graph.getNeighbors_of_lt hx, if_neg hlt]; exact h1
      · rcases h2 with ⟨rfl, rfl, hmin⟩ | ⟨hp, hdp, hlt2, hmin, hlow⟩
        · refine Or.inl ⟨rfl, rfl, ?_⟩
          intro v hv
          rcases List.mem_cons.1 hv with rfl | hv
          · omega
          · exact hmin v hv
        · refine Or.inr ⟨List.mem_cons_of_mem _ hp, hdp, hlt2, ?_, ?_⟩
          · intro v hv
            rcases List.mem_cons.1 hv with rfl | hv
            · omega
            · exact hmin v hv
          · intro v hv hle
            rcases List.mem_cons.1 hv with rfl | hv
            · omega
            · exact hlow v hv hle

/-- The pivot selected from a marking that ran without fault: it faults exactly
when no vertex is left non-dominated, and otherwise the pivot is a non-dominated
vertex of minimum degree, the lowest id among those. -/
theorem selectPivot_of_marked (graph : Graph) (partialSolution : List Nat)
    (marked : List Bool) (hm1 : computeMarkedVertices graph partialSolution = .ok marked)
    (hm2 : marked.length = graph.getNbVertices)
    (hm3 : ∀ i, marked[i]? = some true ↔ Dominated graph partialSolution i) :
    ((∀ v, v < graph.getNbVertices → Dominated graph partialSolution v) ∧
        selectPivot graph partialSolution = .error .emptyNonDominated) ∨
      ∃ pivot, selectPivot graph partialSolution = .ok pivot ∧
        pivot < graph.getNbVertices ∧ ¬ Dominated graph partialSolution pivot ∧
        ∀ v, v < graph.getNbVertices → ¬ Dominated graph partialSolution v →
          (graph.row pivot).length ≤ (graph.row v).length ∧
          ((graph.row v).length = (graph.row pivot).length → pivot ≤ v) := by
  have hmem : ∀ v, v ∈ collectNonDominated marked ↔
      v < graph.getNbVertices ∧ ¬ Dominated graph partialSolution v := by
    intro v; rw [mem_collectNonDominated, hm2, hm3]
  have hsorted := collectNonDominated_sorted marked
  cases hnd : collectNonDominated marked with
  | nil =>
    left
    refine ⟨fun v hv => ?_, ?_⟩
    · by_contra hdom
      have := (hmem v).2 ⟨hv, hdom⟩
      rw [hnd] at this; simp at this
    · simp only [selectPivot, hm1, hnd]
  | cons first others =>
    right
    rw [hnd] at hsorted
    have hfirst : first < graph.getNbVertices :=
      ((hmem first).1 (by rw [hnd]; exact List.mem_cons_self _ _)).1
    have hall : ∀ v ∈ first :: others, v < graph.getNbVertices :=
      fun v hv => ((hmem v).1 (by rw [hnd]; exact hv)).1
    obtain ⟨p, dp, h1, h2⟩ :=
      selectMinDeg_lowest graph (first :: others) first (graph.row first).length hall hsorted
    have hsel : selectPivot graph partialSolution = .ok p := by
      simp only [selectPivot, hm1, hnd, graph.getNeighbors_of_lt hfirst, h1]
    rcases h2 with ⟨rfl, rfl, hmin⟩ | ⟨hp, hdp, _, hmin, hlow⟩
    · have hpn := (hmem p).1 (by rw [hnd]; exact List.mem_cons_self _ _)
      refine ⟨p, hsel, hpn.1, hpn.2, fun v hv hdom => ?_⟩
      have hv2 : v ∈ p :: others := by rw [← hnd]; exact (hmem v).2 ⟨hv, hdom⟩
      refine ⟨hmin v hv2, fun _ => ?_⟩
      rcases List.mem_cons.1 hv2 with rfl | hv3
      · exact le_refl _
      · exact le_of_lt ((List.pairwise_cons.1 hsorted).1 v hv3)
    · have hpn := (hmem p).1 (by rw [hnd]; exact hp)
      refine ⟨p, hsel, hpn.1, hpn.2, fun v hv hdom => ?_⟩
      have hv2 : v ∈ first :: others := by rw [← hnd]; exact (hmem v).2 ⟨hv, hdom⟩
      rw [← hdp]
      exact ⟨hmin v hv2, fun heq => hlow v hv2 (by omega)⟩

/-- C11: pivot rule. On a graph and a partial solution with all ids in range, when
at least one vertex is non-dominated the recursive case of `branchAndBound`
selects a pivot `minDegVertex` (it then branches on the pivot followed by its
neighbors); the pivot is a non-dominated vertex, its neighbor list is not longer
than that of any non-dominated vertex, and every non-dominated vertex whose
neighbor list has the same length has an id at least the pivot's. -/
theorem selectPivot_rule (graph : Graph) (partialSolution : List Nat)
    (hwf : graph.WellFormed) (hin : InRange graph partialSolution)
    (hex : ∃ v, v < graph.getNbVertices ∧ ¬ Dominated graph partialSolution v) :
    ∃ minDegVertex pivotNeighbors,
      selectPivot graph partialSolution = .ok minDegVertex ∧
      graph.getNeighbors minDegVertex = .ok pivotNeighbors ∧
      (∀ k, branchAndBound graph (k + 1) partialSolution =
        neighborsLoop (branchAndBound graph k) (minDegVertex :: pivotNeighbors)
          partialSolution) ∧
      minDegVertex < graph.getNbVertices ∧
      ¬ Dominated graph partialSolution minDegVertex ∧
      ∀ v neighbors, v < graph.getNbVertices → ¬ Dominated graph partialSolution v →
        graph.getNeighbors v = .ok neighbors →
        pivotNeighbors.length ≤ neighbors.length ∧
        (neighbors.length = pivotNeighbors.length → minDegVertex ≤ v) := by
  obtain ⟨m, hm1, hm2, hm3⟩ := computeMarkedVertices_spec graph hwf partialSolution hin
  rcases selectPivot_of_marked graph partialSolution m hm1 hm2 hm3 with
    ⟨hall, _⟩ | ⟨p, hsel, hp, hpd, hmin⟩
  · obtain ⟨v, hv, hdom⟩ := hex
    exact absurd (hall v hv) hdom
  · refine ⟨p, graph.row p, hsel, graph.getNeighbors_of_lt hp, fun k => ?_, hp, hpd, ?_⟩
    · rw [branchAndBound_succ_eq, hsel]
      simp only [graph.getNeighbors_of_lt hp, neighborsLoop]
    · intro v neighbors hv hdom hns
      rw [graph.getNeighbors_of_lt hv] at hns
      cases hns
      exact hmin v hv hdom

theorem selectPivot_rule_witness :
    pathGraph.WellFormed ∧ InRange pathGraph [0] ∧
    (∃ v, v < pathGraph.getNbVertices ∧ ¬ Dominated pathGraph [0] v) ∧
    ∃ minDegVertex pivotNeighbors,
      selectPivot pathGraph [0] = .ok minDegVertex ∧
      pathGraph.getNeighbors minDegVertex = .ok pivotNeighbors ∧
      (∀ k, branchAndBound pathGraph (k + 1) [0] =
        neighborsLoop (branchAndBound pathGraph k) (minDegVertex :: pivotNeighbors) [0]) ∧
      minDegVertex < pathGraph.getNbVertices ∧
      ¬ Dominated pathGraph [0] minDegVertex ∧
      ∀ v neighbors, v < pathGraph.getNbVertices → ¬ Dominated pathGraph [0] v →
        pathGraph.getNeighbors v = .ok neighbors →
        pivotNeighbors.length ≤ neighbors.length ∧
        (neighbors.length = pivotNeighbors.length → minDegVertex ≤ v) :=
  have hwf : pathGraph.WellFormed := by
    intro row hrow v hv
    change v < 5
    simp only [pathGraph, List.mem_cons, List.mem_singleton, List.not_mem_nil, or_false]
      at hrow
    rcases hrow with rfl | rfl | rfl | rfl | rfl <;> simp at hv <;> omega
  have hin : InRange pathGraph [0] := by
    intro c hc
    change c < 5
    simp at hc
    omega
  have hex : ∃ v, v < pathGraph.getNbVertices ∧ ¬ Dominated pathGraph [0] v :=
    ⟨4, by decide, by decide⟩
  ⟨hwf, hin, hex, selectPivot_rule pathGraph [0] hwf hin hex⟩


/-! ## Results that do not depend on the ids being in range -/

theorem Graph.row_of_getNeighbors (graph : Graph) {v : Nat} {neighbors : List Nat}
    (h : graph.getNeighbors v = .ok neighbors) : graph.row v = neighbors := by
  unfold Graph.getNeighbors at h
  unfold Graph.row
  cases hrow : graph.adjacencyList[v]? with
  | none => rw [hrow] at h; cases h
  | some row =>
    rw [hrow] at h
    simp only [Except.ok.injEq] at h
    simp [h]

theorem setMarked_of_ok {markedVertices marked : List Bool} {vertex : Nat}
    (h : setMarked markedVertices vertex = .ok marked) :
    vertex < markedVertices.length := by
  unfold setMarked at h
  by_contra hlt
  rw [if_neg hlt] at h
  cases h

theorem markNeighbors_of_ok (neighbors : List Nat) :
    ∀ markedVertices marked : List Bool,
      markNeighbors neighbors markedVertices = .ok marked →
        ∀ v ∈ neighbors, v < markedVertices.length := by
  induction neighbors with
  | nil => intro _ _ _ v hv; simp at hv
  | cons x rest ih =>
    intro m m2 h v hv
    rw [markNeighbors] at h
    cases hs : setMarked m x with
    | error e => rw [hs] at h; cases h
    | ok m1 =>
      have hx := setMarked_of_ok hs
      rw [hs] at h
      rw [setMarked_of_lt hx] at hs
      cases hs
      rcases List.mem_cons.1 hv with rfl | hv
      · exact hx
      · have := ih _ _ h v hv
        rwa [List.length_set] at this

theorem markPartialSolution_of_ok (graph : Graph) (partialSolution : List Nat) :
    ∀ markedVertices marked : List Bool,
      markPartialSolution graph partialSolution markedVertices = .ok marked →
        marked.length = markedVertices.length ∧
        ∀ i, marked[i]? = some true ↔
          (markedVertices[i]? = some true ∨ Dominated graph partialSolution i) := by
  induction partialSolution with
  | nil =>
    intro m m2 h
    simp only [markPartialSolution, Except.ok.injEq] at h
    subst h
    exact ⟨rfl, by simp [Dominated]⟩
  | cons c rest ih =>
    intro m m2 h
    rw [markPartialSolution] at h
    cases hs : setMarked m c with
    | error e => rw [hs] at h; cases h
    | ok m0 =>
      have hc := setMarked_of_ok hs
      rw [hs] at h
      rw [setMarked_of_lt hc] at hs
      cases hs
      cases hg : graph.getNeighbors c with
      | error e => rw [hg] at h; cases h
      | ok neighbors =>
        rw [hg] at h
        simp only at h
        have hrow := graph.row_of_getNeighbors hg
        cases hn : markNeighbors neighbors (m.set c true) with
        | error e => rw [hn] at h; cases h
        | ok m1 =>
          rw [hn] at h
          obtain ⟨m1', h1, h2, h3⟩ := markNeighbors_spec neighbors (m.set c true)
            (markNeighbors_of_ok neighbors _ _ hn)
          rw [hn] at h1
          cases h1
          obtain ⟨k2, k3⟩ := ih m1 m2 h
          refine ⟨by rw [k2, h2, List.length_set], fun i => ?_⟩
          rw [k3 i, h3 i, getElem?_set_true m hc i]
          simp only [Dominated, List.mem_cons, exists_eq_or_imp, hrow]
          constructor
          · rintro (((h | h) | h) | h)
            · exact Or.inl h
            · exact Or.inr (Or.inl (Or.inl h))
            · exact Or.inr (Or.inl (Or.inr h))
            · exact Or.inr (Or.inr h)
          · rintro (h | (h | h) | h)
            · exact Or.inl (Or.inl (Or.inl h))
            · exact Or.inl (Or.inl (Or.inr h))
            · exact Or.inl (Or.inr h)
            · exact Or.inr h

theorem computeMarkedVertices_of_ok (graph : Graph) (partialSolution : List Nat)
    (marked : List Bool) (h : computeMarkedVertices graph partialSolution = .ok marked) :
    marked.length = graph.getNbVertices ∧
      ∀ i, marked[i]? = some true ↔ Dominated graph partialSolution i := by
  obtain ⟨h2, h3⟩ := markPartialSolution_of_ok graph partialSolution _ _ h
  refine ⟨by rw [h2, List.length_replicate], fun i => ?_⟩
  rw [h3 i]
  constructor
  · rintro (h | h)
    · rw [List.getElem?_replicate] at h
      split at h <;> simp at h
    · exact h
  · exact Or.inr

/-- A selected pivot is a vertex of the graph, non-dominated, whatever the
graph. -/
theorem selectPivot_of_ok (graph : Graph) (partialSolution : List Nat) (pivot : Nat)
    (h : selectPivot graph partialSolution = .ok pivot) :
    pivot < graph.getNbVertices ∧ ¬ Dominated graph partialSolution pivot := by
  cases hm : computeMarkedVertices graph partialSolution with
  | error e => simp only [selectPivot, hm] at h; cases h
  | ok marked =>
    obtain ⟨hm2, hm3⟩ := computeMarkedVertices_of_ok graph partialSolution marked hm
    rcases selectPivot_of_marked graph partialSolution marked hm hm2 hm3 with
      ⟨_, herr⟩ | ⟨p, hsel, hp, hpd, _⟩
    · rw [herr] at h; cases h
    · rw [hsel] at h
      cases h
      exact ⟨hp, hpd⟩

/-- The base case whenever it returns: the stack is untouched, a valid result is
the partial solution and dominates every vertex, an invalid one has no
centers. -/
theorem branchAndBound_zero_of_ok (graph : Graph) (partialSolution : List Nat)
    (s : Solution) (stk : List Nat)
    (h : branchAndBound graph 0 partialSolution = .ok (s, stk)) :
    stk = partialSolution ∧
      (s.isValid = false → s.centers = []) ∧
      (s.isValid = true → s.centers = partialSolution ∧
        ∀ v, v < graph.getNbVertices → Dominated graph partialSolution v) := by
  rw [branchAndBound] at h
  cases hm : computeMarkedVertices graph partialSolution with
  | error e => rw [hm] at h; cases h
  | ok marked =>
    rw [hm] at h
    obtain ⟨hm2, hm3⟩ := computeMarkedVertices_of_ok graph partialSolution marked hm
    by_cases hall : marked.all (fun b => b) = true
    · simp only [hall, if_true, Except.ok.injEq, Prod.mk.injEq] at h
      obtain ⟨rfl, rfl⟩ := h
      refine ⟨rfl, fun hc => by simp at hc, fun _ => ⟨rfl, fun v hv => ?_⟩⟩
      rw [← hm3 v]
      rw [List.all_eq_true] at hall
      have hlt : v < marked.length := by omega
      rw [List.getElem?_eq_getElem hlt]
      simpa using hall marked[v] (List.getElem_mem _)
    · simp only [hall, Except.ok.injEq, Prod.mk.injEq] at h
      obtain ⟨rfl, rfl⟩ := h
      exact ⟨rfl, fun _ => rfl, fun hc => by simp at hc⟩

/-- Results of `branchAndBound` on any graph and partial solution whenever it
returns: an invalid result leaves the stack as it was and carries no centers; a
valid result is the stack, which extends the partial solution by as many centers
as the budget and dominates every vertex. -/
theorem branchAndBound_result_of_ok (graph : Graph) (k : Nat) :
    ∀ (partialSolution : List Nat) (s : Solution) (stk : List Nat),
      branchAndBound graph k partialSolution = .ok (s, stk) →
        (s.isValid = false → stk = partialSolution ∧ s.centers = []) ∧
        (s.isValid = true → stk = s.centers ∧
          s.centers.length = partialSolution.length + k ∧
          partialSolution <+: s.centers ∧
          ∀ v, v < graph.getNbVertices → Dominated graph s.centers v) := by
  induction k with
  | zero =>
    intro P s stk h
    obtain ⟨h1, h2, h3⟩ := branchAndBound_zero_of_ok graph P s stk h
    refine ⟨fun hv => ⟨h1, h2 hv⟩, fun hv => ?_⟩
    obtain ⟨h4, h5⟩ := h3 hv
    rw [h4]
    exact ⟨h1, by simp, List.prefix_refl _, h5⟩
  | succ k ih =>
    intro P s stk h
    rw [branchAndBound_succ_eq] at h
    cases hsel : selectPivot graph P with
    | error e => rw [hsel] at h; cases h
    | ok p =>
      rw [hsel] at h
      simp only at h
      have hframe : ∀ c s stk, branchAndBound graph k (P ++ [c]) = .ok (s, stk) →
          s.isValid = false → stk = P ++ [c] :=
        fun c s stk hr hv => ((ih (P ++ [c]) s stk hr).1 hv).1
      have hvalid : ∀ c, branchAndBound graph k (P ++ [c]) = .ok (s, stk) →
          s.isValid = true → stk = s.centers ∧ s.centers.length = P.length + (k + 1) ∧
            P <+: s.centers ∧ ∀ v, v < graph.getNbVertices → Dominated graph s.centers v := by
        intro c hr hv
        obtain ⟨a1, a2, a3, a5⟩ := (ih (P ++ [c]) s stk hr).2 hv
        refine ⟨a1, ?_, (List.prefix_append P [c]).trans a3, a5⟩
        rw [a2, List.length_append]; simp; omega
      cases h1 : branchAndBound graph k (P ++ [p]) with
      | error e => rw [h1] at h; cases h
      | ok r =>
        obtain ⟨s1, stk1⟩ := r
        rw [h1] at h
        simp only at h
        cases hv1 : s1.isValid with
        | true =>
          simp only [hv1, if_true, Except.ok.injEq, Prod.mk.injEq] at h
          obtain ⟨rfl, rfl⟩ := h
          exact ⟨fun hv => (by rw [hv1] at hv; cases hv), fun hv => hvalid p h1 hv⟩
        | false =>
          have hstk := hframe p s1 stk1 h1 hv1
          subst hstk
          simp only [hv1, List.dropLast_concat] at h
          cases hg : graph.getNeighbors p with
          | error e => rw [hg] at h; simp at h
          | ok neighbors =>
            rw [hg] at h
            simp only [Bool.false_eq_true, if_false] at h
            rcases neighborsLoop_cases _ P neighbors (fun c _ => hframe c) s stk h with
              ⟨a1, a2, a3, _⟩ | ⟨a1, c, _, a2⟩
            · exact ⟨fun _ => ⟨a2, a3⟩, fun hv => (by rw [a1] at hv; cases hv)⟩
            · exact ⟨fun hv => (by rw [a1] at hv; cases hv), fun hv => hvalid c a2 hv⟩


/-! ## The record of the calls -/

theorem neighborsLoopLogged_fst
    (recurseLogged : List Nat → Except Fault (Solution × List Nat) × CallLog)
    (recurse : List Nat → Except Fault (Solution × List Nat))
    (hrec : ∀ p, (recurseLogged p).1 = recurse p) (neighbors : List Nat) :
    ∀ partialSolution,
      (neighborsLoopLogged recurseLogged neighbors partialSolution).1 =
        neighborsLoop recurse neighbors partialSolution := by
  induction neighbors with
  | nil => intro P; rfl
  | cons x rest ih =>
    intro P
    rw [neighborsLoopLogged, neighborsLoop, ← hrec (P ++ [x])]
    cases recurseLogged (P ++ [x]) with
    | mk res log =>
      cases res with
      | error e => rfl
      | ok r =>
        obtain ⟨s, pushed⟩ := r
        cases hv : s.isValid with
        | true => simp [hv]
        | false => simp [hv, ih]

theorem neighborsLoopLogged_bounds
    (recurseLogged : List Nat → Except Fault (Solution × List Nat) × CallLog)
    (bound : Nat) (good : Nat × Nat → Prop)
    (hdepth : ∀ p, (recurseLogged p).2.depth ≤ bound)
    (hgood : ∀ p, ∀ entry ∈ (recurseLogged p).2.branching, good entry)
    (neighbors : List Nat) :
    ∀ partialSolution,
      (neighborsLoopLogged recurseLogged neighbors partialSolution).2.1 ≤ neighbors.length ∧
      (neighborsLoopLogged recurseLogged neighbors partialSolution).2.2.depth ≤ bound ∧
      ∀ entry ∈ (neighborsLoopLogged recurseLogged neighbors partialSolution).2.2.branching,
        good entry := by
  induction neighbors with
  | nil => intro P; simp [neighborsLoopLogged]
  | cons x rest ih =>
    intro P
    rw [neighborsLoopLogged]
    have hd := hdepth (P ++ [x])
    have hg := hgood (P ++ [x])
    cases hr : recurseLogged (P ++ [x]) with
    | mk res log =>
      rw [hr] at hd hg
      cases res with
      | error e => exact ⟨by simp, hd, hg⟩
      | ok r =>
        obtain ⟨s, pushed⟩ := r
        cases hv : s.isValid with
        | true => simp only [hv, if_true]; exact ⟨by simp, hd, hg⟩
        | false =>
          obtain ⟨i1, i2, i3⟩ := ih pushed.dropLast
          simp only [hv, Bool.false_eq_true, if_false, List.length_cons]
          refine ⟨Nat.succ_le_succ i1, max_le hd i2, ?_⟩
          intro entry hentry
          rcases List.mem_append.1 hentry with h | h
          · exact hg entry h
          · exact i3 entry h

theorem branchAndBoundLogged_fst (graph : Graph) (k : Nat) :
    ∀ partialSolution,
      (branchAndBoundLogged graph k partialSolution).1 =
        branchAndBound graph k partialSolution := by
  induction k with
  | zero => intro P; rfl
  | succ k ih =>
    intro P
    rw [branchAndBoundLogged, branchAndBound_succ_eq]
    cases selectPivot graph P with
    | error e => rfl
    | ok p =>
      simp only
      rw [← ih (P ++ [p])]
      cases branchAndBoundLogged graph k (P ++ [p]) with
      | mk res log =>
        cases res with
        | error e => rfl
        | ok r =>
          obtain ⟨s, pushed⟩ := r
          cases hv : s.isValid with
          | true => simp [hv]
          | false =>
            simp only [hv, Bool.false_eq_true, if_false]
            cases graph.getNeighbors p with
            | error e => rfl
            | ok neighbors =>
              simp only
              exact neighborsLoopLogged_fst _ _ ih neighbors _

theorem le_foldl_max (l : List Nat) :
    ∀ a, a ≤ l.foldl max a ∧ ∀ x ∈ l, x ≤ l.foldl max a := by
  induction l with
  | nil => intro a; simp
  | cons y rest ih =>
    intro a
    obtain ⟨h1, h2⟩ := ih (max a y)
    rw [List.foldl_cons]
    refine ⟨le_trans (le_max_left a y) h1, fun x hx => ?_⟩
    rcases List.mem_cons.1 hx with rfl | hx
    · exact le_trans (le_max_right a x) h1
    · exact h2 x hx

theorem Graph.length_le_maxDegree (graph : Graph) {v : Nat} {neighbors : List Nat}
    (h : graph.getNeighbors v = .ok neighbors) : neighbors.length ≤ graph.maxDegree := by
  unfold Graph.getNeighbors at h
  cases hrow : graph.adjacencyList[v]? with
  | none => rw [hrow] at h; cases h
  | some row =>
    rw [hrow] at h
    simp only [Except.ok.injEq] at h
    subst h
    exact (le_foldl_max _ 0).2 _ (List.mem_map.2 ⟨row, List.getElem?_mem hrow, rfl⟩)

/-- The record of the calls of `branchAndBoundLogged`: the depth is at most the
budget, and every call that selected a pivot made at most one recursive call more
than the pivot has neighbors. -/
theorem branchAndBoundLogged_bounds (graph : Graph) (k : Nat) :
    ∀ partialSolution,
      (branchAndBoundLogged graph k partialSolution).2.depth ≤ k ∧
      ∀ entry ∈ (branchAndBoundLogged graph k partialSolution).2.branching,
        ∃ neighbors, graph.getNeighbors entry.1 = .ok neighbors ∧
          entry.2 ≤ 1 + neighbors.length := by
  induction k with
  | zero => intro P; simp [branchAndBoundLogged]
  | succ k ih =>
    intro P
    rw [branchAndBoundLogged]
    cases hsel : selectPivot graph P with
    | error e => simp
    | ok p =>
      simp only
      have hp := (selectPivot_of_ok graph P p hsel).1
      have hgp := graph.getNeighbors_of_lt hp
      obtain ⟨hd, hg⟩ := ih (P ++ [p])
      have hfirst : ∀ entry ∈ (p, 1) :: (branchAndBoundLogged graph k (P ++ [p])).2.branching,
          ∃ neighbors, graph.getNeighbors entry.1 = .ok neighbors ∧
            entry.2 ≤ 1 + neighbors.length := by
        intro entry hentry
        rcases List.mem_cons.1 hentry with rfl | h
        · exact ⟨_, hgp, by simp⟩
        · exact hg entry h
      cases hr : branchAndBoundLogged graph k (P ++ [p]) with
      | mk res log =>
        rw [hr] at hd hg hfirst
        cases res with
        | error e => exact ⟨by simpa using hd, hfirst⟩
        | ok r =>
          obtain ⟨s, pushed⟩ := r
          cases hv : s.isValid with
          | true => simp only [hv, if_true]; exact ⟨by simpa using hd, hfirst⟩
          | false =>
            simp only [hv, Bool.false_eq_true, if_false, hgp]
            obtain ⟨i1, i2, i3⟩ := neighborsLoopLogged_bounds (branchAndBoundLogged graph k) k
              (fun entry => ∃ neighbors, graph.getNeighbors entry.1 = .ok neighbors ∧
                entry.2 ≤ 1 + neighbors.length)
              (fun q => (ih q).1) (fun q => (ih q).2) (graph.row p) pushed.dropLast
            refine ⟨by simpa using ⟨hd, i2⟩, ?_⟩
            intro entry hentry
            rcases List.mem_cons.1 hentry with rfl | h
            · exact ⟨_, hgp, by simpa using i1⟩
            · rcases List.mem_append.1 h with h | h
              · exact hg entry h
              · exact i3 entry h

/-- C12: for every graph, partial solution and budget `k ≥ 0`, `branchAndBound`
terminates (it is a total function, defined by recursion on the budget, and the
function that records its calls returns the same result); the depth of its
recursion is at most `k`, and every call that selects a pivot makes at most
`1 + degree(pivot)` recursive calls, which is at most `1 + max-degree`. -/
theorem branchAndBound_terminates (graph : Graph) (partialSolution : List Nat) (k : Nat) :
    ∃ result log, branchAndBoundLogged graph k partialSolution = (result, log) ∧
      branchAndBound graph k partialSolution = result ∧
      log.depth ≤ k ∧
      ∀ entry ∈ log.branching, ∃ neighbors,
        graph.getNeighbors entry.1 = .ok neighbors ∧
        entry.2 ≤ 1 + neighbors.length ∧ 1 + neighbors.length ≤ 1 + graph.maxDegree := by
  refine ⟨(branchAndBoundLogged graph k partialSolution).1,
    (branchAndBoundLogged graph k partialSolution).2, rfl,
    (branchAndBoundLogged_fst graph k partialSolution).symm,
    (branchAndBoundLogged_bounds graph k partialSolution).1, ?_⟩
  intro entry hentry
  obtain ⟨neighbors, h1, h2⟩ :=
    (branchAndBoundLogged_bounds graph k partialSolution).2 entry hentry
  exact ⟨neighbors, h1, h2, by have := graph.length_le_maxDegree h1; omega⟩


/-! ## Faults of the loop, valid results, the stack, the grid -/

theorem solveMinCentersLoop_out_of_fuel (unweightedGraph : Graph) (fuel : Nat) :
    ∀ nbCenters,
      (∀ j, j < fuel → ∃ s1 stk1, branchAndBound unweightedGraph (nbCenters + j) [] =
        .ok (s1, stk1) ∧ s1.isValid = false) →
      solveMinCentersLoop unweightedGraph fuel nbCenters = .error .outOfFuel := by
  induction fuel with
  | zero => intro _ _; rfl
  | succ fuel ih =>
    intro k0 hbefore
    obtain ⟨s1, stk1, h1, hv1⟩ := hbefore 0 (by omega)
    simp only [Nat.add_zero] at h1
    simp only [solveMinCentersLoop, h1, hv1]
    apply ih (k0 + 1)
    intro j hj
    have := hbefore (j + 1) (by omega)
    rwa [show k0 + (j + 1) = k0 + 1 + j by omega] at this

theorem Dominated_getNeighbors (graph : Graph) (centers : List Nat) (v : Nat)
    (h : Dominated graph centers v) :
    v ∈ centers ∨ ∃ c ∈ centers, ∃ neighbors,
      graph.getNeighbors c = .ok neighbors ∧ v ∈ neighbors := by
  obtain ⟨c, hc, h | h⟩ := h
  · subst h; exact Or.inl hc
  · right
    refine ⟨c, hc, graph.row c, ?_, h⟩
    unfold Graph.row at h ⊢
    unfold Graph.getNeighbors
    cases hrow : graph.adjacencyList[c]? with
    | none => rw [hrow] at h; simp at h
    | some row => simp

/-- C17: during `solveMinCenters`, whatever the graph, the radius and the number
of iterations allowed, no call of `branchAndBound` reads the pivot from an empty
`nonDominatedVertices` (a fault of a call is the result of all its callers, and
the result is never that fault, nor any access out of bounds): the result is a
`Solution` or the iterations ran out. The loop stops at a budget `k`, and the
searches at all budgets up to `k` return without fault. -/
theorem solveMinCenters_pivot_in_bounds (precompute : List (List Nat) → Nat → Nat → Int)
    (graph : Graph) (radius : Int) :
    (∀ fuel, solveMinCenters precompute graph radius fuel ≠ .error .emptyNonDominated ∧
      ((∃ solution, solveMinCenters precompute graph radius fuel = .ok solution) ∨
        solveMinCenters precompute graph radius fuel = .error .outOfFuel)) ∧
    ∃ k, (∀ j, j ≤ k → ∃ result,
        branchAndBound (transformToUnitGraph precompute graph radius) j [] = .ok result) ∧
      ∀ fuel, k < fuel → ∃ solution,
        solveMinCenters precompute graph radius fuel = .ok solution := by
  obtain ⟨k, s, stk, _, h1, h2, h3, h4⟩ := solveMinCenters_first precompute graph radius
  have hcases : ∀ fuel,
      (∃ solution, solveMinCenters precompute graph radius fuel = .ok solution) ∨
        solveMinCenters precompute graph radius fuel = .error .outOfFuel := by
    intro fuel
    by_cases hf : k < fuel
    · exact Or.inl ⟨s, h4 fuel hf⟩
    · right
      unfold solveMinCenters
      apply solveMinCentersLoop_out_of_fuel
      intro j hj
      rw [Nat.zero_add]
      exact h3 j (by omega)
  refine ⟨fun fuel => ⟨?_, hcases fuel⟩, k, ?_, fun fuel hf => ⟨s, h4 fuel hf⟩⟩
  · rcases hcases fuel with ⟨sol, h⟩ | h
    · rw [h]; simp
    · rw [h]; simp
  · intro j hj
    rcases Nat.lt_or_eq_of_le hj with hlt | rfl
    · obtain ⟨s1, stk1, hs1, _⟩ := h3 j hlt
      exact ⟨_, hs1⟩
    · exact ⟨_, h1⟩

/-- C18: for every graph, partial solution and budget `k ≥ 0`, if
`branchAndBound(graph, partial, k)` returns a valid `Solution` then its centers
sequence has `partial` as a prefix, has length exactly `|partial| + k`, and
dominates every vertex of the graph. -/
theorem branchAndBound_valid (graph : Graph) (partialSolution : List Nat) (k : Nat)
    (solution : Solution) (stack : List Nat)
    (h : branchAndBound graph k partialSolution = .ok (solution, stack))
    (hvalid : solution.isValid = true) :
    partialSolution <+: solution.centers ∧
      solution.centers.length = partialSolution.length + k ∧
      ∀ v, v < graph.getNbVertices →
        (v ∈ solution.centers ∨ ∃ c ∈ solution.centers, ∃ neighbors,
          graph.getNeighbors c = .ok neighbors ∧ v ∈ neighbors) := by
  obtain ⟨_, h2, h3, h4⟩ :=
    (branchAndBound_result_of_ok graph k partialSolution solution stack h).2 hvalid
  exact ⟨h3, h2, fun v hv => Dominated_getNeighbors graph _ v (h4 v hv)⟩

theorem branchAndBound_valid_witness :
    branchAndBound (transformToUnitGraph (fun _ _ _ => 0) pathGraph 1) 1 [0] =
      .ok ({ centers := [0, 3], isValid := true }, [0, 3]) ∧
    ({ centers := [0, 3], isValid := true } : Solution).isValid = true ∧
    ([0] : List Nat) <+: ({ centers := [0, 3], isValid := true } : Solution).centers ∧
      ({ centers := [0, 3], isValid := true } : Solution).centers.length =
        ([0] : List Nat).length + 1 ∧
      ∀ v, v < (transformToUnitGraph (fun _ _ _ => 0) pathGraph 1).getNbVertices →
        (v ∈ ({ centers := [0, 3], isValid := true } : Solution).centers ∨
          ∃ c ∈ ({ centers := [0, 3], isValid := true } : Solution).centers, ∃ neighbors,
            (transformToUnitGraph (fun _ _ _ => 0) pathGraph 1).getNeighbors c =
              .ok neighbors ∧ v ∈ neighbors) :=
  ⟨rfl, rfl, branchAndBound_valid (transformToUnitGraph (fun _ _ _ => 0) pathGraph 1) [0] 1
    { centers := [0, 3], isValid := true } [0, 3] rfl rfl⟩

/-- C19: backtracking restores the stack. For every graph, partial solution and
budget `k ≥ 0`, if `branchAndBound(graph, partial, k)` returns an invalid
`Solution` then `partialSolution` after the call is identical to the one before
the call; if it returns a valid one, `partialSolution` after the call equals the
returned centers. -/
theorem branchAndBound_stack (graph : Graph) (partialSolution : List Nat) (k : Nat)
    (solution : Solution) (stack : List Nat)
    (h : branchAndBound graph k partialSolution = .ok (solution, stack)) :
    (solution.isValid = false → stack = partialSolution) ∧
      (solution.isValid = true → stack = solution.centers) := by
  have hres := branchAndBound_result_of_ok graph k partialSolution solution stack h
  exact ⟨fun hv => (hres.1 hv).1, fun hv => (hres.2 hv).1⟩

theorem branchAndBound_stack_witness :
    branchAndBound (transformToUnitGraph (fun _ _ _ => 0) pathGraph 1) 1 [2] =
      .ok ({ centers := [], isValid := false }, [2]) ∧
    (({ centers := [], isValid := false } : Solution).isValid = false → [2] = [2]) ∧
      (({ centers := [], isValid := false } : Solution).isValid = true →
        [2] = ({ centers := [], isValid := false } : Solution).centers) :=
  ⟨rfl, branchAndBound_stack (transformToUnitGraph (fun _ _ _ => 0) pathGraph 1) [2] 1
    { centers := [], isValid := false } [2] rfl⟩


theorem gridGraph_distance_symm (width height u v : Nat) :
    (gridGraph width height).getDistance u v = (gridGraph width height).getDistance v u := by
  simp only [gridGraph, Graph.getDistance]
  rw [abs_sub_comm, abs_sub_comm ((u / width : Nat) : Int)]

theorem gridGraph_unit (precompute : List (List Nat) → Nat → Nat → Int) :
    transformToUnitGraph precompute (gridGraph 3 3) 1 =
      { adjacencyList := [[0, 1, 3], [0, 1, 2, 4], [1, 2, 5], [0, 3, 4, 6], [1, 3, 4, 5, 7],
          [2, 4, 5, 8], [3, 6, 7], [4, 6, 7, 8], [5, 7, 8]],
        distance := precompute [[0, 1, 3], [0, 1, 2, 4], [1, 2, 5], [0, 3, 4, 6],
          [1, 3, 4, 5, 7], [2, 4, 5, 8], [3, 6, 7], [4, 6, 7, 8], [5, 7, 8]] } := by
  unfold transformToUnitGraph Graph.ofAdjacencyList
  rw [show unitAdjacencyList (gridGraph 3 3) 1 =
    [[0, 1, 3], [0, 1, 2, 4], [1, 2, 5], [0, 3, 4, 6], [1, 3, 4, 5, 7],
      [2, 4, 5, 8], [3, 6, 7], [4, 6, 7, 8], [5, 7, 8]] from rfl]

set_option maxHeartbeats 4000000 in
theorem gridGraph_search (distance : Nat → Nat → Int) :
    (∀ j, j < 3 → branchAndBound
      { adjacencyList := [[0, 1, 3], [0, 1, 2, 4], [1, 2, 5], [0, 3, 4, 6], [1, 3, 4, 5, 7],
          [2, 4, 5, 8], [3, 6, 7], [4, 6, 7, 8], [5, 7, 8]],
        distance := distance } j [] = .ok ({ centers := [], isValid := false }, [])) ∧
    branchAndBound
      { adjacencyList := [[0, 1, 3], [0, 1, 2, 4], [1, 2, 5], [0, 3, 4, 6], [1, 3, 4, 5, 7],
          [2, 4, 5, 8], [3, 6, 7], [4, 6, 7, 8], [5, 7, 8]],
        distance := distance } 3 [] =
      .ok ({ centers := [0, 2, 7], isValid := true }, [0, 2, 7]) := by
  refine ⟨fun j hj => ?_, rfl⟩
  interval_cases j <;> rfl

/-- C20: on the 3×3 grid graph with 4-connectivity and the shortest-path distances
of the grid, `solveMinCenters` with radius 1 returns (its loop being allowed at
least four iterations) a valid `Solution` with exactly 3 centers, `[0, 2, 7]`, and
3 is the minimum: every set of vertices covering the grid within distance 1 has at
least 3 elements. -/
theorem gridGraph_centers (precompute : List (List Nat) → Nat → Nat → Int) (fuel : Nat) :
    solveMinCenters precompute (gridGraph 3 3) 1 (fuel + 4) =
        .ok { centers := [0, 2, 7], isValid := true } ∧
      ([0, 2, 7] : List Nat).length = 3 ∧
      ∀ D : Finset Nat, (∀ c ∈ D, c < (gridGraph 3 3).getNbVertices) →
        (∀ v, v < (gridGraph 3 3).getNbVertices →
          ∃ c ∈ D, (gridGraph 3 3).getDistance c v ≤ 1) →
        3 ≤ D.card := by
  have hwf := transformToUnitGraph_wellFormed precompute (gridGraph 3 3) 1
  have hn := transformToUnitGraph_getNbVertices precompute (gridGraph 3 3) 1
  have hsym : ∀ u v, u < (transformToUnitGraph precompute (gridGraph 3 3) 1).getNbVertices →
      v ∈ (transformToUnitGraph precompute (gridGraph 3 3) 1).row u →
      u ∈ (transformToUnitGraph precompute (gridGraph 3 3) 1).row v := by
    intro u v hu hv
    rw [hn] at hu
    obtain ⟨hv1, hv2⟩ := (mem_transformToUnitGraph_row precompute _ 1 u v hu).1 hv
    exact (mem_transformToUnitGraph_row precompute _ 1 v u hv1).2
      ⟨hu, by rw [gridGraph_distance_symm]; exact hv2⟩
  obtain ⟨hlow, h3⟩ := gridGraph_search (precompute
    [[0, 1, 3], [0, 1, 2, 4], [1, 2, 5], [0, 3, 4, 6], [1, 3, 4, 5, 7],
      [2, 4, 5, 8], [3, 6, 7], [4, 6, 7, 8], [5, 7, 8]])
  rw [← gridGraph_unit precompute] at hlow h3
  refine ⟨?_, rfl, ?_⟩
  · unfold solveMinCenters
    apply solveMinCentersLoop_first _ 3 0 (fuel + 4) _ [0, 2, 7] _ h3 rfl (by omega)
    intro j hj
    rw [Nat.zero_add]
    exact ⟨_, _, hlow j hj, rfl⟩
  · intro D hD hcov
    by_contra hlt
    refine branchAndBound_invalid_complete _ hwf hsym 2 [] (fun c hc => by simp at hc)
      _ _ (hlow 2 (by omega)) rfl D (fun c hc => by simp at hc)
      (fun c hc => by rw [hn]; exact hD c hc)
      (by simp only [List.toFinset_nil, Finset.sdiff_empty]; omega) ?_
    intro v hv
    rw [hn] at hv
    obtain ⟨c, hc, hcv⟩ := hcov v hv
    exact ⟨c, hc, Or.inr ((mem_transformToUnitGraph_row precompute _ 1 c v (hD c hc)).2
      ⟨hv, hcv⟩)⟩


/-! ## No center is pushed twice -/

/-- On a graph with a symmetric adjacency the selected pivot and its neighbors are
not in the partial solution: a member of the partial solution that is the pivot or
lists it would dominate the pivot. -/
theorem selectPivot_fresh (graph : Graph)
    (hsym : ∀ u v, u < graph.getNbVertices → v ∈ graph.row u → u ∈ graph.row v)
    (partialSolution : List Nat) (pivot : Nat)
    (h : selectPivot graph partialSolution = .ok pivot) :
    ∀ c ∈ pivot :: graph.row pivot, c ∉ partialSolution := by
  obtain ⟨hp, hpd⟩ := selectPivot_of_ok graph partialSolution pivot h
  intro c hc hmem
  apply hpd
  rcases List.mem_cons.1 hc with rfl | hc
  · exact ⟨c, hmem, Or.inl rfl⟩
  · exact ⟨c, hmem, Or.inr (hsym pivot c hp hc)⟩

/-- On a graph with a symmetric adjacency a valid result extends a partial
solution without repetition to centers without repetition. -/
theorem branchAndBound_nodup (graph : Graph)
    (hsym : ∀ u v, u < graph.getNbVertices → v ∈ graph.row u → u ∈ graph.row v) (k : Nat) :
    ∀ (partialSolution : List Nat) (s : Solution) (stk : List Nat),
      partialSolution.Nodup →
      branchAndBound graph k partialSolution = .ok (s, stk) → s.isValid = true →
        s.centers.Nodup := by
  induction k with
  | zero =>
    intro P s stk hnd h hv
    rw [((branchAndBound_zero_of_ok graph P s stk h).2.2 hv).1]
    exact hnd
  | succ k ih =>
    intro P s stk hnd h hv
    rw [branchAndBound_succ_eq] at h
    cases hsel : selectPivot graph P with
    | error e => rw [hsel] at h; cases h
    | ok p =>
      rw [hsel] at h
      simp only at h
      have hfresh := selectPivot_fresh graph hsym P p hsel
      have hp := (selectPivot_of_ok graph P p hsel).1
      have hpush : ∀ c ∈ p :: graph.row p, (P ++ [c]).Nodup := by
        intro c hc
        rw [List.nodup_append]
        exact ⟨hnd, List.nodup_singleton c, fun x hx hx2 => by
          simp at hx2; subst hx2; exact hfresh x hc hx⟩
      have hframe : ∀ c s stk, branchAndBound graph k (P ++ [c]) = .ok (s, stk) →
          s.isValid = false → stk = P ++ [c] :=
        fun c s stk hr hv => ((branchAndBound_result_of_ok graph k (P ++ [c]) s stk hr).1 hv).1
      cases h1 : branchAndBound graph k (P ++ [p]) with
      | error e => rw [h1] at h; cases h
      | ok r =>
        obtain ⟨s1, stk1⟩ := r
        rw [h1] at h
        simp only at h
        cases hv1 : s1.isValid with
        | true =>
          simp only [hv1, if_true, Except.ok.injEq, Prod.mk.injEq] at h
          obtain ⟨rfl, rfl⟩ := h
          exact ih (P ++ [p]) s1 stk1 (hpush p (List.mem_cons_self _ _)) h1 hv
        | false =>
          have hstk := hframe p s1 stk1 h1 hv1
          subst hstk
          simp only [hv1, List.dropLast_concat, graph.getNeighbors_of_lt hp,
            Bool.false_eq_true, if_false] at h
          rcases neighborsLoop_cases _ P (graph.row p) (fun c _ => hframe c) s stk h with
            ⟨a1, _, _, _⟩ | ⟨_, c, hc, a2⟩
          · rw [a1] at hv; cases hv
          · exact ih (P ++ [c]) s stk (hpush c (List.mem_cons_of_mem _ hc)) a2 hv

/-- C21: for every graph with a symmetric distance and every radius `r ≥ 0`, the
centers sequence returned by `solveMinCenters` contains no vertex twice, so its
length is the size of the set of centers; and in every call of the search on the
coverage graph the vertices pushed, the pivot and the neighbors of the pivot, are
not already in the partial solution. -/
theorem solveMinCenters_nodup (precompute : List (List Nat) → Nat → Nat → Int)
    (graph : Graph) (radius : Int)
    (hsymm : ∀ u v, u < graph.getNbVertices → v < graph.getNbVertices →
      graph.getDistance u v = graph.getDistance v u)
    (_hr : 0 ≤ radius) :
    (∃ solution,
      (∀ fuel, graph.getNbVertices < fuel →
        solveMinCenters precompute graph radius fuel = .ok solution) ∧
      solution.isValid = true ∧ solution.centers.Nodup ∧
      solution.centers.toFinset.card = solution.centers.length) ∧
    ∀ (partialSolution : List Nat) (minDegVertex : Nat) (neighbors : List Nat),
      selectPivot (transformToUnitGraph precompute graph radius) partialSolution =
        .ok minDegVertex →
      (transformToUnitGraph precompute graph radius).getNeighbors minDegVertex =
        .ok neighbors →
      minDegVertex ∉ partialSolution ∧ ∀ neighbor ∈ neighbors, neighbor ∉ partialSolution := by
  have hn := transformToUnitGraph_getNbVertices precompute graph radius
  have hsym : ∀ u v, u < (transformToUnitGraph precompute graph radius).getNbVertices →
      v ∈ (transformToUnitGraph precompute graph radius).row u →
      u ∈ (transformToUnitGraph precompute graph radius).row v := by
    intro u v hu hv
    rw [hn] at hu
    obtain ⟨hv1, hv2⟩ := (mem_transformToUnitGraph_row precompute graph radius u v hu).1 hv
    exact (mem_transformToUnitGraph_row precompute graph radius v u hv1).2
      ⟨hu, by rw [hsymm v u hv1 hu]; exact hv2⟩
  constructor
  · obtain ⟨k, s, stk, hk, h1, h2, _, h4⟩ := solveMinCenters_first precompute graph radius
    have hnd := branchAndBound_nodup _ hsym k [] s stk List.nodup_nil h1 h2
    exact ⟨s, fun fuel hf => h4 fuel (by omega), h2, hnd, List.toFinset_card_of_nodup hnd⟩
  · intro P p ns hsel hns
    have hfresh := selectPivot_fresh _ hsym P p hsel
    rw [Graph.row_of_getNeighbors _ hns] at hfresh
    exact ⟨hfresh p (List.mem_cons_self _ _),
      fun c hc => hfresh c (List.mem_cons_of_mem _ hc)⟩

theorem solveMinCenters_nodup_witness :
    (∀ u v, u < pathGraph.getNbVertices → v < pathGraph.getNbVertices →
      pathGraph.getDistance u v = pathGraph.getDistance v u) ∧
    (0 : Int) ≤ 1 ∧
    (∃ solution,
      (∀ fuel, pathGraph.getNbVertices < fuel →
        solveMinCenters (fun _ _ _ => 0) pathGraph 1 fuel = .ok solution) ∧
      solution.isValid = true ∧ solution.centers.Nodup ∧
      solution.centers.toFinset.card = solution.centers.length) ∧
    ∀ (partialSolution : List Nat) (minDegVertex : Nat) (neighbors : List Nat),
      selectPivot (transformToUnitGraph (fun _ _ _ => 0) pathGraph 1) partialSolution =
        .ok minDegVertex →
      (transformToUnitGraph (fun _ _ _ => 0) pathGraph 1).getNeighbors minDegVertex =
        .ok neighbors →
      minDegVertex ∉ partialSolution ∧ ∀ neighbor ∈ neighbors, neighbor ∉ partialSolution :=
  ⟨fun u v _ _ => by simp [pathGraph, Graph.getDistance, abs_sub_comm], by decide,
    solveMinCenters_nodup (fun _ _ _ => 0) pathGraph 1
      (fun u v _ _ => by simp [pathGraph, Graph.getDistance, abs_sub_comm]) (by decide)⟩

end AlgorithmBranchAndBound

namespace FileIO

/-! ## Color lines of the settings file -/

/-- The checks and the stores on the four values (index, R, G, B) of the tokens of a
color line: the result is the fatal read error if and only if the index is negative
or one of R, G, B lies outside `0..255`; otherwise it is the settings with the same
scale in which the key `1000000 * R + 1000 * G + B` is mapped to the index and
every other key is mapped as before. -/
theorem readColorLine_four (settings : Settings) (index red green blue : Int) :
    (readColorLine settings [index, red, green, blue] = .error .fatal ↔
      (index < 0 ∨ red < 0 ∨ 255 < red ∨ green < 0 ∨ 255 < green ∨ blue < 0 ∨ 255 < blue)) ∧
    (¬ (index < 0 ∨ red < 0 ∨ 255 < red ∨ green < 0 ∨ 255 < green ∨ blue < 0 ∨ 255 < blue) →
      ∃ updated, readColorLine settings [index, red, green, blue] = .ok updated ∧
        updated.scale = settings.scale ∧
        ∀ key, updated.mapPixelValue key =
          if key = 1000000 * red + 1000 * green + blue then some index
          else settings.mapPixelValue key) := by
  by_cases hbad : index < 0 ∨ red < 0 ∨ 255 < red ∨ green < 0 ∨ 255 < green ∨
      blue < 0 ∨ 255 < blue
  · have heq : readColorLine settings [index, red, green, blue] = .error .fatal := by
      by_cases h0 : index < 0
      · simp [readColorLine, storeColorValues, h0]
      by_cases h1 : red < 0 ∨ red > 255
      · simp [readColorLine, storeColorValues, h0, h1]
      by_cases h2 : green < 0 ∨ green > 255
      · simp [readColorLine, storeColorValues, h0, h1, h2]
      by_cases h3 : blue < 0 ∨ blue > 255
      · simp [readColorLine, storeColorValues, h0, h1, h2, h3]
      · exfalso; omega
    exact ⟨⟨fun _ => hbad, fun _ => heq⟩, fun hn => absurd hbad hn⟩
  · have h0 : ¬ index < 0 := by omega
    have h1 : ¬ (red < 0 ∨ red > 255) := by omega
    have h2 : ¬ (green < 0 ∨ green > 255) := by omega
    have h3 : ¬ (blue < 0 ∨ blue > 255) := by omega
    have heq : readColorLine settings [index, red, green, blue] =
        .ok { scale := settings.scale,
              mapPixelValue := fun key =>
                if key = 1000000 * red + 1000 * green + blue then some index
                else settings.mapPixelValue key } := by
      simp [readColorLine, storeColorValues, h0, h1, h2, h3]
    refine ⟨⟨fun h => ?_, fun h => absurd h hbad⟩, fun _ => ⟨_, heq, rfl, fun key => rfl⟩⟩
    rw [heq] at h
    cases h

/-! ## Adjacency lines and grid images -/

/-- C13 (the code at the failing input): on the line `0: 1 2` the second component
` 1 2` starts with the delimiter, `tokenizeString` returns an empty token followed
by `1` and `2`, and `atoi` converts the empty token to `0`: the neighbor list computed is
`[0, 1, 2]`, not `[1, 2]`. Without the space after the colon, on `0:1 2`, the list
is `[1, 2]`. -/
theorem readGraphLine_space_after_colon :
    tokenizeString [' ', '1', ' ', '2'] [' '] = .ok [[], ['1'], ['2']] ∧
    readGraphLine ['0', ':', ' ', '1', ' ', '2'] = .ok (0, [0, 1, 2]) ∧
    readGraphLine ['0', ':', ' ', '1', ' ', '2'] ≠ .ok (0, [1, 2]) ∧
    readGraphLine ['0', ':', '1', ' ', '2'] = .ok (0, [1, 2]) := by
  refine ⟨rfl, rfl, ?_, rfl⟩
  rw [show readGraphLine ['0', ':', ' ', '1', ' ', '2'] = .ok (0, [0, 1, 2]) from rfl]
  simp

/-- C14 (the code at the failing input): for an image of width 2 and height 1 the
statements of `readBMP` for the four corners all run, and the adjacency list built
is `[[1, 2, 1, -2], [0, 3, -1, 0]]`: the pixel `(0, 0)` lists its neighbor `1`
twice and the indices `2` and `-2`, which are outside `[0, 2)`. For an image of
width 2 and height 2 the list is the grid adjacency. -/
theorem gridAdjacencyList_one_row :
    gridAdjacencyList 2 1 = .ok [[1, 2, 1, -2], [0, 3, -1, 0]] ∧
    gridAdjacencyList 2 1 ≠ .ok [[1], [0]] ∧
    gridAdjacencyList 2 2 = .ok [[1, 2], [0, 3], [3, 0], [1, 2]] := by
  refine ⟨rfl, ?_, rfl⟩
  rw [show gridAdjacencyList 2 1 = .ok [[1, 2, 1, -2], [0, 3, -1, 0]] from rfl]
  simp

/-! ## The key of a color -/

/-- C22: the color key `1000000 * R + 1000 * G + B` used by `readSettingFile` and
`readBMP` is injective on valid components: for components in `0..255`, equal keys
imply equal triples; every such key fits in a 32-bit signed `int` (the `int`
arithmetic does not overflow), and it is the key under which `readSettingFile`
stores the index of the color. -/
theorem colorKey_injective (red green blue red2 green2 blue2 : Int)
    (hr : 0 ≤ red ∧ red ≤ 255) (hg : 0 ≤ green ∧ green ≤ 255) (hb : 0 ≤ blue ∧ blue ≤ 255)
    (_hr2 : 0 ≤ red2 ∧ red2 ≤ 255) (hg2 : 0 ≤ green2 ∧ green2 ≤ 255)
    (hb2 : 0 ≤ blue2 ∧ blue2 ≤ 255) :
    (colorKey red green blue = colorKey red2 green2 blue2 →
      red = red2 ∧ green = green2 ∧ blue = blue2) ∧
    (-(2 ^ 31 : Int) ≤ colorKey red green blue ∧ colorKey red green blue ≤ 2 ^ 31 - 1) ∧
    (0 ≤ 1000000 * red ∧ 1000000 * red ≤ 2 ^ 31 - 1 ∧
      0 ≤ 1000 * green ∧ 1000 * green ≤ 2 ^ 31 - 1 ∧
      0 ≤ 1000000 * red + 1000 * green ∧ 1000000 * red + 1000 * green ≤ 2 ^ 31 - 1) ∧
    ∀ (settings : Settings) (index : Int), 0 ≤ index →
      ∃ updated, readColorLine settings [index, red, green, blue] = .ok updated ∧
        updated.mapPixelValue (colorKey red green blue) = some index := by
  unfold colorKey
  refine ⟨fun h => by omega, by omega, by omega, fun settings index hindex => ?_⟩
  have h1 : ¬ (red < 0 ∨ red > 255) := by omega
  have h2 : ¬ (green < 0 ∨ green > 255) := by omega
  have h3 : ¬ (blue < 0 ∨ blue > 255) := by omega
  have h0 : ¬ index < 0 := by omega
  refine ⟨_, by simp [readColorLine, storeColorValues, h0, h1, h2, h3]; rfl, by simp⟩

theorem colorKey_injective_witness :
    ((0 : Int) ≤ 255 ∧ (255 : Int) ≤ 255) ∧ ((0 : Int) ≤ 0 ∧ (0 : Int) ≤ 255) ∧
    ((0 : Int) ≤ 17 ∧ (17 : Int) ≤ 255) ∧ ((0 : Int) ≤ 254 ∧ (254 : Int) ≤ 255) ∧
    ((0 : Int) ≤ 255 ∧ (255 : Int) ≤ 255) ∧ ((0 : Int) ≤ 255 ∧ (255 : Int) ≤ 255) ∧
    (colorKey 255 0 17 = colorKey 254 255 255 →
      (255 : Int) = 254 ∧ (0 : Int) = 255 ∧ (17 : Int) = 255) ∧
    (-(2 ^ 31 : Int) ≤ colorKey 255 0 17 ∧ colorKey 255 0 17 ≤ 2 ^ 31 - 1) ∧
    ((0 : Int) ≤ 1000000 * 255 ∧ (1000000 * 255 : Int) ≤ 2 ^ 31 - 1 ∧
      (0 : Int) ≤ 1000 * 0 ∧ (1000 * 0 : Int) ≤ 2 ^ 31 - 1 ∧
      (0 : Int) ≤ 1000000 * 255 + 1000 * 0 ∧ (1000000 * 255 + 1000 * 0 : Int) ≤ 2 ^ 31 - 1) ∧
    ∀ (settings : Settings) (index : Int), 0 ≤ index →
      ∃ updated, readColorLine settings [index, 255, 0, 17] = .ok updated ∧
        updated.mapPixelValue (colorKey 255 0 17) = some index :=
  ⟨by decide, by decide, by decide, by decide, by decide, by decide,
    colorKey_injective 255 0 17 254 255 255 (by decide) (by decide) (by decide) (by decide)
      (by decide) (by decide)⟩

/-! ## The tokenizer -/

theorem find_step (str token : List Char) (pos : Nat) (hpos : pos ≤ str.length) :
    find str token pos =
      if token.isPrefixOf (str.drop pos) then pos else find str token (pos + 1) := by
  unfold find
  rw [show str.length + 1 - pos = (str.length - pos) + 1 by omega,
    show str.length + 1 - (pos + 1) = str.length - pos by omega,
    List.range_succ_eq_map, List.find?_cons]
  by_cases h : token.isPrefixOf (str.drop pos) = true
  · simp [h]
  · have hfun : ((fun i => token.isPrefixOf (List.drop (pos + i) str)) ∘ Nat.succ) =
        (fun i => token.isPrefixOf (List.drop (pos + 1 + i) str)) := by
      funext i
      simp only [Function.comp, Nat.succ_eq_add_one]
      rw [show pos + (i + 1) = pos + 1 + i by omega]
    simp only [Nat.add_zero, h, List.find?_map, hfun]
    cases List.find? (fun i => token.isPrefixOf (List.drop (pos + 1 + i) str))
        (List.range (str.length - pos)) with
    | none => simp
    | some i => simp; omega

theorem find_past (str token : List Char) (pos : Nat) (hpos : str.length < pos) :
    find str token pos = npos := by
  unfold find
  rw [show str.length + 1 - pos = 0 by omega]
  rfl

/-- The first occurrence of the delimiter at or after `pos`. -/
theorem find_of_drop (str : List Char) (d : Char) (post : List Char) (pre : List Char) :
    ∀ pos, str.drop pos = pre ++ d :: post → d ∉ pre →
      find str [d] pos = pos + pre.length := by
  induction pre with
  | nil =>
    intro pos hdrop _
    have hpos : pos ≤ str.length := by
      by_contra hlt
      rw [List.drop_of_length_le (by omega)] at hdrop
      cases hdrop
    rw [find_step str [d] pos hpos, hdrop]
    simp [List.isPrefixOf]
  | cons c pre ih =>
    intro pos hdrop hd
    have hpos : pos ≤ str.length := by
      by_contra hlt
      rw [List.drop_of_length_le (by omega)] at hdrop
      cases hdrop
    have hcd : ¬ d = c := fun h => hd (by rw [h]; exact List.mem_cons_self _ _)
    have hnext : str.drop (pos + 1) = pre ++ d :: post := by
      rw [← List.drop_drop, hdrop]
      rfl
    rw [find_step str [d] pos hpos, hdrop]
    simp only [List.cons_append, List.isPrefixOf, beq_iff_eq, hcd, Bool.and_true,
      decide_False, Bool.false_eq_true, if_false]
    rw [ih (pos + 1) hnext (fun h => hd (List.mem_cons_of_mem _ h)), List.length_cons]
    omega

/-- No occurrence of the delimiter at or after `pos`. -/
theorem find_none (str : List Char) (d : Char) (rest : List Char) :
    ∀ pos, str.drop pos = rest → d ∉ rest → find str [d] pos = npos := by
  induction rest with
  | nil =>
    intro pos hdrop _
    by_cases hpos : pos ≤ str.length
    · rw [find_step str [d] pos hpos, hdrop]
      simp only [List.isPrefixOf, Bool.false_eq_true, if_false]
      have : str.length ≤ pos := by
        have := congrArg List.length hdrop
        rw [List.length_drop, List.length_nil] at this
        omega
      exact find_past str [d] (pos + 1) (by omega)
    · exact find_past str [d] pos (by omega)
  | cons c rest ih =>
    intro pos hdrop hd
    have hpos : pos ≤ str.length := by
      by_contra hlt
      rw [List.drop_of_length_le (by omega)] at hdrop
      cases hdrop
    have hcd : ¬ d = c := fun h => hd (by rw [h]; exact List.mem_cons_self _ _)
    have hnext : str.drop (pos + 1) = rest := by
      rw [← List.drop_drop, hdrop]
      rfl
    rw [find_step str [d] pos hpos, hdrop]
    simp only [List.isPrefixOf, beq_iff_eq, hcd, Bool.and_true,
      decide_False, Bool.false_eq_true, if_false]
    exact ih (pos + 1) hnext (fun h => hd (List.mem_cons_of_mem _ h))

theorem exists_first_occurrence (d : Char) (l : List Char) (h : d ∈ l) :
    ∃ pre post, l = pre ++ d :: post ∧ d ∉ pre := by
  induction l with
  | nil => simp at h
  | cons c rest ih =>
    by_cases hcd : d = c
    · exact ⟨[], rest, by rw [hcd]; rfl, by simp⟩
    · rcases List.mem_cons.1 h with h | h
      · exact absurd h hcd
      · obtain ⟨pre, post, h1, h2⟩ := ih h
        refine ⟨c :: pre, post, by rw [h1]; rfl, ?_⟩
        intro hmem
        rcases List.mem_cons.1 hmem with h3 | h3
        · exact hcd h3
        · exact h2 h3

theorem intercalate_cons_of_ne_nil (d : Char) (x : List Char) (rest : List (List Char))
    (h : rest ≠ []) :
    List.intercalate [d] (x :: rest) = x ++ d :: List.intercalate [d] rest := by
  cases rest with
  | nil => exact absurd rfl h
  | cons y ys => simp [List.intercalate, List.intersperse]

/-- The loop of `tokenizeString` from a state whose `position` is not the end:
with enough iterations left it returns, appending to `tokens` a non-empty list of
tokens without the delimiter whose concatenation, the delimiter between
consecutive tokens, is the part of the string from `begin` on. -/
theorem tokenizeLoop_spec (str : List Char) (d : Char) (hlen : str.length < npos)
    (fuel : Nat) :
    ∀ (begin position : Nat) (tokens : List (List Char)),
      position ≠ str.length → begin ≤ str.length → str.length - begin < fuel →
      ∃ pieces, tokenizeLoop str [d] fuel begin position tokens = .ok (tokens ++ pieces) ∧
        pieces ≠ [] ∧ (∀ t ∈ pieces, d ∉ t) ∧
        List.intercalate [d] pieces = str.drop begin := by
  have hnpos : npos = 2 ^ 64 - 1 := rfl
  induction fuel with
  | zero => intro _ _ _ _ _ h; omega
  | succ fuel ih =>
    intro begin position tokens hposition hbegin hfuel
    rw [tokenizeLoop, if_neg hposition]
    by_cases hd : d ∈ str.drop begin
    · obtain ⟨pre, post, hdrop, hpre⟩ := exists_first_occurrence d _ hd
      have hlen2 : str.length - begin = pre.length + (post.length + 1) := by
        have := congrArg List.length hdrop
        rw [List.length_drop, List.length_append, List.length_cons] at this
        exact this
      have hfound : find str [d] begin = begin + pre.length :=
        find_of_drop str d post pre begin hdrop hpre
      have hdrop2 : str.drop (begin + pre.length) = d :: post := by
        rw [← List.drop_drop, hdrop, List.drop_left]
      have hfound2 : find str [d] (begin + pre.length) = begin + pre.length := by
        have := find_of_drop str d post [] (begin + pre.length) hdrop2 (by simp)
        simpa using this
      have hdrop3 : str.drop (begin + pre.length + 1) = post := by
        rw [← List.drop_drop, hdrop2]
        rfl
      have hne : begin + pre.length ≠ npos := by omega
      have hcount : (begin + pre.length + 2 ^ 64 - begin) % 2 ^ 64 = pre.length := by omega
      have hnext : (begin + pre.length + 1) % 2 ^ 64 = begin + pre.length + 1 := by omega
      have hpiece : substr str begin pre.length = .ok pre := by
        rw [substr, if_pos hbegin, hdrop, List.take_left]
      simp only [hfound, if_neg hne, hcount, hpiece, hfound2, hnext]
      obtain ⟨pieces, h1, h2, h3, h4⟩ := ih (begin + pre.length + 1) (begin + pre.length)
        (tokens ++ [pre]) (by omega) (by omega) (by omega)
      refine ⟨pre :: pieces, ?_, by simp, ?_, ?_⟩
      · rw [h1, List.append_assoc]; rfl
      · intro t ht
        rcases List.mem_cons.1 ht with rfl | ht
        · exact hpre
        · exact h3 t ht
      · rw [intercalate_cons_of_ne_nil d pre pieces h2, h4, hdrop3, hdrop]
    · have hfound : find str [d] begin = npos := find_none str d _ begin rfl hd
      have hcount : (str.length + 2 ^ 64 - begin) % 2 ^ 64 = str.length - begin := by omega
      have hpiece : substr str begin (str.length - begin) = .ok (str.drop begin) := by
        rw [substr, if_pos hbegin, List.take_of_length_le (by rw [List.length_drop])]
      simp only [hfound, if_true, hcount, hpiece]
      refine ⟨[str.drop begin], ?_, by simp, ?_, by simp [List.intercalate, List.intersperse]⟩
      · cases fuel with
        | zero => rw [tokenizeLoop, if_pos rfl]
        | succ fuel => rw [tokenizeLoop, if_pos rfl]
      · intro t ht
        rw [List.mem_singleton] at ht
        rw [ht]
        exact hd

/-- C23: for every string `str` (of a length below `npos`, as every `std::string`)
and every single-character delimiter `d`, `tokenizeString(str, d)` terminates (its
loop returns within one iteration per character and one more) and returns tokens
none of which contains `d` and whose concatenation with `d` inserted between
consecutive tokens is `str`; the empty string yields no tokens, and only the empty
string does. -/
theorem tokenizeString_spec (str : List Char) (d : Char) (hlen : str.length < npos) :
    ∃ tokens, tokenizeString str [d] = .ok tokens ∧
      (∀ t ∈ tokens, d ∉ t) ∧
      List.intercalate [d] tokens = str ∧
      (tokens = [] ↔ str = []) := by
  unfold tokenizeString
  by_cases hstr : str = []
  · subst hstr
    exact ⟨[], rfl, by simp, rfl, by simp⟩
  · have hpos : 0 ≠ str.length := fun h => hstr (List.length_eq_zero.1 h.symm)
    obtain ⟨pieces, h1, h2, h3, h4⟩ := tokenizeLoop_spec str d hlen (str.length + 1) 0 0 []
      hpos (Nat.zero_le _) (by omega)
    refine ⟨pieces, by simpa using h1, h3, by simpa using h4, ?_⟩
    exact ⟨fun h => absurd h h2, fun h => absurd h hstr⟩

theorem tokenizeString_spec_witness :
    ['a', ':', 'b', 'c', ':'].length < npos ∧
    ∃ tokens, tokenizeString ['a', ':', 'b', 'c', ':'] [':'] = .ok tokens ∧
      (∀ t ∈ tokens, ':' ∉ t) ∧
      List.intercalate [':'] tokens = ['a', ':', 'b', 'c', ':'] ∧
      (tokens = [] ↔ ['a', ':', 'b', 'c', ':'] = []) :=
  ⟨by decide, tokenizeString_spec ['a', ':', 'b', 'c', ':'] ':' (by decide)⟩

/-! ## The tokens of a color line -/

theorem firstIndex_of_head (p : Char → Bool) (c : Char) (rest : List Char)
    (h : p c = true) : firstIndex p (c :: rest) = some 0 := by
  simp [firstIndex, h]

theorem firstIndex_append (p : Char → Bool) (c : Char) (rest : List Char)
    (h : p c = true) (pre : List Char) :
    (∀ x ∈ pre, p x = false) → firstIndex p (pre ++ c :: rest) = some pre.length := by
  induction pre with
  | nil => intro _; simp [firstIndex, h]
  | cons x pre ih =>
    intro hpre
    have hx : p x = false := hpre x (List.mem_cons_self _ _)
    simp [firstIndex, hx, ih (fun y hy => hpre y (List.mem_cons_of_mem _ hy))]

theorem firstIndex_none (p : Char → Bool) (l : List Char) :
    (∀ x ∈ l, p x = false) → firstIndex p l = none := by
  induction l with
  | nil => intro _; rfl
  | cons x l ih =>
    intro hl
    have hx : p x = false := hl x (List.mem_cons_self _ _)
    simp [firstIndex, hx, ih (fun y hy => hl y (List.mem_cons_of_mem _ hy))]

theorem intToSize_castToInt (n : Nat) (h : n < 2 ^ 31) : intToSize (castToInt n) = n := by
  unfold intToSize castToInt
  omega

theorem stoi_ne_nil (token : List Char) (value : Int) (h : stoi token = .ok value) :
    token ≠ [] := by
  intro hnil
  rw [hnil] at h
  cases h

theorem stoi_head_ne_hash (token : List Char) (value : Int) (h : stoi token = .ok value) :
    token.head? ≠ some '#' := by
  intro hhead
  cases token with
  | nil => cases hhead
  | cons c rest =>
    simp only [List.head?_cons, Option.some.injEq] at hhead
    subst hhead
    have : stoi ('#' :: rest) = .error .invalidArgument := by
      have h1 : isSpace '#' = false := by decide
      have h2 : ¬ (('#' : Char) = '-' ∨ ('#' : Char) = '+') := by decide
      have h3 : ¬ (48 ≤ ('#' : Char).toNat ∧ ('#' : Char).toNat ≤ 57) := by decide
      simp only [stoi, List.dropWhile_cons, h1, h2, h3, if_false, Bool.false_eq_true]
    rw [this] at h
    cases h

theorem findFirstNotOf_token (line : List Char) (pos : Nat) (token rest : List Char)
    (hdrop : line.drop pos = token ++ rest) (hne : token ≠ []) (hsp : ' ' ∉ token) :
    findFirstNotOf line ' ' pos = pos := by
  cases token with
  | nil => exact absurd rfl hne
  | cons c token =>
    have hc : c ≠ ' ' := fun h => hsp (by rw [h]; exact List.mem_cons_self _ _)
    unfold findFirstNotOf
    rw [hdrop, List.cons_append, firstIndex_of_head _ _ _ (by simpa using hc)]
    rfl

theorem findFirstOf_token (line : List Char) (pos : Nat) (token rest : List Char)
    (hdrop : line.drop pos = token ++ ' ' :: rest) (hsp : ' ' ∉ token) :
    findFirstOf line ' ' pos = pos + token.length := by
  unfold findFirstOf
  have hall : ∀ x ∈ token, (fun x : Char => decide (x = ' ')) x = false := by
    intro x hx
    have hxs : x ≠ ' ' := fun h => hsp (h ▸ hx)
    simpa using hxs
  rw [hdrop, firstIndex_append _ ' ' rest (by simp) token hall]

theorem findFirstOf_last (line : List Char) (pos : Nat) (token : List Char)
    (hdrop : line.drop pos = token) (hsp : ' ' ∉ token) :
    findFirstOf line ' ' pos = npos := by
  unfold findFirstOf
  have hall : ∀ x ∈ token, (fun x : Char => decide (x = ' ')) x = false := by
    intro x hx
    have hxs : x ≠ ' ' := fun h => hsp (h ▸ hx)
    simpa using hxs
  rw [hdrop, firstIndex_none _ token hall]

/-- One iteration of the loop over the tokens on a token followed by a single
space: the value of the token is checked and stored, and the iterator moves to the
character after the space. -/
theorem readColorTokens_step (line : List Char) (hlen : line.length < 2 ^ 31)
    (fuel pos i : Nat) (colorValues : List (Option Int)) (token rest : List Char)
    (value : Int) (hdrop : line.drop pos = token ++ ' ' :: rest) (hsp : ' ' ∉ token)
    (hstoi : stoi token = .ok value) :
    readColorTokens line (castToInt line.length) (fuel + 1) pos i colorValues =
      if i = 0 ∧ value < 0 then .error .fatal
      else if i ≠ 0 ∧ (value < 0 ∨ value > 255) then .error .fatal
      else if i < colorValues.length then
        readColorTokens line (castToInt line.length) fuel (pos + token.length + 1) (i + 1)
          (colorValues.set i (some value))
      else .error .outOfBounds := by
  have hne := stoi_ne_nil token value hstoi
  have hnpos : npos = 2 ^ 64 - 1 := rfl
  have hlen2 : line.length - pos = token.length + (rest.length + 1) := by
    have := congrArg List.length hdrop
    rw [List.length_drop, List.length_append, List.length_cons] at this
    exact this
  have hpos : pos ≠ line.length := by omega
  have hbegin : findFirstNotOf line ' ' pos = pos :=
    findFirstNotOf_token line pos token (' ' :: rest) hdrop hne hsp
  have hend : findFirstOf line ' ' pos = pos + token.length :=
    findFirstOf_token line pos token rest hdrop hsp
  have hne2 : pos + token.length ≠ npos := by omega
  have hcount : (pos + token.length + 2 ^ 64 - pos) % 2 ^ 64 = token.length := by omega
  have hsub : substr line pos token.length = .ok token := by
    rw [substr, if_pos (by omega), hdrop, List.take_left]
  have hsize := intToSize_castToInt line.length hlen
  have hne3 : pos + token.length ≠ line.length := by omega
  have hstep : (pos + token.length + 2 ^ 64 - pos + 1) % 2 ^ 64 = token.length + 1 := by omega
  have hlt : token.length + 1 < 2 ^ 63 := by omega
  rw [readColorTokens, if_neg hpos]
  simp only [hbegin, hend, if_neg hne2, hcount, hsub, hstoi, hsize, if_neg hne3, hstep,
    if_pos hlt]
  have hmoved : 0 ≤ (pos : Int) + ((token.length + 1 : Nat) : Int) ∧
      (pos : Int) + ((token.length + 1 : Nat) : Int) ≤ (line.length : Int) := by omega
  have htoNat : ((pos : Int) + ((token.length + 1 : Nat) : Int)).toNat =
      pos + token.length + 1 := by omega
  rw [if_pos hmoved, htoNat]

/-- The iteration of the loop over the tokens on the last token of the line: the
value is checked and stored, and the loop ends. -/
theorem readColorTokens_last (line : List Char) (hlen : line.length < 2 ^ 31)
    (fuel pos i : Nat) (colorValues : List (Option Int)) (token : List Char)
    (value : Int) (hdrop : line.drop pos = token) (hsp : ' ' ∉ token)
    (hstoi : stoi token = .ok value) :
    readColorTokens line (castToInt line.length) (fuel + 1) pos i colorValues =
      if i = 0 ∧ value < 0 then .error .fatal
      else if i ≠ 0 ∧ (value < 0 ∨ value > 255) then .error .fatal
      else if i < colorValues.length then .ok (colorValues.set i (some value))
      else .error .outOfBounds := by
  have hne := stoi_ne_nil token value hstoi
  have hnpos : npos = 2 ^ 64 - 1 := rfl
  have hlen2 : line.length - pos = token.length := by
    have := congrArg List.length hdrop
    rw [List.length_drop] at this
    exact this
  have hlen3 : 0 < token.length := List.length_pos.2 hne
  have hpos : pos ≠ line.length := by omega
  have hbegin : findFirstNotOf line ' ' pos = pos :=
    findFirstNotOf_token line pos token [] (by rw [hdrop, List.append_nil]) hne hsp
  have hend : findFirstOf line ' ' pos = npos := findFirstOf_last line pos token hdrop hsp
  have hsize := intToSize_castToInt line.length hlen
  have hcount : (line.length + 2 ^ 64 - pos) % 2 ^ 64 = token.length := by omega
  have hsub : substr line pos token.length = .ok token := by
    rw [substr, if_pos (by omega), hdrop, List.take_of_length_le (le_refl _)]
  rw [readColorTokens, if_neg hpos]
  simp only [hbegin, hend, if_true, hsize, hcount, hsub, hstoi]
  have hdone : ∀ cv : List (Option Int),
      readColorTokens line (castToInt line.length) fuel line.length (i + 1) cv = .ok cv := by
    intro cv
    cases fuel with
    | zero => rw [readColorTokens, if_pos rfl]
    | succ fuel => rw [readColorTokens, if_pos rfl]
  rw [hdone]

/-- On a line of tokens separated by single spaces, each without a space and
converted by `std::stoi`, the loop over the characters of the line is the loop
`storeColorValues` over the values of the tokens. -/
theorem readColorTokens_eq_store (line : List Char) (hlen : line.length < 2 ^ 31)
    (tokens : List (List Char × Int)) :
    ∀ (fuel pos i : Nat) (colorValues : List (Option Int)),
      tokens ≠ [] → (∀ tv ∈ tokens, stoi tv.1 = .ok tv.2 ∧ ' ' ∉ tv.1) →
      line.drop pos = List.intercalate [' '] (tokens.map Prod.fst) →
      tokens.length < fuel →
      readColorTokens line (castToInt line.length) fuel pos i colorValues =
        storeColorValues (tokens.map Prod.snd) i colorValues := by
  induction tokens with
  | nil => intro _ _ _ _ h; exact absurd rfl h
  | cons tv rest ih =>
    intro fuel pos i cv _ hall hdrop hfuel
    obtain ⟨fuel, rfl⟩ : ∃ f, fuel = f + 1 := ⟨fuel - 1, by
      rw [List.length_cons] at hfuel; omega⟩
    obtain ⟨hstoi, hsp⟩ := hall tv (List.mem_cons_self _ _)
    cases rest with
    | nil =>
      have hdrop2 : line.drop pos = tv.1 := by
        rw [hdrop]; simp [List.intercalate, List.intersperse]
      rw [readColorTokens_last line hlen fuel pos i cv tv.1 tv.2 hdrop2 hsp hstoi]
      simp only [List.map_cons, List.map_nil, storeColorValues]
    | cons tv2 rest =>
      have hdrop2 : line.drop pos =
          tv.1 ++ ' ' :: List.intercalate [' '] ((tv2 :: rest).map Prod.fst) := by
        rw [hdrop, List.map_cons, intercalate_cons_of_ne_nil ' ' tv.1 _ (by simp)]
      have hdrop3 : line.drop (pos + tv.1.length + 1) =
          List.intercalate [' '] ((tv2 :: rest).map Prod.fst) := by
        rw [Nat.add_assoc, ← List.drop_drop, hdrop2,
          show tv.1 ++ ' ' :: List.intercalate [' '] ((tv2 :: rest).map Prod.fst) =
            (tv.1 ++ [' ']) ++ List.intercalate [' '] ((tv2 :: rest).map Prod.fst) by simp,
          show tv.1.length + 1 = (tv.1 ++ [' ']).length by simp, List.drop_left]
      rw [readColorTokens_step line hlen fuel pos i cv tv.1 _ tv.2 hdrop2 hsp hstoi]
      have hih := fun cv2 => ih fuel (pos + tv.1.length + 1) (i + 1) cv2 (by simp)
        (fun x hx => hall x (List.mem_cons_of_mem _ hx)) hdrop3
        (by rw [List.length_cons] at hfuel; omega)
      simp only [hih, List.map_cons, storeColorValues]

/-- On a line of four tokens separated by single spaces, `readSettingLine` is
`readColorLine` on the values of the tokens. -/
theorem readSettingLine_eq_readColorLine (settings : Settings)
    (indexToken redToken greenToken blueToken : List Char) (index red green blue : Int)
    (hindex : stoi indexToken = .ok index ∧ ' ' ∉ indexToken)
    (hred : stoi redToken = .ok red ∧ ' ' ∉ redToken)
    (hgreen : stoi greenToken = .ok green ∧ ' ' ∉ greenToken)
    (hblue : stoi blueToken = .ok blue ∧ ' ' ∉ blueToken)
    (hlen : (indexToken ++ ' ' :: (redToken ++ ' ' :: (greenToken ++ ' ' :: blueToken))).length
      < 2 ^ 31) :
    readSettingLine settings
        (indexToken ++ ' ' :: (redToken ++ ' ' :: (greenToken ++ ' ' :: blueToken))) =
      readColorLine settings [index, red, green, blue] := by
  have hne := stoi_ne_nil indexToken index hindex.1
  have hhash := stoi_head_ne_hash indexToken index hindex.1
  have hloop := readColorTokens_eq_store _ hlen
    [(indexToken, index), (redToken, red), (greenToken, green), (blueToken, blue)]
    5 0 0 [none, none, none, none] (by simp)
    (by
      intro tv htv
      simp only [List.mem_cons, List.mem_singleton, List.not_mem_nil, or_false] at htv
      rcases htv with rfl | rfl | rfl | rfl
      · exact hindex
      · exact hred
      · exact hgreen
      · exact hblue)
    (by simp [List.intercalate, List.intersperse]) (by simp)
  have hcast : castToInt
      (indexToken ++ ' ' :: (redToken ++ ' ' :: (greenToken ++ ' ' :: blueToken))).length ≠ 0 := by
    have h1 : 0 < (indexToken ++ ' ' :: (redToken ++ ' ' ::
        (greenToken ++ ' ' :: blueToken))).length := by
      rw [List.length_append, List.length_cons]; omega
    unfold castToInt
    omega
  have hhead : (indexToken ++ ' ' :: (redToken ++ ' ' :: (greenToken ++ ' ' :: blueToken))).head?
      ≠ some '#' := by
    cases indexToken with
    | nil => exact absurd rfl hne
    | cons c rest => simpa using hhash
  rw [readSettingLine, if_neg hcast, if_neg hhead, hloop]
  rfl

/-- C15 (as stated, refuted): two color lines of four integers whose index is not
negative and whose components are in `0..255`, on which `readSettingFile` neither
exits with a read error nor stores the index. On `2147483648 0 0 0` the index is
not an `int` and `std::stoi` throws `std::out_of_range`, which nothing catches. On
`3  255 0 17`, with two spaces after the index, the iterator stops advancing, the
token `255` is read again and again, and the fifth store is `colorValues[4]`,
outside the array. -/
theorem readSettingLine_not_stored :
    (∀ settings : Settings,
      readSettingLine settings
        ['2', '1', '4', '7', '4', '8', '3', '6', '4', '8', ' ', '0', ' ', '0', ' ', '0'] =
          .error .outOfRange) ∧
    (∀ settings : Settings,
      readSettingLine settings ['3', ' ', ' ', '2', '5', '5', ' ', '0', ' ', '1', '7'] =
        .error .outOfBounds) ∧
    ¬ ((2147483648 : Int) < 0 ∨ (0 : Int) < 0 ∨ (255 : Int) < 0 ∨ (0 : Int) < 0 ∨
      (255 : Int) < 0 ∨ (0 : Int) < 0 ∨ (255 : Int) < 0) ∧
    ¬ ((3 : Int) < 0 ∨ (255 : Int) < 0 ∨ (255 : Int) < 255 ∨ (0 : Int) < 0 ∨
      (255 : Int) < 0 ∨ (17 : Int) < 0 ∨ (255 : Int) < 17) :=
  ⟨fun _ => rfl, fun _ => rfl, by decide, by decide⟩

/-- C15 (amended): when `readSettingFile` treats a color line of fewer than `2 ^ 31`
characters made of four tokens separated by single spaces, with no space before the
first, which `std::stoi` converts to the integers (index, R, G, B) (each is then an
`int`), it terminates fatally with a read error if and only if the index is
negative or one of R, G, B lies outside `0..255`; otherwise it returns settings
with the same scale in which the key `1000000 * R + 1000 * G + B` is mapped to the
index and every other key is mapped as before. -/
theorem readSettingLine_four (settings : Settings)
    (indexToken redToken greenToken blueToken : List Char) (index red green blue : Int)
    (hindex : stoi indexToken = .ok index ∧ ' ' ∉ indexToken)
    (hred : stoi redToken = .ok red ∧ ' ' ∉ redToken)
    (hgreen : stoi greenToken = .ok green ∧ ' ' ∉ greenToken)
    (hblue : stoi blueToken = .ok blue ∧ ' ' ∉ blueToken)
    (hlen : (indexToken ++ ' ' :: (redToken ++ ' ' :: (greenToken ++ ' ' :: blueToken))).length
      < 2 ^ 31) :
    (readSettingLine settings
        (indexToken ++ ' ' :: (redToken ++ ' ' :: (greenToken ++ ' ' :: blueToken))) =
        .error .fatal ↔
      (index < 0 ∨ red < 0 ∨ 255 < red ∨ green < 0 ∨ 255 < green ∨ blue < 0 ∨ 255 < blue)) ∧
    (¬ (index < 0 ∨ red < 0 ∨ 255 < red ∨ green < 0 ∨ 255 < green ∨ blue < 0 ∨ 255 < blue) →
      ∃ updated,
        readSettingLine settings
          (indexToken ++ ' ' :: (redToken ++ ' ' :: (greenToken ++ ' ' :: blueToken))) =
          .ok updated ∧
        updated.scale = settings.scale ∧
        ∀ key, updated.mapPixelValue key =
          if key = 1000000 * red + 1000 * green + blue then some index
          else settings.mapPixelValue key) := by
  rw [readSettingLine_eq_readColorLine settings indexToken redToken greenToken blueToken
    index red green blue hindex hred hgreen hblue hlen]
  exact readColorLine_four settings index red green blue

theorem readSettingLine_four_witness :
    (stoi ['3'] = .ok 3 ∧ ' ' ∉ ['3']) ∧
    (stoi ['2', '5', '5'] = .ok 255 ∧ ' ' ∉ ['2', '5', '5']) ∧
    (stoi ['0'] = .ok 0 ∧ ' ' ∉ ['0']) ∧
    (stoi ['1', '7'] = .ok 17 ∧ ' ' ∉ ['1', '7']) ∧
    (['3'] ++ ' ' :: (['2', '5', '5'] ++ ' ' :: (['0'] ++ ' ' :: ['1', '7']))).length
      < 2 ^ 31 ∧
    (readSettingLine { scale := 1, mapPixelValue := fun _ => none }
        (['3'] ++ ' ' :: (['2', '5', '5'] ++ ' ' :: (['0'] ++ ' ' :: ['1', '7']))) =
        .error .fatal ↔
      ((3 : Int) < 0 ∨ (255 : Int) < 0 ∨ (255 : Int) < 255 ∨ (0 : Int) < 0 ∨
        (255 : Int) < 0 ∨ (17 : Int) < 0 ∨ (255 : Int) < 17)) ∧
    (¬ ((3 : Int) < 0 ∨ (255 : Int) < 0 ∨ (255 : Int) < 255 ∨ (0 : Int) < 0 ∨
        (255 : Int) < 0 ∨ (17 : Int) < 0 ∨ (255 : Int) < 17) →
      ∃ updated,
        readSettingLine { scale := 1, mapPixelValue := fun _ => none }
          (['3'] ++ ' ' :: (['2', '5', '5'] ++ ' ' :: (['0'] ++ ' ' :: ['1', '7']))) =
          .ok updated ∧
        updated.scale = ({ scale := 1, mapPixelValue := fun _ => none } : Settings).scale ∧
        ∀ key, updated.mapPixelValue key =
          if key = 1000000 * 255 + 1000 * 0 + 17 then some 3
          else ({ scale := 1, mapPixelValue := fun _ => none } : Settings).mapPixelValue key) :=
  ⟨⟨rfl, by decide⟩, ⟨rfl, by decide⟩, ⟨rfl, by decide⟩, ⟨rfl, by decide⟩, by decide,
    readSettingLine_four { scale := 1, mapPixelValue := fun _ => none }
      ['3'] ['2', '5', '5'] ['0'] ['1', '7'] 3 255 0 17
      ⟨rfl, by decide⟩ ⟨rfl, by decide⟩ ⟨rfl, by decide⟩ ⟨rfl, by decide⟩ (by decide)⟩

end FileIO

namespace AlgorithmMIP

open AlgorithmBranchAndBound (Graph pathGraph)

/-! ## The constraints of the integer program -/

theorem covers_of_constraints (graph : Graph) (radius : Int) (x : Nat → Int)
    (c : Nat → Nat → Int) (h : SatisfiesConstraints graph radius x c) :
    CoversWithin graph radius x := by
  obtain ⟨hx, hc, hdist, hle, hsum⟩ := h
  intro vertex hv
  have hex : ∃ center, center < graph.getNbVertices ∧ c center vertex = 1 := by
    by_contra hnone
    have hzero : ∑ center in Finset.range graph.getNbVertices, c center vertex = 0 := by
      apply Finset.sum_eq_zero
      intro center hcenter
      have hlt := Finset.mem_range.1 hcenter
      rcases hc center hlt vertex hv with h0 | h1
      · exact h0
      · exact absurd ⟨center, hlt, h1⟩ hnone
    rw [hsum vertex hv] at hzero
    exact absurd hzero (by decide)
  obtain ⟨center, hlt, hone⟩ := hex
  refine ⟨center, hlt, ?_, ?_⟩
  · have h1 := hle center hlt vertex hv
    rw [hone] at h1
    rcases hx center hlt with h0 | h0
    · rw [h0] at h1; exact absurd h1 (by decide)
    · exact h0
  · have h1 := hdist center hlt vertex hv
    rwa [hone, mul_one] at h1

theorem constraints_of_covers (graph : Graph) (radius : Int) (hr : 0 ≤ radius)
    (x : Nat → Int) (hx : ∀ vertex, vertex < graph.getNbVertices → IsBinary (x vertex))
    (h : CoversWithin graph radius x) :
    ∃ c, SatisfiesConstraints graph radius x c := by
  choose f hf using h
  refine ⟨fun vertex1 vertex2 =>
    if hv : vertex2 < graph.getNbVertices then (if vertex1 = f vertex2 hv then 1 else 0) else 0,
    hx, ?_, ?_, ?_, ?_⟩
  · intro v1 _ v2 hv2
    simp only [hv2, dif_pos]
    by_cases h : v1 = f v2 hv2
    · simp [h, IsBinary]
    · simp [h, IsBinary]
  · intro v1 _ v2 hv2
    simp only [hv2, dif_pos]
    by_cases h : v1 = f v2 hv2
    · rw [if_pos h, mul_one, h]; exact (hf v2 hv2).2.2
    · rw [if_neg h, mul_zero]; exact hr
  · intro v1 hv1 v2 hv2
    simp only [hv2, dif_pos]
    by_cases h : v1 = f v2 hv2
    · rw [if_pos h, h, (hf v2 hv2).2.1]
    · rw [if_neg h]
      rcases hx v1 hv1 with h0 | h0 <;> omega
  · intro v hv
    simp only [hv, dif_pos]
    rw [Finset.sum_ite_eq']
    simp [(hf v hv).1]

theorem objective_eq_card (graph : Graph) (x : Nat → Int)
    (hx : ∀ vertex, vertex < graph.getNbVertices → IsBinary (x vertex)) :
    objective graph x =
      (((Finset.range graph.getNbVertices).filter (fun v => x v = 1)).card : Int) := by
  unfold objective
  rw [← Finset.sum_boole]
  apply Finset.sum_congr rfl
  intro v hv
  rcases hx v (Finset.mem_range.1 hv) with h0 | h0 <;> simp [h0]

/-- C16: the integer program built by `AlgorithmMIP::solveMinCenters` has the
contract of the exact solver. For every graph and radius `r ≥ 0`, a 0/1 vector `x`
can be completed by a 0/1 matrix `c` satisfying all the constraints if and only if
every vertex is within distance `r` of a vertex with `x = 1`; so the values of the
objective `sum x` over the feasible assignments are exactly the sizes of the sets
of centers covering the graph, and their minima are equal. -/
theorem constraints_iff_covers (graph : Graph) (radius : Int) (hr : 0 ≤ radius) :
    (∀ x : Nat → Int, (∀ vertex, vertex < graph.getNbVertices → IsBinary (x vertex)) →
      ((∃ c, SatisfiesConstraints graph radius x c) ↔ CoversWithin graph radius x)) ∧
    ∀ m : Nat,
      (∃ x c, SatisfiesConstraints graph radius x c ∧ objective graph x = m) ↔
        ∃ D : Finset Nat, (∀ u ∈ D, u < graph.getNbVertices) ∧ D.card = m ∧
          ∀ v, v < graph.getNbVertices → ∃ u ∈ D, graph.getDistance u v ≤ radius := by
  refine ⟨fun x hx => ⟨fun ⟨c, hc⟩ => covers_of_constraints graph radius x c hc,
    constraints_of_covers graph radius hr x hx⟩, fun m => ⟨?_, ?_⟩⟩
  · rintro ⟨x, c, hc, hobj⟩
    refine ⟨(Finset.range graph.getNbVertices).filter (fun v => x v = 1), ?_, ?_, ?_⟩
    · intro u hu
      exact Finset.mem_range.1 (Finset.mem_filter.1 hu).1
    · rw [objective_eq_card graph x hc.1] at hobj
      exact_mod_cast hobj
    · intro v hv
      obtain ⟨u, hu, hxu, hd⟩ := covers_of_constraints graph radius x c hc v hv
      exact ⟨u, Finset.mem_filter.2 ⟨Finset.mem_range.2 hu, hxu⟩, hd⟩
  · rintro ⟨D, hD, hcard, hcov⟩
    have hx : ∀ vertex, vertex < graph.getNbVertices →
        IsBinary ((fun u => if u ∈ D then (1 : Int) else 0) vertex) := by
      intro v _
      by_cases h : v ∈ D
      · simp [h, IsBinary]
      · simp [h, IsBinary]
    have hcovers : CoversWithin graph radius (fun u => if u ∈ D then (1 : Int) else 0) := by
      intro v hv
      obtain ⟨u, hu, hd⟩ := hcov v hv
      exact ⟨u, hD u hu, by simp [hu], hd⟩
    obtain ⟨c, hc⟩ := constraints_of_covers graph radius hr _ hx hcovers
    refine ⟨_, c, hc, ?_⟩
    rw [objective_eq_card graph _ hx, ← hcard]
    congr 2
    ext u
    simp only [Finset.mem_filter, Finset.mem_range]
    constructor
    · rintro ⟨_, h⟩
      by_contra hn
      simp [hn] at h
    · intro h
      exact ⟨hD u h, by simp [h]⟩

theorem constraints_iff_covers_witness :
    (0 : Int) ≤ 1 ∧
    (∀ x : Nat → Int, (∀ vertex, vertex < pathGraph.getNbVertices → IsBinary (x vertex)) →
      ((∃ c, SatisfiesConstraints pathGraph 1 x c) ↔ CoversWithin pathGraph 1 x)) ∧
    ∀ m : Nat,
      (∃ x c, SatisfiesConstraints pathGraph 1 x c ∧ objective pathGraph x = m) ↔
        ∃ D : Finset Nat, (∀ u ∈ D, u < pathGraph.getNbVertices) ∧ D.card = m ∧
          ∀ v, v < pathGraph.getNbVertices → ∃ u ∈ D, pathGraph.getDistance u v ≤ 1 :=
  ⟨by decide, constraints_iff_covers pathGraph 1 (by decide)⟩

end AlgorithmMIP
